import Mathlib

/-! MT-dh-serial-kinematics: matrix engine, D-H links and kinematic chain.

A shallow embedding of `MatrixMath.cpp`, `dh_kinematic_link.cpp` and
`dh_kinematic_chain.cpp`, in exact arithmetic: `float` is an arbitrary linearly
ordered field `K` (the rationals for evaluation, the reals for trigonometry).
What is proved over `K` holds of the code as long as no operation rounds,
overflows or meets a NaN. A second embedding of the matrix engine and of the
chain methods it serves, on IEEE-754 binary32 (`Binary32`), evaluates the code
where that fails.

* A `float*` buffer, and a `float[4][4]` array seen through its `(float*)` cast,
  is a map `Nat → K` from offsets to values; `T[i][j]` is offset `4 * i + j`.
* A store `B[x] = v` is `Function.update B x v`.
* A `for` loop is `forUp` (ascending) or `forDown` (descending).
* `sin` and `cos` of `<cmath>` are parameters of the functions that call them.
* A method of a class takes the object and returns the object after the call,
  with the content of each output buffer it wrote.
* Array bounds are preconditions of the source (`noOfLinks ≤ maxLinks`,
  `index < noOfLinks`, buffers as long as the dimensions passed); within them
  a map `Nat → K` behaves as the array does.
-/

namespace DhSerial

variable {K : Type} [LinearOrderedField K]

/-! ## Loops and buffers -/

/-- The loop `for (i = lo; i < lo + cnt; i++) s = body i s`. -/
def forUp {σ : Type} (body : Nat → σ → σ) : Nat → Nat → σ → σ
  | _, 0, s => s
  | lo, cnt + 1, s => forUp body (lo + 1) cnt (body lo s)

/-- The loop `for (k = cnt - 1; k >= 0; k--) s = body k s`. -/
def forDown {σ : Type} (body : Nat → σ → σ) : Nat → σ → σ
  | 0, s => s
  | cnt + 1, s => forDown body cnt (body cnt s)

/-- A local array given by a brace initialiser, flattened row-major. -/
def arr (l : List K) : Nat → K := fun i => l.getD i 0

/-- Contents of a local array declared without an initialiser (`TmTemp`,
`TmLink`); each use below writes every entry before any entry is read. -/
def uninit : Nat → K := fun _ => 0

/-- The square matrix held row-major in the first `n * n` entries of a buffer. -/
def toMatrix (n : Nat) (A : Nat → K) : Matrix (Fin n) (Fin n) K :=
  Matrix.of fun i j => A (n * i.val + j.val)

/-! ## MatrixMath.cpp -/

namespace MatrixMath

/-- `MatrixMath::Copy(A, n, m, B)`: `B[n*i+j] = A[n*i+j]` for `i < m`, `j < n`. -/
def Copy (A : Nat → K) (n m : Nat) (B : Nat → K) : Nat → K :=
  forUp (fun i B =>
    forUp (fun j B => Function.update B (n * i + j) (A (n * i + j))) 0 n B) 0 m B

/-- `MatrixMath::Multiply(A, B, m, p, n, C)`, with `C` a buffer distinct from
`A` and `B`; the result is the new content of `C`. Products and sums are those
of the field, without rounding; `Binary32.MatrixMath.Multiply` is the same
loop with rounded operations. -/
def Multiply (A B : Nat → K) (m p n : Nat) (C : Nat → K) :
    Nat → K :=
  forUp (fun i C =>
    forUp (fun j C =>
      forUp (fun k C =>
          Function.update C (n * i + j) (C (n * i + j) + A (p * i + k) * B (n * k + j)))
        0 p (Function.update C (n * i + j) 0)) 0 n C) 0 m C

/-- `MatrixMath::Multiply(A, B, m, p, n, C)` on one flat memory, the three
pointers given as addresses: the same loops as `Multiply`, with every load and
store going through `mem`, so that overlapping buffers interfere as in the
source. The result is the memory after the call. Products and sums are
those of the field, without rounding. -/
def MultiplyMem (mem : Nat → K) (A B C : Nat) (m p n : Nat) : Nat → K :=
  forUp (fun i mem =>
    forUp (fun j mem =>
      forUp (fun k mem =>
          Function.update mem (C + (n * i + j))
            (mem (C + (n * i + j)) + mem (A + (p * i + k)) * mem (B + (n * k + j))))
        0 p (Function.update mem (C + (n * i + j)) 0)) 0 n mem) 0 m mem

/-- `MatrixMath::Copy(A, n, m, B)` on one flat memory, the two pointers given
as addresses. The result is the memory after the call. -/
def CopyMem (mem : Nat → K) (A : Nat) (n m : Nat) (B : Nat) : Nat → K :=
  forUp (fun i mem =>
    forUp (fun j mem => Function.update mem (B + (n * i + j)) (mem (A + (n * i + j))))
      0 n mem) 0 m mem

/-- The locals of `MatrixMath::Invert` that live across iterations of the
outer loop: the buffer, the swap history and the current pivot row. -/
structure InvertState (K : Type) where
  A : Nat → K
  pivrows : Nat → Nat
  pivrow : Nat

/-- Pivot search of `Invert` (lines 210-218): returns the final `(tmp, pivrow)`.
In an ordered field the test `abs(A[i * n + k]) >= tmp` holds at the first
row, so that `pivrow` is assigned in every search; on a `float` it is false
for a NaN (`Binary32.MatrixMath.findPivot`). -/
def findPivot (A : Nat → K) (n k pivrow : Nat) : K × Nat :=
  forUp (fun i (s : K × Nat) =>
    if |A (i * n + k)| ≥ s.1 then (|A (i * n + k)|, i) else s) k (n - k) (0, pivrow)

/-- Row swap of `Invert` (lines 232-237): swap row `k` with row `pivrow`. -/
def swapRows (A : Nat → K) (n k pivrow : Nat) : Nat → K :=
  forUp (fun j A =>
    let tmp := A (k * n + j)
    let A1 := Function.update A (k * n + j) (A (pivrow * n + j))
    Function.update A1 (pivrow * n + j) tmp) 0 n A

/-- Row reduction of `Invert` (lines 241-248): the pivot entry becomes 1 and
row `k` is multiplied by the inverted pivot. -/
def reduceRow (A : Nat → K) (n k : Nat) : Nat → K :=
  let tmp := 1 / A (k * n + k)
  let A1 := Function.update A (k * n + k) 1
  forUp (fun j A => Function.update A (k * n + j) (A (k * n + j) * tmp)) 0 n A1

/-- Elimination of `Invert` (lines 251-262): clear column `k` in every other row. -/
def eliminate (A : Nat → K) (n k : Nat) : Nat → K :=
  forUp (fun i A =>
    if i ≠ k then
      let tmp := A (i * n + k)
      let A1 := Function.update A (i * n + k) 0
      forUp (fun j A => Function.update A (i * n + j) (A (i * n + j) - A (k * n + j) * tmp))
        0 n A1
    else A) 0 n A

/-- The outer loop of `Invert` (lines 207-263), `cnt` iterations starting at
column `k`. The flag is `false` when the singular check returned early. All
operations are those of the field: no overflow, no infinity, no NaN
(`Binary32.MatrixMath.kLoop` has them). -/
def kLoop (n : Nat) : Nat → Nat → InvertState K → Bool × InvertState K
  | 0, _, s => (true, s)
  | cnt + 1, k, s =>
    let pivrow := (findPivot s.A n k s.pivrow).2
    if s.A (pivrow * n + k) = 0 then (false, { s with pivrow := pivrow })
    else
      let A1 := if pivrow ≠ k then swapRows s.A n k pivrow else s.A
      let pivrows := Function.update s.pivrows k pivrow
      let A2 := reduceRow A1 n k
      let A3 := eliminate A2 n k
      kLoop n cnt (k + 1) { A := A3, pivrows := pivrows, pivrow := pivrow }

/-- Column swap of `Invert` (lines 270-275): swap column `k` with column `p`. -/
def swapCols (A : Nat → K) (n k p : Nat) : Nat → K :=
  forUp (fun i A =>
    let tmp := A (i * n + k)
    let A1 := Function.update A (i * n + k) (A (i * n + p))
    Function.update A1 (i * n + p) tmp) 0 n A

/-- The undo loop of `Invert` (lines 266-277): column swaps in reverse order. -/
def undoSwaps (A : Nat → K) (n : Nat) (pivrows : Nat → Nat) : Nat → K :=
  forDown (fun k A => if pivrows k ≠ k then swapCols A n k (pivrows k) else A) n A

/-- `MatrixMath::Invert(A, n)`: the return code and the buffer after the call.
`pivrows` is allocated without initialiser; entry `k` is written at step `k`
before the undo loop reads it. -/
def Invert (A : Nat → K) (n : Nat) : Int × (Nat → K) :=
  match kLoop n n 0 { A := A, pivrows := fun _ => 0, pivrow := 0 } with
  | (false, s) => (0, s.A)
  | (true, s) => (1, undoSwaps s.A n s.pivrows)

end MatrixMath

/-! ## dh_math_utils.cpp -/

namespace DhMathUtils

variable (sin cos : K → K)

/-- `rotx(ROutput, theta)`; the result is the new content of `ROutput`. -/
def rotx (ROutput : Nat → K) (theta : K) : Nat → K :=
  let sint := sin theta
  let cost := cos theta
  let R : Nat → K := arr [1, 0, 0,
                          0, cost, -sint,
                          0, sint, cost]
  MatrixMath.Copy R 3 3 ROutput

/-- `trotx(TmOutput, theta)`. -/
def trotx (TmOutput : Nat → K) (theta : K) : Nat → K :=
  let sint := sin theta
  let cost := cos theta
  let Tm : Nat → K := arr [1, 0, 0, 0,
                           0, cost, -sint, 0,
                           0, sint, cost, 0,
                           0, 0, 0, 1]
  MatrixMath.Copy Tm 4 4 TmOutput

/-- `roty(ROutput, theta)`. -/
def roty (ROutput : Nat → K) (theta : K) : Nat → K :=
  let sint := sin theta
  let cost := cos theta
  let R : Nat → K := arr [cost, 0, sint,
                          0, 1, 0,
                          -sint, 0, cost]
  MatrixMath.Copy R 3 3 ROutput

/-- `troty(TmOutput, theta)`. -/
def troty (TmOutput : Nat → K) (theta : K) : Nat → K :=
  let sint := sin theta
  let cost := cos theta
  let Tm : Nat → K := arr [cost, 0, sint, 0,
                           0, 1, 0, 0,
                           -sint, 0, cost, 0,
                           0, 0, 0, 1]
  MatrixMath.Copy Tm 4 4 TmOutput

/-- `rotz(ROutput, theta)`. -/
def rotz (ROutput : Nat → K) (theta : K) : Nat → K :=
  let sint := sin theta
  let cost := cos theta
  let R : Nat → K := arr [cost, -sint, 0,
                          sint, cost, 0,
                          0, 0, 1]
  MatrixMath.Copy R 3 3 ROutput

/-- `trotz(TmOutput, theta)`. -/
def trotz (TmOutput : Nat → K) (theta : K) : Nat → K :=
  let sint := sin theta
  let cost := cos theta
  let Tm : Nat → K := arr [cost, -sint, 0, 0,
                           sint, cost, 0, 0,
                           0, 0, 1, 0,
                           0, 0, 0, 1]
  MatrixMath.Copy Tm 4 4 TmOutput

/-- `rotxyz(ROutput, thetaX, thetaY, thetaZ)`. -/
def rotxyz (ROutput : Nat → K) (thetaX thetaY thetaZ : K) : Nat → K :=
  let c1 := cos thetaX
  let c2 := cos thetaY
  let c3 := cos thetaZ
  let s1 := sin thetaX
  let s2 := sin thetaY
  let s3 := sin thetaZ
  let R : Nat → K := arr [c2 * c3, -c2 * s3, s2,
                          (c1 * s3) + (c3 * s1 * s2), (c1 * c3) - (s1 * s2 * s3), -c2 * s1,
                          (s1 * s3) - (c1 * c3 * s2), (c3 * s1) + (c1 * s2 * s3), c1 * c2]
  MatrixMath.Copy R 3 3 ROutput

/-- `trotxyz(TmOutput, thetaX, thetaY, thetaZ)`. -/
def trotxyz (TmOutput : Nat → K) (thetaX thetaY thetaZ : K) : Nat → K :=
  let c1 := cos thetaX
  let c2 := cos thetaY
  let c3 := cos thetaZ
  let s1 := sin thetaX
  let s2 := sin thetaY
  let s3 := sin thetaZ
  let Tm : Nat → K := arr [c2 * c3, -c2 * s3, s2, 0,
                           (c1 * s3) + (c3 * s1 * s2), (c1 * c3) - (s1 * s2 * s3), -c2 * s1, 0,
                           (s1 * s3) - (c1 * c3 * s2), (c3 * s1) + (c1 * s2 * s3), c1 * c2, 0,
                           0, 0, 0, 1]
  MatrixMath.Copy Tm 4 4 TmOutput

/-- `rotzyx(ROutput, thetaZ, thetaY, thetaX)`. -/
def rotzyx (ROutput : Nat → K) (thetaZ thetaY thetaX : K) : Nat → K :=
  let c1 := cos thetaZ
  let c2 := cos thetaY
  let c3 := cos thetaX
  let s1 := sin thetaZ
  let s2 := sin thetaY
  let s3 := sin thetaX
  let R : Nat → K := arr [c1 * c2, (c1 * s2 * s3) - (c3 * s1), (s1 * s3) + (c1 * c3 * s2),
                          c2 * s1, (c1 * c3) + (s1 * s2 * s3), (c3 * s1 * s2) - (c1 * s3),
                          -s2, c2 * s3, c2 * c3]
  MatrixMath.Copy R 3 3 ROutput

/-- `trotzyx(TmOutput, thetaZ, thetaY, thetaX)`. -/
def trotzyx (TmOutput : Nat → K) (thetaZ thetaY thetaX : K) : Nat → K :=
  let c1 := cos thetaZ
  let c2 := cos thetaY
  let c3 := cos thetaX
  let s1 := sin thetaZ
  let s2 := sin thetaY
  let s3 := sin thetaX
  let Tm : Nat → K := arr [c1 * c2, (c1 * s2 * s3) - (c3 * s1), (s1 * s3) + (c1 * c3 * s2), 0,
                           c2 * s1, (c1 * c3) + (s1 * s2 * s3), (c3 * s1 * s2) - (c1 * s3), 0,
                           -s2, c2 * s3, c2 * c3, 0,
                           0, 0, 0, 1]
  MatrixMath.Copy Tm 4 4 TmOutput

/-- `transl(TmOutput, x, y, z)`. -/
def transl (TmOutput : Nat → K) (x y z : K) : Nat → K :=
  let Tm : Nat → K := arr [1, 0, 0, x,
                           0, 1, 0, y,
                           0, 0, 1, z,
                           0, 0, 0, 1]
  MatrixMath.Copy Tm 4 4 TmOutput

/-- The constant `pi` of `dh_math_utils.h`,
`constexpr double pi = 3.14159265358979323846`: the `double` nearest to that
decimal, `0x400921FB54442D18`, which is `884279719003555 / 2^48`, about
`1.22 * 10^(-16)` below π. -/
def pi : K := 884279719003555 / 2 ^ 48

/-- `atan3(num, denom)`. The `atan2` of `<cmath>` and the constant `pi` are
parameters; over the reals `atan2` is the argument of `denom + i * num`, and
`pi` is either the constant `DhMathUtils.pi` of the header or, where the
difference between the two is left aside, π. -/
def atan3 (atan2 : K → K → K) (pi : K) (num denom : K) : K :=
  let theta := atan2 num denom
  if theta < 0 then 2 * pi + theta else theta

end DhMathUtils

/-! ## dh_kinematic_link.cpp -/

/-- The data members of `class DhKinematicLink`. -/
structure DhKinematicLink (K : Type) where
  theta : K
  d : K
  a : K
  alpha : K

namespace DhKinematicLink

/-- The constructor `DhKinematicLink()`. -/
def zero : DhKinematicLink K := { theta := 0, d := 0, a := 0, alpha := 0 }

/-- The constructor `DhKinematicLink(thetaInput, dInput, aInput, alphaInput)`. -/
def ofParams (thetaInput dInput aInput alphaInput : K) : DhKinematicLink K :=
  { theta := thetaInput, d := dInput, a := aInput, alpha := alphaInput }

/-- `DhKinematicLink::get_Tm(TmOutput, qInput)`: the link after the call and
the new content of `TmOutput`. -/
def get_Tm (sin cos : K → K) (l : DhKinematicLink K) (TmOutput : Nat → K) (qInput : K) :
    DhKinematicLink K × (Nat → K) :=
  let l1 : DhKinematicLink K := { l with theta := qInput }
  let sina := sin l1.alpha
  let cosa := cos l1.alpha
  let sint := sin l1.theta
  let cost := cos l1.theta
  let Tm : Nat → K := arr [cost, -sint * cosa, sint * sina, l1.a * cost,
                           sint, cost * cosa, -cost * sina, l1.a * sint,
                           0, sina, cosa, l1.d,
                           0, 0, 0, 1]
  (l1, MatrixMath.Copy Tm 4 4 TmOutput)

/-- `DhKinematicLink::get_a()`. -/
def get_a (l : DhKinematicLink K) : K := l.a

end DhKinematicLink

/-! ## dh_kinematic_chain.cpp -/

/-- The data members of `class DhKinematicChain`; `links` and `qCurrent` have
capacity `maxLinks`, the three matrices are `float[4][4]`. -/
structure DhKinematicChain (K : Type) where
  noOfLinks : Nat
  links : Nat → DhKinematicLink K
  qCurrent : Nat → K
  TmCurrent : Nat → K
  zOffset : K
  TmTool : Nat → K
  TmToolInv : Nat → K

namespace DhKinematicChain

/-- Convenience array access index `i1`. -/
abbrev i1 : Nat := 0
/-- Convenience array access index `i2`. -/
abbrev i2 : Nat := 1
/-- Convenience array access index `i3`. -/
abbrev i3 : Nat := 2
/-- Convenience array access index `i4`. -/
abbrev i4 : Nat := 3
/-- Capacity of `links` and `qCurrent`. -/
abbrev maxLinks : Nat := 7

/-- The constructor `DhKinematicChain(noOflinksInput, linksInput)`. The members
`qCurrent` and `TmCurrent` have no initialiser: what they hold after
construction is whatever the storage held, given here as `qMem` and `TmMem`. -/
def construct (noOflinksInput : Nat) (linksInput : Nat → DhKinematicLink K)
    (qMem TmMem : Nat → K) : DhKinematicChain K :=
  let zOffset : K := 0
  { noOfLinks := noOflinksInput
    links := forUp (fun i links => Function.update links i (linksInput i)) 0 noOflinksInput
      (fun _ => DhKinematicLink.zero)
    qCurrent := qMem
    TmCurrent := TmMem
    zOffset := zOffset
    TmTool := arr [1, 0, 0, 0,
                   0, 1, 0, 0,
                   0, 0, 1, 0 + zOffset,
                   0, 0, 0, 1]
    TmToolInv := arr [1, 0, 0, 0,
                      0, 1, 0, 0,
                      0, 0, 1, 0,
                      0, 0, 0, 1] }

/-- The locals of `fKine` that live across loop iterations, with the links
(whose stored `theta` is overwritten by `get_Tm`). -/
structure FKineState (K : Type) where
  links : Nat → DhKinematicLink K
  Tm : Nat → K
  TmLink : Nat → K
  TmTemp : Nat → K

/-- One iteration of the loop of `fKine` (lines 187-189). -/
def fKineBody (sin cos : K → K) (qInput : Nat → K) (i : Nat) (s : FKineState K) :
    FKineState K :=
  let r := (s.links i).get_Tm sin cos s.TmLink (qInput i)
  let TmTemp := MatrixMath.Multiply s.Tm r.2 4 4 4 s.TmTemp
  { links := Function.update s.links i r.1
    Tm := MatrixMath.Copy TmTemp 4 4 s.Tm
    TmLink := r.2
    TmTemp := TmTemp }

/-- `DhKinematicChain::fKine(TmOutput, qInput)`: the chain after the call and
the new content of `TmOutput`. -/
def fKine (sin cos : K → K) (c : DhKinematicChain K) (TmOutput qInput : Nat → K) :
    DhKinematicChain K × (Nat → K) :=
  let Tm : Nat → K := arr [1, 0, 0, 0,
                           0, 1, 0, 0,
                           0, 0, 1, 0,
                           0, 0, 0, 1]
  let s := forUp (fKineBody sin cos qInput) 0 c.noOfLinks
    { links := c.links, Tm := Tm, TmLink := uninit, TmTemp := uninit }
  ({ c with links := s.links }, MatrixMath.Copy s.Tm 4 4 TmOutput)

/-- `DhKinematicChain::fKineWithBaseAndTool()`. -/
def fKineWithBaseAndTool (sin cos : K → K) (c : DhKinematicChain K) : DhKinematicChain K :=
  let r := fKine sin cos c c.TmCurrent c.qCurrent
  let c1 : DhKinematicChain K := { r.1 with TmCurrent := r.2 }
  let TmTemp := MatrixMath.Multiply c1.TmCurrent c1.TmTool 4 4 4 uninit
  { c1 with TmCurrent := MatrixMath.Copy TmTemp 4 4 c1.TmCurrent }

/-- `DhKinematicChain::set_qCurrent(qCurrentInput)`. -/
def set_qCurrent (sin cos : K → K) (c : DhKinematicChain K) (qCurrentInput : Nat → K) :
    DhKinematicChain K :=
  let q := forUp (fun i q => Function.update q i (qCurrentInput i)) 0 c.noOfLinks c.qCurrent
  fKineWithBaseAndTool sin cos { c with qCurrent := q }

/-- `DhKinematicChain::set_qCurrentValue(index, qValue)`. -/
def set_qCurrentValue (sin cos : K → K) (c : DhKinematicChain K) (index : Nat) (qValue : K) :
    DhKinematicChain K :=
  fKineWithBaseAndTool sin cos { c with qCurrent := Function.update c.qCurrent index qValue }

/-- `DhKinematicChain::get_qCurrent(qCurrentOutput)`. -/
def get_qCurrent (c : DhKinematicChain K) (qCurrentOutput : Nat → K) : Nat → K :=
  forUp (fun i out => Function.update out i (c.qCurrent i)) 0 c.noOfLinks qCurrentOutput

/-- `DhKinematicChain::get_qCurrentValue(index)`. -/
def get_qCurrentValue (c : DhKinematicChain K) (index : Nat) : K := c.qCurrent index

/-- `DhKinematicChain::get_TmCurrent(TmCurrentOutput)`. -/
def get_TmCurrent (c : DhKinematicChain K) (TmCurrentOutput : Nat → K) : Nat → K :=
  MatrixMath.Copy c.TmCurrent 4 4 TmCurrentOutput

/-- `DhKinematicChain::set_TmCurrentPosition(pxInput, pyInput, pzInput)`. -/
def set_TmCurrentPosition (c : DhKinematicChain K) (pxInput pyInput pzInput : K) :
    DhKinematicChain K :=
  let T1 := Function.update c.TmCurrent (4 * i1 + i4) pxInput
  let T2 := Function.update T1 (4 * i2 + i4) pyInput
  let T3 := Function.update T2 (4 * i3 + i4) pzInput
  let T4 := Function.update T3 (4 * i4 + i4) 1
  { c with TmCurrent := T4 }

/-- `DhKinematicChain::get_TmCurrentPosition(TmCurrentPosOutput)`. -/
def get_TmCurrentPosition (c : DhKinematicChain K) (TmCurrentPosOutput : Nat → K) : Nat → K :=
  let o1 := Function.update TmCurrentPosOutput i1 (c.TmCurrent (4 * i1 + i4))
  let o2 := Function.update o1 i2 (c.TmCurrent (4 * i2 + i4))
  Function.update o2 i3 (c.TmCurrent (4 * i3 + i4))

/-- `DhKinematicChain::set_TmCurrentOrientation(thetaX, thetaY, thetaZ, order)`. -/
def set_TmCurrentOrientation (sin cos : K → K) (c : DhKinematicChain K)
    (thetaX thetaY thetaZ : K) (order : Int) : DhKinematicChain K :=
  let px := c.TmCurrent (4 * i1 + i4)
  let py := c.TmCurrent (4 * i2 + i4)
  let pz := c.TmCurrent (4 * i3 + i4)
  let p4 := c.TmCurrent (4 * i4 + i4)
  let T0 :=
    if order = 1 then DhMathUtils.trotxyz sin cos c.TmCurrent thetaX thetaY thetaZ
    else if order = 2 then DhMathUtils.trotzyx sin cos c.TmCurrent thetaZ thetaY thetaX
    else c.TmCurrent
  let T1 := Function.update T0 (4 * i1 + i4) px
  let T2 := Function.update T1 (4 * i2 + i4) py
  let T3 := Function.update T2 (4 * i3 + i4) pz
  let T4 := Function.update T3 (4 * i4 + i4) p4
  { c with TmCurrent := T4 }

/-- `DhKinematicChain::multiply_TmCurrentByTm(TmInput)`. -/
def multiply_TmCurrentByTm (c : DhKinematicChain K) (TmInput : Nat → K) : DhKinematicChain K :=
  let TmTemp := MatrixMath.Multiply c.TmCurrent TmInput 4 4 4 uninit
  { c with TmCurrent := MatrixMath.Copy TmTemp 4 4 c.TmCurrent }

/-- `DhKinematicChain::multiply_TmCurrentByTm(TmInput)` on one flat memory:
`TmCurrent` is the address of the member, `TmInput` the address the caller
passes and `TmTemp` the address of the local array. The result is the memory
after the call. -/
def multiply_TmCurrentByTmMem (mem : Nat → K) (TmCurrent TmInput TmTemp : Nat) : Nat → K :=
  let mem1 := MatrixMath.MultiplyMem mem TmCurrent TmInput TmTemp 4 4 4
  MatrixMath.CopyMem mem1 TmTemp 4 4 TmCurrent

/-- `DhKinematicChain::updateTmToolInverse()`: a `void` method; the return
value of `Invert` is not used. -/
def updateTmToolInverse (c : DhKinematicChain K) : DhKinematicChain K :=
  let T := MatrixMath.Copy c.TmTool 4 4 c.TmToolInv
  { c with TmToolInv := (MatrixMath.Invert T 4).2 }

/-- `DhKinematicChain::get_TmTool(TmToolOutput)`. -/
def get_TmTool (c : DhKinematicChain K) (TmToolOutput : Nat → K) : Nat → K :=
  MatrixMath.Copy c.TmTool 4 4 TmToolOutput

/-- `DhKinematicChain::get_TmToolInverse(TmToolInverseOutput)`. -/
def get_TmToolInverse (c : DhKinematicChain K) (TmToolInverseOutput : Nat → K) : Nat → K :=
  MatrixMath.Copy c.TmToolInv 4 4 TmToolInverseOutput

/-- `DhKinematicChain::setZoffset(zOffsetInput)`. -/
def setZoffset (sin cos : K → K) (c : DhKinematicChain K) (zOffsetInput : K) :
    DhKinematicChain K :=
  let T := Function.update c.TmTool (4 * i3 + i4) (c.TmTool (4 * i3 + i4) - c.zOffset + zOffsetInput)
  let c1 : DhKinematicChain K := { c with TmTool := T, zOffset := zOffsetInput }
  fKineWithBaseAndTool sin cos (updateTmToolInverse c1)

/-- `DhKinematicChain::get_zOffset()`. -/
def get_zOffset (c : DhKinematicChain K) : K := c.zOffset

/-- `DhKinematicChain::setToolTransformPosition(dx, dy, dz, zOffset)`. -/
def setToolTransformPosition (sin cos : K → K) (c : DhKinematicChain K)
    (dxToolInput dyToolInput dzToolInput zOffsetToolInput : K) : DhKinematicChain K :=
  let T1 := Function.update c.TmTool (4 * i1 + i4) dxToolInput
  let T2 := Function.update T1 (4 * i2 + i4) dyToolInput
  let T3 := Function.update T2 (4 * i3 + i4) (dzToolInput + zOffsetToolInput)
  let T4 := Function.update T3 (4 * i4 + i4) 1
  let c1 : DhKinematicChain K := { c with zOffset := zOffsetToolInput, TmTool := T4 }
  fKineWithBaseAndTool sin cos (updateTmToolInverse c1)

/-- `DhKinematicChain::setToolTransformPositionToZero()`. -/
def setToolTransformPositionToZero (sin cos : K → K) (c : DhKinematicChain K) :
    DhKinematicChain K :=
  let T1 := Function.update c.TmTool (4 * i1 + i4) 0
  let T2 := Function.update T1 (4 * i2 + i4) 0
  let T3 := Function.update T2 (4 * i3 + i4) 0
  let T4 := Function.update T3 (4 * i4 + i4) 1
  let c1 : DhKinematicChain K := { c with zOffset := 0, TmTool := T4 }
  fKineWithBaseAndTool sin cos (updateTmToolInverse c1)

end DhKinematicChain

/-! ## The same code on binary32

The definitions above take `float` as an exact ordered field. The ones below
take it as IEEE-754 binary32 with rounding to nearest, ties to even, every
arithmetic operation rounded once. They repeat the source function by
function on the type `F32`, and serve to evaluate the code at inputs where a
rounding, an overflow to an infinity or a NaN takes it away from the exact
model. -/

namespace Binary32

/-- An IEEE-754 binary32 value. `fin s k` is the finite number
`(-1)^s * k * 2^(-149)`: every finite binary32 number is an integer multiple
of the smallest subnormal `2^(-149)`, and `k` is that multiple, below
`2^128 * 2^149`, with at most 24 significant bits once it reaches `2^24`;
`fin true 0` is the negative zero. `inf s` is the infinity of sign `s` and
`nan` stands for every NaN. -/
inductive F32 where
  | fin (neg : Bool) (k : Nat)
  | inf (neg : Bool)
  | nan
  deriving DecidableEq

namespace F32

/-- The integer nearest to `num / den`, the even one of the two when
`num / den` lies halfway between them (`den > 0`). -/
def roundHalfEven (num den : Nat) : Nat :=
  let q := num / den
  let r := num % den
  if 2 * r < den then q
  else if den < 2 * r then q + 1
  else if q % 2 = 0 then q else q + 1

/-- The binary32 value nearest to `(-1)^neg * (num / den) * 2^(-149)`
(`den > 0`), ties to even. With `e` the least exponent for which
`num / den < 2^(24 + e)`, the binary32 numbers around `num / den` are the
multiples of `2^e`; a result of `2^128 * 2^149` or more is an overflow and
gives the infinity, as does a quotient beyond the last binade (`e > 253`). -/
def round (neg : Bool) (num den : Nat) : F32 :=
  match (List.range 254).find? (fun e => num / den / 2 ^ e < 2 ^ 24) with
  | none => inf neg
  | some e =>
    let k := roundHalfEven num (den * 2 ^ e) * 2 ^ e
    if k < 2 ^ 128 * 2 ^ 149 then fin neg k else inf neg

/-- Unary minus: the sign is flipped, also that of a zero or an infinity. -/
def neg : F32 → F32
  | fin s k => fin (!s) k
  | inf s => inf (!s)
  | nan => nan

/-- Addition. Infinities of opposite sign give NaN; two finite numbers of
opposite sign and equal magnitude give `+0`. -/
def add : F32 → F32 → F32
  | nan, _ => nan
  | _, nan => nan
  | inf s, inf t => if s = t then inf s else nan
  | inf s, fin _ _ => inf s
  | fin _ _, inf t => inf t
  | fin s a, fin t b =>
    if s = t then round s (a + b) 1
    else if b < a then round s (a - b) 1
    else if a < b then round t (b - a) 1
    else fin false 0

/-- Subtraction, `x - y = x + (-y)`. -/
def sub (x y : F32) : F32 := add x (neg y)

/-- Multiplication. An infinity times a zero is NaN; the sign of any other
product is the exclusive or of the signs. -/
def mul : F32 → F32 → F32
  | nan, _ => nan
  | _, nan => nan
  | inf s, inf t => inf (xor s t)
  | inf s, fin t b => if b = 0 then nan else inf (xor s t)
  | fin s a, inf t => if a = 0 then nan else inf (xor s t)
  | fin s a, fin t b => round (xor s t) (a * b) (2 ^ 149)

/-- Division. `inf / inf` and `0 / 0` are NaN, a non-zero number over a zero
is an infinity, a finite number over an infinity is a zero. -/
def div : F32 → F32 → F32
  | nan, _ => nan
  | _, nan => nan
  | inf _, inf _ => nan
  | inf s, fin t _ => inf (xor s t)
  | fin s _, inf t => fin (xor s t) 0
  | fin s a, fin t b =>
    if b = 0 then (if a = 0 then nan else inf (xor s t))
    else round (xor s t) (a * 2 ^ 149) b

/-- Absolute value, `abs` of `<cmath>` on a `float`: the sign is cleared. -/
def abs : F32 → F32
  | fin _ k => fin false k
  | inf _ => inf false
  | nan => nan

/-- The signed multiple of `2^(-149)` a finite value stands for. -/
def toInt (s : Bool) (k : Nat) : Int := if s then -(k : Int) else (k : Int)

/-- The comparison `x >= y`: false as soon as one side is NaN. -/
def ge : F32 → F32 → Bool
  | nan, _ => false
  | _, nan => false
  | inf s, inf t => !s || t
  | inf s, fin _ _ => !s
  | fin _ _, inf t => t
  | fin s a, fin t b => decide (toInt t b ≤ toInt s a)

/-- The comparison `x == y`: false as soon as one side is NaN, true of the
two zeros. -/
def eq : F32 → F32 → Bool
  | fin s a, fin t b => (a == 0 && b == 0) || (s == t && a == b)
  | inf s, inf t => s == t
  | _, _ => false

instance : Zero F32 := ⟨fin false 0⟩

instance : One F32 := ⟨fin false (2 ^ 149)⟩

instance : Neg F32 := ⟨neg⟩

instance : Add F32 := ⟨add⟩

instance : Sub F32 := ⟨sub⟩

instance : Mul F32 := ⟨mul⟩

instance : Div F32 := ⟨div⟩

/-- The binary32 value of the natural number `n`, rounded when `n` has more
than 24 significant bits. -/
def ofNat (n : Nat) : F32 := round false (n * 2 ^ 149) 1

/-- The rational number a finite value stands for (0 for an infinity or NaN). -/
def toRat : F32 → ℚ
  | fin s k => (if s then -1 else 1) * (k : ℚ) / 2 ^ 149
  | _ => 0

end F32

/-- A local array given by a brace initialiser, flattened row-major. -/
def arr (l : List F32) : Nat → F32 := fun i => l.getD i 0

/-- Contents of a local array declared without an initialiser; each use
below writes every entry before any entry is read. -/
def uninit : Nat → F32 := fun _ => 0

namespace MatrixMath

/-- `MatrixMath::Copy(A, n, m, B)`. -/
def Copy (A : Nat → F32) (n m : Nat) (B : Nat → F32) : Nat → F32 :=
  forUp (fun i B =>
    forUp (fun j B => Function.update B (n * i + j) (A (n * i + j))) 0 n B) 0 m B

/-- `MatrixMath::Multiply(A, B, m, p, n, C)`, with `C` a buffer distinct from
`A` and `B`: every product and every partial sum is rounded. -/
def Multiply (A B : Nat → F32) (m p n : Nat) (C : Nat → F32) : Nat → F32 :=
  forUp (fun i C =>
    forUp (fun j C =>
      forUp (fun k C =>
          Function.update C (n * i + j) (C (n * i + j) + A (p * i + k) * B (n * k + j)))
        0 p (Function.update C (n * i + j) 0)) 0 n C) 0 m C

/-- Pivot search of `Invert` (lines 210-218): returns the final `(tmp, pivrow)`.
The test `abs(A[i * n + k]) >= tmp` is false on a NaN entry. -/
def findPivot (A : Nat → F32) (n k pivrow : Nat) : F32 × Nat :=
  forUp (fun i (s : F32 × Nat) =>
    if F32.ge (F32.abs (A (i * n + k))) s.1 then (F32.abs (A (i * n + k)), i) else s)
    k (n - k) (0, pivrow)

/-- Row swap of `Invert` (lines 232-237). -/
def swapRows (A : Nat → F32) (n k pivrow : Nat) : Nat → F32 :=
  forUp (fun j A =>
    let tmp := A (k * n + j)
    let A1 := Function.update A (k * n + j) (A (pivrow * n + j))
    Function.update A1 (pivrow * n + j) tmp) 0 n A

/-- Row reduction of `Invert` (lines 241-248). -/
def reduceRow (A : Nat → F32) (n k : Nat) : Nat → F32 :=
  let tmp := 1 / A (k * n + k)
  let A1 := Function.update A (k * n + k) 1
  forUp (fun j A => Function.update A (k * n + j) (A (k * n + j) * tmp)) 0 n A1

/-- Elimination of `Invert` (lines 251-262). -/
def eliminate (A : Nat → F32) (n k : Nat) : Nat → F32 :=
  forUp (fun i A =>
    if i ≠ k then
      let tmp := A (i * n + k)
      let A1 := Function.update A (i * n + k) 0
      forUp (fun j A => Function.update A (i * n + j) (A (i * n + j) - A (k * n + j) * tmp))
        0 n A1
    else A) 0 n A

/-- The outer loop of `Invert` (lines 207-263), `cnt` iterations starting at
column `k`. The flag is `false` when the singular check
`A[pivrow * n + k] == 0.0f` returned early. -/
def kLoop (n : Nat) : Nat → Nat → DhSerial.MatrixMath.InvertState F32 → Bool × DhSerial.MatrixMath.InvertState F32
  | 0, _, s => (true, s)
  | cnt + 1, k, s =>
    let pivrow := (findPivot s.A n k s.pivrow).2
    if F32.eq (s.A (pivrow * n + k)) 0 then (false, { s with pivrow := pivrow })
    else
      let A1 := if pivrow ≠ k then swapRows s.A n k pivrow else s.A
      let pivrows := Function.update s.pivrows k pivrow
      let A2 := reduceRow A1 n k
      let A3 := eliminate A2 n k
      kLoop n cnt (k + 1) { A := A3, pivrows := pivrows, pivrow := pivrow }

/-- Column swap of `Invert` (lines 270-275). -/
def swapCols (A : Nat → F32) (n k p : Nat) : Nat → F32 :=
  forUp (fun i A =>
    let tmp := A (i * n + k)
    let A1 := Function.update A (i * n + k) (A (i * n + p))
    Function.update A1 (i * n + p) tmp) 0 n A

/-- The undo loop of `Invert` (lines 266-277). -/
def undoSwaps (A : Nat → F32) (n : Nat) (pivrows : Nat → Nat) : Nat → F32 :=
  forDown (fun k A => if pivrows k ≠ k then swapCols A n k (pivrows k) else A) n A

/-- `MatrixMath::Invert(A, n)`: the return code and the buffer after the call. -/
def Invert (A : Nat → F32) (n : Nat) : Int × (Nat → F32) :=
  match kLoop n n 0 { A := A, pivrows := fun _ => 0, pivrow := 0 } with
  | (false, s) => (0, s.A)
  | (true, s) => (1, undoSwaps s.A n s.pivrows)

end MatrixMath

namespace DhKinematicLink

/-- The constructor `DhKinematicLink()`. -/
def zero : DhKinematicLink F32 := { theta := 0, d := 0, a := 0, alpha := 0 }

/-- `DhKinematicLink::get_Tm(TmOutput, qInput)`, with the `sin` and `cos` of
the platform as parameters. -/
def get_Tm (sin cos : F32 → F32) (l : DhKinematicLink F32) (TmOutput : Nat → F32)
    (qInput : F32) : DhKinematicLink F32 × (Nat → F32) :=
  let l1 : DhKinematicLink F32 := { l with theta := qInput }
  let sina := sin l1.alpha
  let cosa := cos l1.alpha
  let sint := sin l1.theta
  let cost := cos l1.theta
  let Tm : Nat → F32 := arr [cost, -sint * cosa, sint * sina, l1.a * cost,
                             sint, cost * cosa, -cost * sina, l1.a * sint,
                             0, sina, cosa, l1.d,
                             0, 0, 0, 1]
  (l1, MatrixMath.Copy Tm 4 4 TmOutput)

end DhKinematicLink

namespace DhKinematicChain

open DhSerial.DhKinematicChain (i1 i2 i3 i4)

/-- The constructor `DhKinematicChain(noOflinksInput, linksInput)`; `qMem` and
`TmMem` are what the storage of `qCurrent` and `TmCurrent` held. -/
def construct (noOflinksInput : Nat) (linksInput : Nat → DhKinematicLink F32)
    (qMem TmMem : Nat → F32) : DhKinematicChain F32 :=
  let zOffset : F32 := 0
  { noOfLinks := noOflinksInput
    links := forUp (fun i links => Function.update links i (linksInput i)) 0 noOflinksInput
      (fun _ => DhKinematicLink.zero)
    qCurrent := qMem
    TmCurrent := TmMem
    zOffset := zOffset
    TmTool := arr [1, 0, 0, 0,
                   0, 1, 0, 0,
                   0, 0, 1, 0 + zOffset,
                   0, 0, 0, 1]
    TmToolInv := arr [1, 0, 0, 0,
                      0, 1, 0, 0,
                      0, 0, 1, 0,
                      0, 0, 0, 1] }

/-- One iteration of the loop of `fKine` (lines 187-189). -/
def fKineBody (sin cos : F32 → F32) (qInput : Nat → F32) (i : Nat) (s : DhSerial.DhKinematicChain.FKineState F32) :
    DhSerial.DhKinematicChain.FKineState F32 :=
  let r := DhKinematicLink.get_Tm sin cos (s.links i) s.TmLink (qInput i)
  let TmTemp := MatrixMath.Multiply s.Tm r.2 4 4 4 s.TmTemp
  { links := Function.update s.links i r.1
    Tm := MatrixMath.Copy TmTemp 4 4 s.Tm
    TmLink := r.2
    TmTemp := TmTemp }

/-- `DhKinematicChain::fKine(TmOutput, qInput)`. -/
def fKine (sin cos : F32 → F32) (c : DhKinematicChain F32) (TmOutput qInput : Nat → F32) :
    DhKinematicChain F32 × (Nat → F32) :=
  let Tm : Nat → F32 := arr [1, 0, 0, 0,
                             0, 1, 0, 0,
                             0, 0, 1, 0,
                             0, 0, 0, 1]
  let s := forUp (fKineBody sin cos qInput) 0 c.noOfLinks
    { links := c.links, Tm := Tm, TmLink := uninit, TmTemp := uninit }
  ({ c with links := s.links }, MatrixMath.Copy s.Tm 4 4 TmOutput)

/-- `DhKinematicChain::fKineWithBaseAndTool()`. -/
def fKineWithBaseAndTool (sin cos : F32 → F32) (c : DhKinematicChain F32) :
    DhKinematicChain F32 :=
  let r := fKine sin cos c c.TmCurrent c.qCurrent
  let c1 : DhKinematicChain F32 := { r.1 with TmCurrent := r.2 }
  let TmTemp := MatrixMath.Multiply c1.TmCurrent c1.TmTool 4 4 4 uninit
  { c1 with TmCurrent := MatrixMath.Copy TmTemp 4 4 c1.TmCurrent }

/-- `DhKinematicChain::set_TmCurrentPosition(pxInput, pyInput, pzInput)`. -/
def set_TmCurrentPosition (c : DhKinematicChain F32) (pxInput pyInput pzInput : F32) :
    DhKinematicChain F32 :=
  let T1 := Function.update c.TmCurrent (4 * i1 + i4) pxInput
  let T2 := Function.update T1 (4 * i2 + i4) pyInput
  let T3 := Function.update T2 (4 * i3 + i4) pzInput
  let T4 := Function.update T3 (4 * i4 + i4) 1
  { c with TmCurrent := T4 }

/-- `DhKinematicChain::multiply_TmCurrentByTm(TmInput)`. -/
def multiply_TmCurrentByTm (c : DhKinematicChain F32) (TmInput : Nat → F32) :
    DhKinematicChain F32 :=
  let TmTemp := MatrixMath.Multiply c.TmCurrent TmInput 4 4 4 uninit
  { c with TmCurrent := MatrixMath.Copy TmTemp 4 4 c.TmCurrent }

/-- `DhKinematicChain::updateTmToolInverse()`: a `void` method; the return
value of `Invert` is not used. -/
def updateTmToolInverse (c : DhKinematicChain F32) : DhKinematicChain F32 :=
  let T := MatrixMath.Copy c.TmTool 4 4 c.TmToolInv
  { c with TmToolInv := (MatrixMath.Invert T 4).2 }

/-- `DhKinematicChain::setToolTransformPosition(dx, dy, dz, zOffset)`. -/
def setToolTransformPosition (sin cos : F32 → F32) (c : DhKinematicChain F32)
    (dxToolInput dyToolInput dzToolInput zOffsetToolInput : F32) : DhKinematicChain F32 :=
  let T1 := Function.update c.TmTool (4 * i1 + i4) dxToolInput
  let T2 := Function.update T1 (4 * i2 + i4) dyToolInput
  let T3 := Function.update T2 (4 * i3 + i4) (dzToolInput + zOffsetToolInput)
  let T4 := Function.update T3 (4 * i4 + i4) 1
  let c1 : DhKinematicChain F32 := { c with zOffset := zOffsetToolInput, TmTool := T4 }
  fKineWithBaseAndTool sin cos (updateTmToolInverse c1)

end DhKinematicChain

end Binary32

/-! ## Specification vocabulary -/

/-- The loop `for (k = lo + cnt - 1; k >= lo; k--) s = body k s`: the last
`cnt` values of a descending loop, with the smallest index applied last. -/
def forDownTo {σ : Type} (body : Nat → σ → σ) : Nat → Nat → σ → σ
  | _, 0, s => s
  | lo, cnt + 1, s => body lo (forDownTo body (lo + 1) cnt s)

/-- The vector with the entries of `u` below index `k` and those of `v` from `k` on. -/
def mix (k : Nat) (u v : Nat → K) : Nat → K := fun j => if j < k then u j else v j

/-- The relation between the buffer `M` of `Invert` after `k` columns and the
row-permuted input `R`: for all vectors, `y = R x` holds exactly when `M` maps
`(y₀ … y₍k₋₁₎, -x₍k₎ … -x₍n₋₁₎)` to `(x₀ … x₍k₋₁₎, -y₍k₎ … -y₍n₋₁₎)`.
At `k = 0` this says `M = R`, at `k = n` that `M` inverts `R`. -/
def Exchanged (n k : Nat) (M : Nat → K) (R : Nat → Nat → K) : Prop :=
  ∀ x y : Nat → K,
    (∀ i, i < n →
        ∑ j in Finset.range n, M (i * n + j) * mix k y (fun t => -x t) j
          = mix k x (fun t => -y t) i)
      ↔ (∀ i, i < n → y i = ∑ j in Finset.range n, R i j * x j)

/-- The body of the undo loop of `Invert` for a recorded swap history. -/
def undoBody (n : Nat) (pivrows : Nat → Nat) (k : Nat) (A : Nat → K) : Nat → K :=
  if pivrows k ≠ k then MatrixMath.swapCols A n k (pivrows k) else A

/-- The Denavit-Hartenberg matrix of a link with offset `d`, length `a` and
twist `alpha` at joint angle `q`, as written in the specification. -/
def dhMatrix (sin cos : K → K) (d a alpha q : K) : Matrix (Fin 4) (Fin 4) K :=
  !![cos q, -sin q * cos alpha, sin q * sin alpha, a * cos q;
     sin q, cos q * cos alpha, -cos q * sin alpha, a * sin q;
     0, sin alpha, cos alpha, d;
     0, 0, 0, 1]

/-- The cached transform agrees with the joint vector and the tool: the 16
entries of `TmCurrent` are those of `Multiply(fKine(qCurrent), TmTool, 4, 4, 4)`,
whatever the scratch buffers held. -/
def TmCurrentConsistent (sin cos : K → K) (c : DhKinematicChain K) : Prop :=
  ∀ W1 W2 : Nat → K, ∀ x, x < 16 →
    c.TmCurrent x
      = MatrixMath.Multiply (c.fKine sin cos W1 c.qCurrent).2 c.TmTool 4 4 4 W2 x

/-- The stored `TmToolInv` is a two-sided inverse of the stored `TmTool`, as
computed by `Multiply`. -/
def ToolInverseOk (c : DhKinematicChain K) : Prop :=
  ∀ W : Nat → K, ∀ i j, i < 4 → j < 4 →
    MatrixMath.Multiply c.TmTool c.TmToolInv 4 4 4 W (4 * i + j) = (if i = j then 1 else 0) ∧
    MatrixMath.Multiply c.TmToolInv c.TmTool 4 4 4 W (4 * i + j) = (if i = j then 1 else 0)

/-- A 4 × 4 buffer whose rotation block is the identity and whose bottom row
is `(0, 0, 0, 1)`; the position column (offsets 3, 7, 11) is free. -/
def IsTranslation (T : Nat → K) : Prop :=
  T 0 = 1 ∧ T 1 = 0 ∧ T 2 = 0 ∧
  T 4 = 0 ∧ T 5 = 1 ∧ T 6 = 0 ∧
  T 8 = 0 ∧ T 9 = 0 ∧ T 10 = 1 ∧
  T 12 = 0 ∧ T 13 = 0 ∧ T 14 = 0 ∧ T 15 = 1

/-- A call of a public method of `DhKinematicChain` that can change the
object. The `get_*` and `print_*` methods change nothing and are left out.
Calls are taken within their documented preconditions (`index` below
`noOfLinks`, `noOfLinks` at most `maxLinks`, arrays as long as `noOfLinks`):
a store through an index is a store into that array and nothing else. -/
inductive Op (K : Type) where
  | set_qCurrent (qCurrentInput : Nat → K)
  | set_qCurrentValue (index : Nat) (qValue : K)
  | set_TmCurrentPosition (pxInput pyInput pzInput : K)
  | set_TmCurrentOrientation (thetaX thetaY thetaZ : K) (order : Int)
  | multiply_TmCurrentByTm (TmInput : Nat → K)
  | fKine (TmOutput qInput : Nat → K)
  | fKineWithBaseAndTool
  | updateTmToolInverse
  | setZoffset (zOffsetInput : K)
  | setToolTransformPosition (dxToolInput dyToolInput dzToolInput zOffsetToolInput : K)
  | setToolTransformPositionToZero

/-- The object after one call. -/
def step (sin cos : K → K) (c : DhKinematicChain K) : Op K → DhKinematicChain K
  | .set_qCurrent q => c.set_qCurrent sin cos q
  | .set_qCurrentValue index v => c.set_qCurrentValue sin cos index v
  | .set_TmCurrentPosition px py pz => c.set_TmCurrentPosition px py pz
  | .set_TmCurrentOrientation tx ty tz order => c.set_TmCurrentOrientation sin cos tx ty tz order
  | .multiply_TmCurrentByTm Tm => c.multiply_TmCurrentByTm Tm
  | .fKine out q => (c.fKine sin cos out q).1
  | .fKineWithBaseAndTool => c.fKineWithBaseAndTool sin cos
  | .updateTmToolInverse => c.updateTmToolInverse
  | .setZoffset z => c.setZoffset sin cos z
  | .setToolTransformPosition dx dy dz zo => c.setToolTransformPosition sin cos dx dy dz zo
  | .setToolTransformPositionToZero => c.setToolTransformPositionToZero sin cos

/-- The object after a sequence of calls, first call first. -/
def run (sin cos : K → K) (c : DhKinematicChain K) (ops : List (Op K)) : DhKinematicChain K :=
  ops.foldl (step sin cos) c

/-- The calls that end with `fKineWithBaseAndTool()`. -/
def Op.recomputes : Op K → Bool
  | .set_qCurrent _ => true
  | .set_qCurrentValue _ _ => true
  | .fKineWithBaseAndTool => true
  | .setZoffset _ => true
  | .setToolTransformPosition _ _ _ _ => true
  | .setToolTransformPositionToZero => true
  | _ => false

/-- A chain with no links and the default tool, right after construction
(rational scalars; the uninitialised members read as zeros). -/
def emptyChain : DhKinematicChain ℚ :=
  DhKinematicChain.construct 0 (fun _ => DhKinematicLink.zero) uninit uninit

/-- The 4 × 4 homogeneous transform whose rotation block is the row-major
3 × 3 buffer `R`, with zero position column and bottom row `(0, 0, 0, 1)`. -/
def homogeneous (R : Nat → K) : Matrix (Fin 4) (Fin 4) K :=
  !![R 0, R 1, R 2, 0;
     R 3, R 4, R 5, 0;
     R 6, R 7, R 8, 0;
     0, 0, 0, 1]

/-- The top-left 3 × 3 block of a 4 × 4 buffer. -/
def rotationBlock (T : Nat → K) : Matrix (Fin 3) (Fin 3) K :=
  Matrix.of fun i j => T (4 * i.val + j.val)

/-- A 4 × 4 matrix with bottom row `(0, 0, 0, 1)` whose top-left 3 × 3 block
`R` is a proper rotation: `R * Rᵀ = 1` and `det R = 1`. -/
def RigidMatrix (M : Matrix (Fin 4) (Fin 4) K) : Prop :=
  M 3 0 = 0 ∧ M 3 1 = 0 ∧ M 3 2 = 0 ∧ M 3 3 = 1 ∧
  M.submatrix Fin.castSucc Fin.castSucc
      * (M.submatrix Fin.castSucc Fin.castSucc).transpose = 1 ∧
  (M.submatrix Fin.castSucc Fin.castSucc).det = 1

/-- A 4 × 4 buffer that holds a well-formed rigid transform: bottom row
`(0, 0, 0, 1)` and a rotation block `R` with `R * Rᵀ = 1` and `det R = 1`. -/
def IsRigidTransform (T : Nat → K) : Prop :=
  T 12 = 0 ∧ T 13 = 0 ∧ T 14 = 0 ∧ T 15 = 1 ∧
  rotationBlock T * (rotationBlock T).transpose = 1 ∧
  (rotationBlock T).det = 1

/-- The binary32 number `2^127`, half of the first power of two that
overflows. -/
def Binary32.twoPow127 : Binary32.F32 := Binary32.F32.fin false (2 ^ 127 * 2 ^ 149)

/-- The binary32 number `0.5`. -/
def Binary32.half : Binary32.F32 := Binary32.F32.fin false (2 ^ 148)

/-- A binary32 chain with no links, right after construction (the
uninitialised members read as zeros). -/
def Binary32.emptyChain : DhKinematicChain Binary32.F32 :=
  Binary32.DhKinematicChain.construct 0 (fun _ => Binary32.DhKinematicLink.zero)
    Binary32.uninit Binary32.uninit

/-- The chain `Binary32.emptyChain` after the call
`setToolTransformPosition(0, 0, 2^127, 2^127)`, all four arguments finite.
Without links `fKine` calls no `get_Tm`, so that no sine or cosine is
evaluated and the two functions passed stand for any
(`setToolTransformPosition_no_links`). -/
def Binary32.overflowedToolChain : DhKinematicChain Binary32.F32 :=
  Binary32.DhKinematicChain.setToolTransformPosition (fun x => x) (fun x => x)
    Binary32.emptyChain 0 0 Binary32.twoPow127 Binary32.twoPow127

/-- The chain `Binary32.emptyChain` after the calls `fKineWithBaseAndTool()`,
`set_TmCurrentPosition(2^127, 0, 0)` and `multiply_TmCurrentByTm(Tm)` with
`Tm` the translation by `(2^127, 0, 0)`, all arguments finite. -/
def Binary32.overflowedPoseChain : DhKinematicChain Binary32.F32 :=
  Binary32.DhKinematicChain.multiply_TmCurrentByTm
    (Binary32.DhKinematicChain.set_TmCurrentPosition
      (Binary32.DhKinematicChain.fKineWithBaseAndTool (fun x => x) (fun x => x)
        Binary32.emptyChain)
      Binary32.twoPow127 0 0)
    (Binary32.arr [1, 0, 0, Binary32.twoPow127,
                   0, 1, 0, 0,
                   0, 0, 1, 0,
                   0, 0, 0, 1])

/-- The state of `Invert` on the binary32 matrix `[[0.5, 2^127], [0, 1]]`
after step `k = 0` of the outer loop, where step `k = 1` starts. -/
def Binary32.invertStep0 : MatrixMath.InvertState Binary32.F32 :=
  (Binary32.MatrixMath.kLoop 2 1 0
    { A := Binary32.arr [Binary32.half, Binary32.twoPow127, 0, 1]
      pivrows := fun _ => 0
      pivrow := 0 }).2

/-- A memory of 48 rational cells: a transform at address 0, a second one at
address 16, and 16 scratch cells at address 32. -/
def poseMemory : Nat → ℚ :=
  arr [1, 0, 0, 5,  0, 1, 0, 6,  0, 0, 1, 7,  0, 0, 0, 1,
       0, -1, 0, 1,  1, 0, 0, 2,  0, 0, 1, 3,  0, 0, 0, 1,
       9, 9, 9, 9,  9, 9, 9, 9,  9, 9, 9, 9,  9, 9, 9, 9]

/-! ## Loop rules -/

set_option linter.unusedSectionVars false

theorem forUp_succ_last {σ : Type} (body : Nat → σ → σ) (lo cnt : Nat) (s : σ) :
    forUp body lo (cnt + 1) s = body (lo + cnt) (forUp body lo cnt s) := by
  induction cnt generalizing lo s with
  | zero => simp [forUp]
  | succ c ih =>
    have h := ih (lo + 1) (body lo s)
    rw [forUp, h]
    have e : lo + 1 + c = lo + (c + 1) := by omega
    rw [e]
    rfl

theorem cell_eq_iff {n i j i2 j2 : Nat} (hj : j < n) (hj2 : j2 < n) :
    i * n + j = i2 * n + j2 ↔ i = i2 ∧ j = j2 := by
  constructor
  · intro h
    have hn : 0 < n := by omega
    have h1 : (i * n + j) / n = i := by
      rw [Nat.add_comm, Nat.add_mul_div_right _ _ hn, Nat.div_eq_of_lt hj, Nat.zero_add]
    have h2 : (i2 * n + j2) / n = i2 := by
      rw [Nat.add_comm, Nat.add_mul_div_right _ _ hn, Nat.div_eq_of_lt hj2, Nat.zero_add]
    have hi : i = i2 := by rw [← h1, ← h2, h]
    subst hi
    exact ⟨rfl, by omega⟩
  · rintro ⟨rfl, rfl⟩
    rfl

/-- Closed form of a row-major double loop that stores `g i j` in cell `n * i + j`. -/
theorem forUp_cells (g : Nat → Nat → K) (n m : Nat) (C : Nat → K) (x : Nat) :
    forUp (fun i C => forUp (fun j C => Function.update C (n * i + j) (g i j)) 0 n C) 0 m C x
      = if x < n * m then g (x / n) (x % n) else C x := by
  have inner : ∀ (i : Nat) (B : Nat → K) (c : Nat) (x : Nat),
      forUp (fun j C => Function.update C (n * i + j) (g i j)) 0 c B x
        = if n * i ≤ x ∧ x < n * i + c then g i (x - n * i) else B x := by
    intro i B c
    induction c with
    | zero =>
      intro x
      have : ¬ (n * i ≤ x ∧ x < n * i) := by omega
      simp [forUp, this]
    | succ c ih =>
      intro x
      rw [forUp_succ_last]
      simp only [Nat.zero_add, Function.update_apply, ih]
      by_cases h1 : x = n * i + c
      · subst h1; simp
      · have : (n * i ≤ x ∧ x < n * i + (c + 1)) = (n * i ≤ x ∧ x < n * i + c) := by
          apply propext; omega
        simp [h1, this]
  induction m generalizing x with
  | zero => simp [forUp]
  | succ c ih =>
    rw [forUp_succ_last]
    simp only [Nat.zero_add]
    rw [inner]
    have e : n * (c + 1) = n * c + n := Nat.mul_succ n c
    by_cases h1 : n * c ≤ x ∧ x < n * c + n
    · have hn : 0 < n := by omega
      have hd : x / n = c := by
        apply Nat.div_eq_of_lt_le
        · rw [Nat.mul_comm]; exact h1.1
        · rw [Nat.mul_comm, e]; exact h1.2
      have hm : x % n = x - n * c := by
        have := Nat.div_add_mod x n
        rw [hd] at this
        omega
      have h2 : x < n * (c + 1) := by omega
      simp [h1, h2, hd, hm]
    · rw [if_neg h1, ih]
      by_cases h2 : x < n * c
      · have h3 : x < n * (c + 1) := by omega
        rw [if_pos h2, if_pos h3]
      · have h3 : ¬ x < n * (c + 1) := by omega
        rw [if_neg h2, if_neg h3]

namespace MatrixMath

theorem Copy_apply (A : Nat → K) (n m : Nat) (B : Nat → K) (x : Nat) :
    Copy A n m B x = if x < n * m then A x else B x := by
  have := forUp_cells (fun i j => A (n * i + j)) n m B x
  simp only [Copy]
  rw [this, Nat.div_add_mod]

theorem Multiply_apply (A B : Nat → K) (m p n : Nat) (C : Nat → K) (x : Nat) :
    Multiply A B m p n C x =
      if x < n * m then ∑ k in Finset.range p, A (p * (x / n) + k) * B (n * k + x % n)
      else C x := by
  have acc : ∀ (z : Nat) (a : Nat → K) (c : Nat) (D : Nat → K),
      forUp (fun k C => Function.update C z (C z + a k)) 0 c D
        = if c = 0 then D else Function.update D z (D z + ∑ k in Finset.range c, a k) := by
    intro z a c D
    induction c with
    | zero => simp [forUp]
    | succ c ih =>
      rw [forUp_succ_last, ih]
      by_cases hc : c = 0
      · subst hc; simp
      · simp [hc, Finset.sum_range_succ, add_assoc]
  have body : ∀ i j (C : Nat → K),
      forUp (fun k C =>
          Function.update C (n * i + j) (C (n * i + j) + A (p * i + k) * B (n * k + j)))
        0 p (Function.update C (n * i + j) 0)
        = Function.update C (n * i + j)
            (∑ k in Finset.range p, A (p * i + k) * B (n * k + j)) := by
    intro i j C
    rw [acc (n * i + j) (fun k => A (p * i + k) * B (n * k + j)) p]
    by_cases hp : p = 0
    · subst hp; simp
    · simp [hp]
  have := forUp_cells (fun i j => ∑ k in Finset.range p, A (p * i + k) * B (n * k + j)) n m C x
  simp only [Multiply, body]
  rw [this]

theorem swapRows_apply (A : Nat → K) (n k p i j : Nat) (hj : j < n) :
    swapRows A n k p (i * n + j) = A (Equiv.swap k p i * n + j) := by
  have key : ∀ c, c ≤ n → ∀ i j, j < n →
      forUp (fun j A =>
        let tmp := A (k * n + j)
        let A1 := Function.update A (k * n + j) (A (p * n + j))
        Function.update A1 (p * n + j) tmp) 0 c A (i * n + j)
        = if j < c then A (Equiv.swap k p i * n + j) else A (i * n + j) := by
    intro c
    induction c with
    | zero => intro _ i j _; simp [forUp]
    | succ c ih =>
      intro hc i j hj
      have hc2 : c < n := hc
      rw [forUp_succ_last]
      simp only [Nat.zero_add, Function.update_apply, cell_eq_iff hj hc2]
      rw [ih (by omega) k c hc2, ih (by omega) p c hc2, ih (by omega) i j hj]
      simp only [Nat.lt_irrefl, if_false, Equiv.swap_apply_def]
      by_cases h1 : j = c
      · subst h1
        by_cases h2 : i = p
        · subst h2
          by_cases h3 : i = k
          · subst h3; simp
          · simp [h3]
        · by_cases h3 : i = k
          · subst h3; simp [h2]
          · simp [h2, h3]
      · have : (j < c + 1) = (j < c) := by
          apply propext; omega
        simp [h1, this]
  have := key n (Nat.le_refl n) i j hj
  simpa [swapRows, hj] using this

theorem swapCols_apply (A : Nat → K) (n k p i j : Nat) (hk : k < n) (hp : p < n)
    (hi : i < n) (hj : j < n) :
    swapCols A n k p (i * n + j) = A (i * n + Equiv.swap k p j) := by
  have key : ∀ c, c ≤ n → ∀ i j, j < n →
      forUp (fun i A =>
        let tmp := A (i * n + k)
        let A1 := Function.update A (i * n + k) (A (i * n + p))
        Function.update A1 (i * n + p) tmp) 0 c A (i * n + j)
        = if i < c then A (i * n + Equiv.swap k p j) else A (i * n + j) := by
    intro c
    induction c with
    | zero => intro _ i j _; simp [forUp]
    | succ c ih =>
      intro hc i j hj
      rw [forUp_succ_last]
      simp only [Nat.zero_add, Function.update_apply, cell_eq_iff hj hp, cell_eq_iff hj hk]
      rw [ih (by omega) c k hk, ih (by omega) c p hp, ih (by omega) i j hj]
      simp only [Nat.lt_irrefl, if_false, Equiv.swap_apply_def]
      by_cases h1 : i = c
      · subst h1
        by_cases h2 : j = p
        · subst h2
          by_cases h3 : j = k
          · subst h3; simp
          · simp [h3]
        · by_cases h3 : j = k
          · subst h3; simp [h2]
          · simp [h2, h3]
      · have : (i < c + 1) = (i < c) := by
          apply propext; omega
        simp [h1, this]
  have := key n (Nat.le_refl n) i j hj
  simpa [swapCols, hi] using this

theorem reduceRow_apply (A : Nat → K) (n k i j : Nat) (hk : k < n) (hj : j < n) :
    reduceRow A n k (i * n + j) =
      if i = k then (if j = k then 1 else A (k * n + j)) * (1 / A (k * n + k))
      else A (i * n + j) := by
  have key : ∀ (B : Nat → K) (t : K) c, c ≤ n → ∀ i j, j < n →
      forUp (fun j A => Function.update A (k * n + j) (A (k * n + j) * t)) 0 c B (i * n + j)
        = if i = k ∧ j < c then B (k * n + j) * t else B (i * n + j) := by
    intro B t c
    induction c with
    | zero => intro _ i j _; simp [forUp]
    | succ c ih =>
      intro hc i j hj
      have hc2 : c < n := hc
      rw [forUp_succ_last]
      simp only [Nat.zero_add, Function.update_apply, cell_eq_iff hj hc2]
      rw [ih (by omega) k c hc2, ih (by omega) i j hj]
      by_cases h1 : i = k
      · subst h1
        by_cases h2 : j = c
        · subst h2; simp
        · have : (j < c + 1) = (j < c) := by
            apply propext; omega
          simp [h2, this]
      · simp [h1]
  have := key (Function.update A (k * n + k) 1) (1 / A (k * n + k)) n (Nat.le_refl n) i j hj
  simp only [reduceRow]
  rw [this]
  simp only [Function.update_apply, cell_eq_iff hj hk, hj, and_true]
  by_cases h1 : i = k
  · subst h1; simp
  · simp [h1]

theorem eliminate_apply (A : Nat → K) (n k i j : Nat) (hk : k < n) (hi : i < n) (hj : j < n) :
    eliminate A n k (i * n + j) =
      if i = k then A (i * n + j)
      else (if j = k then 0 else A (i * n + j)) - A (k * n + j) * A (i * n + k) := by
  have inner : ∀ (B : Nat → K) (t : K) (r : Nat), r ≠ k → ∀ c, c ≤ n → ∀ i j, j < n →
      forUp (fun j A => Function.update A (r * n + j) (A (r * n + j) - A (k * n + j) * t)) 0 c B
          (i * n + j)
        = if i = r ∧ j < c then B (r * n + j) - B (k * n + j) * t else B (i * n + j) := by
    intro B t r hr c
    induction c with
    | zero => intro _ i j _; simp [forUp]
    | succ c ih =>
      intro hc i j hj
      have hc2 : c < n := hc
      rw [forUp_succ_last]
      simp only [Nat.zero_add, Function.update_apply, cell_eq_iff hj hc2]
      rw [ih (by omega) r c hc2, ih (by omega) k c hc2, ih (by omega) i j hj]
      have hkr : ¬ k = r := fun h => hr h.symm
      by_cases h1 : i = r
      · subst h1
        by_cases h2 : j = c
        · subst h2; simp [hkr]
        · have : (j < c + 1) = (j < c) := by
            apply propext; omega
          simp [h2, this]
      · simp [h1]
  have key : ∀ c, c ≤ n → ∀ i j, j < n →
      forUp (fun i A =>
        if i ≠ k then
          let tmp := A (i * n + k)
          let A1 := Function.update A (i * n + k) 0
          forUp (fun j A => Function.update A (i * n + j) (A (i * n + j) - A (k * n + j) * tmp))
            0 n A1
        else A) 0 c A (i * n + j)
        = if i < c ∧ i ≠ k then
            (if j = k then 0 else A (i * n + j)) - A (k * n + j) * A (i * n + k)
          else A (i * n + j) := by
    intro c
    induction c with
    | zero => intro _ i j _; simp [forUp]
    | succ c ih =>
      intro hc i j hj
      rw [forUp_succ_last]
      simp only [Nat.zero_add]
      by_cases hck : c = k
      · subst hck
        simp only [ne_eq, not_true_eq_false, if_false]
        rw [ih (by omega) i j hj]
        by_cases h1 : i = c
        · subst h1; simp
        · have : (i < c + 1) = (i < c) := by
            apply propext; omega
          simp [h1, this]
      · simp only [ne_eq, hck, not_false_eq_true, if_true]
        rw [inner _ _ c hck n (Nat.le_refl n) i j hj]
        simp only [Function.update_apply, cell_eq_iff hj hk, cell_eq_iff hk hk, hj, and_true]
        rw [ih (by omega) c j hj, ih (by omega) k j hj, ih (by omega) c k hk, ih (by omega) i j hj]
        have hkc : ¬ k = c := fun h => hck h.symm
        by_cases h1 : i = c
        · subst h1
          by_cases h2 : j = k
          · subst h2; simp [hck, hkc]
          · simp [hck, hkc, h2]
        · have : (i < c + 1) = (i < c) := by
            apply propext; omega
          simp [h1, this, hkc]
  have := key n (Nat.le_refl n) i j hj
  simp only [eliminate]
  rw [this]
  by_cases h1 : i = k
  · subst h1; simp
  · simp [h1, hi]

/-- One elimination step exchanges the roles of `x k` and `y k`. -/
theorem pivot_exchange (M : Nat → K) (n k : Nat) (hk : k < n) (hp : M (k * n + k) ≠ 0)
    (x y : Nat → K) :
    (∀ i, i < n →
        ∑ j in Finset.range n, M (i * n + j) * mix k y (fun t => -x t) j
          = mix k x (fun t => -y t) i)
      ↔ (∀ i, i < n →
        ∑ j in Finset.range n,
            eliminate (reduceRow M n k) n k (i * n + j) * mix (k + 1) y (fun t => -x t) j
          = mix (k + 1) x (fun t => -y t) i) := by
  have hkk : ¬ k < k := Nat.lt_irrefl k
  have hu : ∀ j, mix (k + 1) y (fun t => -x t) j
      = if j = k then y k else mix k y (fun t => -x t) j := by
    intro j
    simp only [mix]
    by_cases h1 : j = k
    · subst h1; simp
    · have : (j < k + 1) = (j < k) := by
        apply propext; omega
      simp [h1, this]
  have hw : ∀ i, mix (k + 1) x (fun t => -y t) i
      = if i = k then x k else mix k x (fun t => -y t) i := by
    intro i
    simp only [mix]
    by_cases h1 : i = k
    · subst h1; simp
    · have : (i < k + 1) = (i < k) := by
        apply propext; omega
      simp [h1, this]
  have huk : mix k y (fun t => -x t) k = -x k := by simp [mix]
  have hwk : mix k x (fun t => -y t) k = -y k := by simp [mix]
  -- the pivot row
  have rowk : ∑ j in Finset.range n,
        eliminate (reduceRow M n k) n k (k * n + j) * mix (k + 1) y (fun t => -x t) j
      = (1 / M (k * n + k)) *
          (∑ j in Finset.range n, M (k * n + j) * mix k y (fun t => -x t) j
            + (y k + M (k * n + k) * x k)) := by
    have pt : ∀ j ∈ Finset.range n,
        eliminate (reduceRow M n k) n k (k * n + j) * mix (k + 1) y (fun t => -x t) j
          = (1 / M (k * n + k)) * (M (k * n + j) * mix k y (fun t => -x t) j)
            + (if j = k then (1 / M (k * n + k)) * (y k + M (k * n + k) * x k) else 0) := by
      intro j hj
      have hj2 : j < n := Finset.mem_range.mp hj
      rw [eliminate_apply _ _ _ _ _ hk hk hj2, reduceRow_apply _ _ _ _ _ hk hj2, hu]
      by_cases h1 : j = k
      · subst h1
        simp only [if_true, huk]
        ring
      · simp only [h1, if_false, if_true]
        ring
    rw [Finset.sum_congr rfl pt, Finset.sum_add_distrib, ← Finset.mul_sum,
      Finset.sum_ite_eq' (Finset.range n) k, if_pos (Finset.mem_range.mpr hk)]
    ring
  -- the other rows
  have rowi : ∀ i, i < n → i ≠ k →
      ∑ j in Finset.range n,
        eliminate (reduceRow M n k) n k (i * n + j) * mix (k + 1) y (fun t => -x t) j
      = ∑ j in Finset.range n, M (i * n + j) * mix k y (fun t => -x t) j
          + M (i * n + k) * x k
          - M (i * n + k) *
            ∑ j in Finset.range n,
              eliminate (reduceRow M n k) n k (k * n + j) * mix (k + 1) y (fun t => -x t) j := by
    intro i hi hik
    have pt : ∀ j ∈ Finset.range n,
        eliminate (reduceRow M n k) n k (i * n + j) * mix (k + 1) y (fun t => -x t) j
          = M (i * n + j) * mix k y (fun t => -x t) j
            + (if j = k then M (i * n + k) * x k else 0)
            - M (i * n + k) *
              (eliminate (reduceRow M n k) n k (k * n + j)
                * mix (k + 1) y (fun t => -x t) j) := by
      intro j hj
      have hj2 : j < n := Finset.mem_range.mp hj
      rw [eliminate_apply _ _ _ _ _ hk hi hj2, eliminate_apply _ _ _ _ _ hk hk hj2,
        reduceRow_apply _ _ _ _ _ hk hj2, reduceRow_apply _ _ _ _ _ hk hj2,
        reduceRow_apply _ _ _ _ _ hk hk, hu]
      by_cases h1 : j = k
      · subst h1
        simp only [if_true, if_neg hik, huk]
        ring
      · simp only [h1, if_false, if_true, if_neg hik]
        ring
    rw [Finset.sum_congr rfl pt, Finset.sum_sub_distrib, Finset.sum_add_distrib,
      ← Finset.mul_sum, Finset.sum_ite_eq' (Finset.range n) k,
      if_pos (Finset.mem_range.mpr hk)]
  constructor
  · intro h i hi
    by_cases hik : i = k
    · subst hik
      rw [rowk, h i hi, hw, hwk, if_pos rfl]
      field_simp
    · rw [rowi i hi hik, rowk, h i hi, h k hk, hw, hwk, if_neg hik]
      field_simp
  · intro h i hi
    have hk2 := h k hk
    rw [rowk, hw, if_pos rfl] at hk2
    have sk : ∑ j in Finset.range n, M (k * n + j) * mix k y (fun t => -x t) j = -y k := by
      field_simp at hk2
      linear_combination hk2
    by_cases hik : i = k
    · subst hik
      rw [sk, hwk]
    · have hi2 := h i hi
      rw [rowi i hi hik, h k hk, hw, hw, if_neg hik, if_pos rfl] at hi2
      linear_combination hi2

theorem swap_lt {n k p i : Nat} (hk : k < n) (hp : p < n) (hi : i < n) :
    Equiv.swap k p i < n := by
  rw [Equiv.swap_apply_def]
  split_ifs <;> assumption

theorem forall_lt_swap {n k p : Nat} (hk : k < n) (hp : p < n) (F : Nat → Prop) :
    (∀ i, i < n → F (Equiv.swap k p i)) ↔ (∀ i, i < n → F i) := by
  constructor
  · intro h i hi
    have := h (Equiv.swap k p i) (swap_lt hk hp hi)
    rwa [Equiv.swap_apply_self] at this
  · intro h i hi
    exact h _ (swap_lt hk hp hi)

theorem swap_lt_iff {k p i : Nat} (hkp : k ≤ p) : Equiv.swap k p i < k ↔ i < k := by
  rw [Equiv.swap_apply_def]
  split_ifs with h1 h2 <;> omega

theorem swap_of_lt {k p i : Nat} (hkp : k ≤ p) (hi : i < k) : Equiv.swap k p i = i := by
  apply Equiv.swap_apply_of_ne_of_ne <;> omega

/-- Reindexing a sum over `range n` along a transposition of two indices below `n`. -/
theorem sum_range_swap {n k p : Nat} (hk : k < n) (hp : p < n) (f : Nat → K) :
    ∑ j in Finset.range n, f (Equiv.swap k p j) = ∑ j in Finset.range n, f j := by
  apply Finset.sum_nbij' (fun j => Equiv.swap k p j) (fun j => Equiv.swap k p j)
  · intro j hj
    exact Finset.mem_range.mpr (swap_lt hk hp (Finset.mem_range.mp hj))
  · intro j hj
    exact Finset.mem_range.mpr (swap_lt hk hp (Finset.mem_range.mp hj))
  · intro j _
    exact Equiv.swap_apply_self k p j
  · intro j _
    exact Equiv.swap_apply_self k p j
  · intro j _
    rfl

/-- Swapping rows `k` and `p ≥ k` of the buffer keeps the exchange relation,
for the input with the same two rows swapped. -/
theorem Exchanged_swapRows {n k p : Nat} {M : Nat → K} {R : Nat → Nat → K}
    (h : Exchanged n k M R) (hk : k < n) (hp : p < n) (hkp : k ≤ p) :
    Exchanged n k (swapRows M n k p) (fun i j => R (Equiv.swap k p i) j) := by
  intro x y
  have hx := h x (fun i => y (Equiv.swap k p i))
  have e1 : ∀ j, mix k (fun i => y (Equiv.swap k p i)) (fun t => -x t) j
      = mix k y (fun t => -x t) j := by
    intro j
    simp only [mix]
    by_cases hj : j < k
    · simp [hj, swap_of_lt hkp hj]
    · simp [hj]
  have e2 : ∀ i, mix k x (fun t => -y (Equiv.swap k p t)) (Equiv.swap k p i)
      = mix k x (fun t => -y t) i := by
    intro i
    simp only [mix, swap_lt_iff hkp, Equiv.swap_apply_self]
    by_cases hi : i < k
    · simp [hi, swap_of_lt hkp hi]
    · simp [hi]
  simp only [e1] at hx
  rw [← forall_lt_swap hk hp
    (fun i => ∑ j in Finset.range n, M (i * n + j) * mix k y (fun t => -x t) j
      = mix k x (fun t => -y (Equiv.swap k p t)) i),
    ← forall_lt_swap hk hp
      (fun i => y (Equiv.swap k p i) = ∑ j in Finset.range n, R i j * x j)] at hx
  simp only [e2, Equiv.swap_apply_self] at hx
  rw [← hx]
  apply forall_congr'
  intro i
  apply imp_congr_right
  intro _
  rw [Finset.sum_congr rfl (fun j hj => by
    rw [swapRows_apply M n k p i j (Finset.mem_range.mp hj)])]

/-- Before the first step the buffer is the input itself. -/
theorem Exchanged_init (n : Nat) (A : Nat → K) :
    Exchanged n 0 A (fun i j => A (i * n + j)) := by
  intro x y
  apply forall_congr'
  intro i
  apply imp_congr_right
  intro _
  simp only [mix, Nat.not_lt_zero, if_false, mul_neg, Finset.sum_neg_distrib, neg_inj]
  exact eq_comm

/-- After the last step the buffer is a left inverse of the (row-permuted) input. -/
theorem Exchanged_left_inverse {n : Nat} {M : Nat → K} {R : Nat → Nat → K}
    (h : Exchanged n n M R) (i l : Nat) (hi : i < n) (hl : l < n) :
    ∑ j in Finset.range n, M (i * n + j) * R j l = if i = l then 1 else 0 := by
  have hx := (h (fun j => if j = l then 1 else 0) (fun j => R j l)).mpr (by
    intro i _
    simp [Finset.sum_ite_eq', hl])
  have := hx i hi
  simp only [mix, hi, if_true] at this
  rw [← this]
  apply Finset.sum_congr rfl
  intro j hj
  simp [Finset.mem_range.mp hj]

/-- When column `k` of the buffer vanishes from row `k` down, the input
annihilates a vector whose entry `k` is 1. -/
theorem Exchanged_kernel {n k : Nat} {M : Nat → K} {R : Nat → Nat → K}
    (h : Exchanged n k M R) (hk : k < n) (hz : ∀ i, k ≤ i → i < n → M (i * n + k) = 0) :
    ∃ x : Nat → K, x k = 1 ∧ ∀ i, i < n → ∑ j in Finset.range n, R i j * x j = 0 := by
  refine ⟨fun j => if j < k then -M (j * n + k) else if j = k then 1 else 0, by simp, ?_⟩
  have hx := (h (fun j => if j < k then -M (j * n + k) else if j = k then 1 else 0)
    (fun _ => 0)).mp (by
      intro i hi
      have pt : ∀ j ∈ Finset.range n,
          M (i * n + j) * mix k (fun _ => (0 : K))
              (fun t => -(if t < k then -M (t * n + k) else if t = k then 1 else 0)) j
            = if j = k then -M (i * n + k) else 0 := by
        intro j _
        simp only [mix]
        by_cases h1 : j < k
        · have : j ≠ k := by omega
          simp [h1, this]
        · by_cases h2 : j = k
          · subst h2; simp
          · simp [h1, h2]
      rw [Finset.sum_congr rfl pt, Finset.sum_ite_eq' (Finset.range n) k,
        if_pos (Finset.mem_range.mpr hk)]
      simp only [mix]
      by_cases h1 : i < k
      · simp [h1]
      · simp [h1, hz i (by omega) hi])
  intro i hi
  exact (hx i hi).symm

/-- What the pivot search leaves in `(tmp, pivrow)` after `cnt` rows. -/
theorem findPivot_inv (A : Nat → K) (n k pv cnt : Nat) :
    let r := forUp (fun i (s : K × Nat) =>
      if |A (i * n + k)| ≥ s.1 then (|A (i * n + k)|, i) else s) k cnt (0, pv)
    (cnt = 0 → r = (0, pv)) ∧
    (∀ i, k ≤ i → i < k + cnt → |A (i * n + k)| ≤ r.1) ∧
    (0 < cnt → k ≤ r.2 ∧ r.2 < k + cnt ∧ r.1 = |A (r.2 * n + k)|) ∧
    (∀ i, k ≤ i → r.2 < i → i < k + cnt → |A (i * n + k)| < r.1) := by
  induction cnt with
  | zero =>
    refine ⟨fun _ => by simp [forUp], ?_, ?_, ?_⟩
    · intro i h1 h2; omega
    · intro h; omega
    · intro i h1 _ h2
      omega
  | succ c ih =>
    rw [forUp_succ_last]
    obtain ⟨h0, h1, h2, h3⟩ := ih
    generalize forUp (fun i (s : K × Nat) =>
      if |A (i * n + k)| ≥ s.1 then (|A (i * n + k)|, i) else s) k c (0, pv) = r at h0 h1 h2 h3
    by_cases hge : |A ((k + c) * n + k)| ≥ r.1
    · simp only [hge, if_true]
      refine ⟨fun h => by omega, ?_, ?_, ?_⟩
      · intro i hi1 hi2
        by_cases hic : i = k + c
        · subst hic; exact le_refl _
        · exact le_trans (h1 i hi1 (by omega)) hge
      · intro _
        exact ⟨by omega, by omega, trivial⟩
      · intro i _ hi1 hi2
        omega
    · simp only [hge, if_false]
      have hc : 0 < c := by
        rcases Nat.eq_zero_or_pos c with hc | hc
        · exfalso
          apply hge
          rw [h0 hc]
          exact abs_nonneg _
        · exact hc
      obtain ⟨h2a, h2b, h2c⟩ := h2 hc
      refine ⟨fun h => by omega, ?_, ?_, ?_⟩
      · intro i hi1 hi2
        by_cases hic : i = k + c
        · subst hic; exact le_of_lt (not_le.mp hge)
        · exact h1 i hi1 (by omega)
      · intro _
        exact ⟨h2a, by omega, h2c⟩
      · intro i hi0 hi1 hi2
        by_cases hic : i = k + c
        · subst hic; exact not_le.mp hge
        · exact h3 i hi0 hi1 (by omega)

/-- The pivot row lies in `k .. n-1` and holds an entry of column `k` of
largest absolute value among those rows. -/
theorem findPivot_spec (A : Nat → K) (n k pv : Nat) (hk : k < n) :
    k ≤ (findPivot A n k pv).2 ∧ (findPivot A n k pv).2 < n ∧
    ∀ i, k ≤ i → i < n → |A (i * n + k)| ≤ |A ((findPivot A n k pv).2 * n + k)| := by
  have h := findPivot_inv A n k pv (n - k)
  simp only at h
  obtain ⟨_, h1, h2, _⟩ := h
  obtain ⟨h2a, h2b, h2c⟩ := h2 (by omega)
  refine ⟨h2a, by simp only [findPivot]; omega, ?_⟩
  intro i hi1 hi2
  have := h1 i hi1 (by omega)
  rw [h2c] at this
  exact this

/-- Soundness of the elimination loop: when it runs to completion, undoing the
recorded swaps on the final buffer gives a left inverse of the input. -/
theorem kLoop_sound (n : Nat) : ∀ (cnt k : Nat) (s : InvertState K) (R : Nat → Nat → K),
    k + cnt = n → Exchanged n k s.A R → ∀ s2, kLoop n cnt k s = (true, s2) →
    (∀ t, t < k → s2.pivrows t = s.pivrows t) ∧
    (∀ i l, i < n → l < n →
      ∑ j in Finset.range n, forDownTo (undoBody n s2.pivrows) k cnt s2.A (i * n + j) * R j l
        = if i = l then 1 else 0) := by
  intro cnt
  induction cnt with
  | zero =>
    intro k s R hkn hex s2 hrun
    simp only [kLoop, Prod.mk.injEq, true_and] at hrun
    subst hrun
    have hk : k = n := by omega
    subst hk
    refine ⟨fun _ _ => rfl, ?_⟩
    intro i l hi hl
    simp only [forDownTo]
    exact Exchanged_left_inverse hex i l hi hl
  | succ c ih =>
    intro k s R hkn hex s2 hrun
    have hk : k < n := by omega
    obtain ⟨hp1, hp2, _⟩ := findPivot_spec s.A n k s.pivrow hk
    rw [kLoop] at hrun
    simp only at hrun
    generalize (findPivot s.A n k s.pivrow).2 = p at hp1 hp2 hrun
    by_cases hz : s.A (p * n + k) = 0
    · simp [hz] at hrun
    · rw [if_neg hz] at hrun
      have hex1 : Exchanged n k (if p ≠ k then swapRows s.A n k p else s.A)
          (fun i j => R (Equiv.swap k p i) j) := by
        by_cases hpk : p = k
        · subst hpk
          simpa using hex
        · rw [if_pos hpk]
          exact Exchanged_swapRows hex hk hp2 hp1
      have hpiv : (if p ≠ k then swapRows s.A n k p else s.A) (k * n + k) ≠ 0 := by
        by_cases hpk : p = k
        · subst hpk
          simpa using hz
        · rw [if_pos hpk, swapRows_apply _ _ _ _ _ _ hk, Equiv.swap_apply_left]
          exact hz
      have hex2 : Exchanged n (k + 1)
          (eliminate (reduceRow (if p ≠ k then swapRows s.A n k p else s.A) n k) n k)
          (fun i j => R (Equiv.swap k p i) j) := by
        intro x y
        rw [← pivot_exchange _ n k hk hpiv x y]
        exact hex1 x y
      obtain ⟨ih1, ih2⟩ := ih (k + 1) _ _ (by omega) hex2 s2 hrun
      have hpk2 : s2.pivrows k = p := by
        rw [ih1 k (Nat.lt_succ_self k)]
        simp
      refine ⟨?_, ?_⟩
      · intro t ht
        rw [ih1 t (by omega)]
        have : t ≠ k := by omega
        simp [this]
      · intro i l hi hl
        rw [← ih2 i l hi hl]
        simp only [forDownTo, undoBody, hpk2]
        by_cases hpk : p = k
        · subst hpk
          simp
        · rw [if_pos hpk]
          rw [← sum_range_swap hk hp2
            (fun j => forDownTo (undoBody n s2.pivrows) (k + 1) c s2.A (i * n + j)
              * R (Equiv.swap k p j) l)]
          apply Finset.sum_congr rfl
          intro j hj
          rw [swapCols_apply _ _ _ _ _ _ hk hp2 hi (Finset.mem_range.mp hj),
            Equiv.swap_apply_self]

/-- Completeness of the elimination loop: on an input with trivial kernel the
singular check never fires. -/
theorem kLoop_complete (n : Nat) : ∀ (cnt k : Nat) (s : InvertState K) (R : Nat → Nat → K),
    k + cnt = n → Exchanged n k s.A R →
    (∀ x : Nat → K, (∀ i, i < n → ∑ j in Finset.range n, R i j * x j = 0) →
      ∀ i, i < n → x i = 0) →
    (kLoop n cnt k s).1 = true := by
  intro cnt
  induction cnt with
  | zero =>
    intro k s R _ _ _
    rfl
  | succ c ih =>
    intro k s R hkn hex hinj
    have hk : k < n := by omega
    obtain ⟨hp1, hp2, hp3⟩ := findPivot_spec s.A n k s.pivrow hk
    rw [kLoop]
    simp only
    generalize (findPivot s.A n k s.pivrow).2 = p at hp1 hp2 hp3
    by_cases hz : s.A (p * n + k) = 0
    · exfalso
      have hcol : ∀ i, k ≤ i → i < n → s.A (i * n + k) = 0 := by
        intro i hi1 hi2
        have := hp3 i hi1 hi2
        rw [hz, abs_zero] at this
        exact abs_eq_zero.mp (le_antisymm this (abs_nonneg _))
      obtain ⟨x, hx1, hx2⟩ := Exchanged_kernel hex hk hcol
      have := hinj x hx2 k hk
      rw [hx1] at this
      exact one_ne_zero this
    · rw [if_neg hz]
      have hex1 : Exchanged n k (if p ≠ k then swapRows s.A n k p else s.A)
          (fun i j => R (Equiv.swap k p i) j) := by
        by_cases hpk : p = k
        · subst hpk
          simpa using hex
        · rw [if_pos hpk]
          exact Exchanged_swapRows hex hk hp2 hp1
      have hpiv : (if p ≠ k then swapRows s.A n k p else s.A) (k * n + k) ≠ 0 := by
        by_cases hpk : p = k
        · subst hpk
          simpa using hz
        · rw [if_pos hpk, swapRows_apply _ _ _ _ _ _ hk, Equiv.swap_apply_left]
          exact hz
      have hex2 : Exchanged n (k + 1)
          (eliminate (reduceRow (if p ≠ k then swapRows s.A n k p else s.A) n k) n k)
          (fun i j => R (Equiv.swap k p i) j) := by
        intro x y
        rw [← pivot_exchange _ n k hk hpiv x y]
        exact hex1 x y
      apply ih (k + 1) _ _ (by omega) hex2
      intro x hx
      apply hinj x
      exact (forall_lt_swap hk hp2
        (fun i => ∑ j in Finset.range n, R i j * x j = 0)).mp hx

end MatrixMath

theorem forDownTo_succ_last {σ : Type} (body : Nat → σ → σ) (lo cnt : Nat) (s : σ) :
    forDownTo body lo (cnt + 1) s = forDownTo body lo cnt (body (lo + cnt) s) := by
  induction cnt generalizing lo with
  | zero => simp [forDownTo]
  | succ c ih =>
    have e : lo + 1 + c = lo + (c + 1) := by omega
    rw [forDownTo, ih (lo + 1), e]
    rfl

theorem forDown_eq_forDownTo {σ : Type} (body : Nat → σ → σ) (cnt : Nat) (s : σ) :
    forDown body cnt s = forDownTo body 0 cnt s := by
  induction cnt generalizing s with
  | zero => rfl
  | succ c ih =>
    rw [forDown, ih, forDownTo_succ_last, Nat.zero_add]

theorem cell_div {n i j : Nat} (hj : j < n) : (n * i + j) / n = i := by
  have hn : 0 < n := by omega
  rw [Nat.add_comm, Nat.add_mul_div_left _ _ hn, Nat.div_eq_of_lt hj, Nat.zero_add]

theorem cell_mod {n i j : Nat} (hj : j < n) : (n * i + j) % n = j := by
  rw [Nat.mul_add_mod, Nat.mod_eq_of_lt hj]

theorem cell_lt {n m i j : Nat} (hi : i < m) (hj : j < n) : n * i + j < n * m := by
  have : n * (i + 1) ≤ n * m := Nat.mul_le_mul_left n hi
  rw [Nat.mul_succ] at this
  omega

namespace MatrixMath

/-- Entry `(i, j)` of the product written by `Multiply`. -/
theorem Multiply_entry (A B : Nat → K) (m p n : Nat) (C : Nat → K) (i j : Nat)
    (hi : i < m) (hj : j < n) :
    Multiply A B m p n C (n * i + j) = ∑ k in Finset.range p, A (p * i + k) * B (n * k + j) := by
  rw [Multiply_apply, if_pos (cell_lt hi hj), cell_div hj, cell_mod hj]

theorem undoSwaps_eq (A : Nat → K) (n : Nat) (pivrows : Nat → Nat) :
    undoSwaps A n pivrows = forDownTo (undoBody n pivrows) 0 n A := by
  rw [← forDown_eq_forDownTo]
  rfl

/-- The return code of `Invert` is 0 or 1. -/
theorem Invert_code (A : Nat → K) (n : Nat) : (Invert A n).1 = 0 ∨ (Invert A n).1 = 1 := by
  simp only [Invert]
  rcases kLoop n n 0 { A := A, pivrows := fun _ => 0, pivrow := 0 } with ⟨b, s2⟩
  cases b
  · exact Or.inl rfl
  · exact Or.inr rfl

/-- When `Invert` returns 1 the buffer holds a left inverse of the input. -/
theorem Invert_sound (A : Nat → K) (n : Nat) (h : (Invert A n).1 = 1) (i l : Nat)
    (hi : i < n) (hl : l < n) :
    ∑ j in Finset.range n, (Invert A n).2 (i * n + j) * A (j * n + l)
      = if i = l then 1 else 0 := by
  have hs := kLoop_sound n n 0 { A := A, pivrows := fun _ => 0, pivrow := 0 }
    (fun i j => A (i * n + j)) (Nat.zero_add n) (Exchanged_init n A)
  simp only [Invert] at h ⊢
  rcases hr : kLoop n n 0 { A := A, pivrows := fun _ => 0, pivrow := 0 } with ⟨b, s2⟩
  rw [hr] at h
  cases b
  · simp at h
  · simp only [undoSwaps_eq]
    exact (hs s2 hr).2 i l hi hl

/-- On an input with trivial kernel `Invert` returns 1. -/
theorem Invert_complete (A : Nat → K) (n : Nat)
    (hinj : ∀ x : Nat → K, (∀ i, i < n → ∑ j in Finset.range n, A (i * n + j) * x j = 0) →
      ∀ i, i < n → x i = 0) :
    (Invert A n).1 = 1 := by
  have hc := kLoop_complete n n 0 { A := A, pivrows := fun _ => 0, pivrow := 0 }
    (fun i j => A (i * n + j)) (Nat.zero_add n) (Exchanged_init n A) hinj
  simp only [Invert]
  rcases hr : kLoop n n 0 { A := A, pivrows := fun _ => 0, pivrow := 0 } with ⟨b, s2⟩
  rw [hr] at hc
  cases b
  · simp at hc
  · rfl

/-- Matrix form of `Invert_sound`. -/
theorem Invert_mul_self (A : Nat → K) (n : Nat) (h : (Invert A n).1 = 1) :
    toMatrix n (Invert A n).2 * toMatrix n A = 1 := by
  ext i l
  rw [Matrix.mul_apply, Matrix.one_apply]
  have := Invert_sound A n h i.val l.val i.isLt l.isLt
  rw [Finset.sum_range] at this
  simp only [toMatrix, Matrix.of_apply, Fin.ext_iff]
  rw [← this]
  apply Finset.sum_congr rfl
  intro j _
  rw [Nat.mul_comm n i.val, Nat.mul_comm n j.val]

/-- A matrix with non-zero determinant has trivial kernel, in buffer form. -/
theorem kernel_trivial_of_det (A : Nat → K) (n : Nat) (hA : (toMatrix n A).det ≠ 0)
    (x : Nat → K) (hx : ∀ i, i < n → ∑ j in Finset.range n, A (i * n + j) * x j = 0)
    (i : Nat) (hi : i < n) : x i = 0 := by
  have hv : (toMatrix n A).mulVec (fun j : Fin n => x j.val) = 0 := by
    ext r
    have := hx r.val r.isLt
    rw [Finset.sum_range] at this
    simp only [Matrix.mulVec, Matrix.dotProduct, toMatrix, Matrix.of_apply, Pi.zero_apply]
    rw [← this]
    apply Finset.sum_congr rfl
    intro j _
    rw [Nat.mul_comm n r.val]
  have := Matrix.eq_zero_of_mulVec_eq_zero hA hv
  exact congrFun this ⟨i, hi⟩

/-- The matrix of a product written by `Multiply` is the matrix product. -/
theorem toMatrix_Multiply (A B : Nat → K) (n : Nat) (C : Nat → K) :
    toMatrix n (Multiply A B n n n C) = toMatrix n A * toMatrix n B := by
  ext i j
  rw [Matrix.mul_apply]
  simp only [toMatrix, Matrix.of_apply]
  rw [Multiply_entry A B n n n C i.val j.val i.isLt j.isLt, Finset.sum_range]

end MatrixMath

/-! ## Buffers as 4 × 4 matrices -/

open MatrixMath

theorem toMatrix_Copy (n : Nat) (A B : Nat → K) : toMatrix n (Copy A n n B) = toMatrix n A := by
  ext i j
  simp only [toMatrix, Matrix.of_apply]
  rw [Copy_apply, if_pos (cell_lt i.isLt j.isLt)]

theorem toMatrix_ext_iff (n : Nat) (A B : Nat → K) :
    toMatrix n A = toMatrix n B ↔ ∀ i j, i < n → j < n → A (n * i + j) = B (n * i + j) := by
  constructor
  · intro h i j hi hj
    have := congrFun (congrFun h ⟨i, hi⟩) ⟨j, hj⟩
    simpa [toMatrix] using this
  · intro h
    ext i j
    simp only [toMatrix, Matrix.of_apply]
    exact h i.val j.val i.isLt j.isLt

theorem toMatrix_arr16 (a0 a1 a2 a3 b0 b1 b2 b3 c0 c1 c2 c3 d0 d1 d2 d3 : K) :
    toMatrix 4 (arr [a0, a1, a2, a3, b0, b1, b2, b3, c0, c1, c2, c3, d0, d1, d2, d3])
      = !![a0, a1, a2, a3; b0, b1, b2, b3; c0, c1, c2, c3; d0, d1, d2, d3] := by
  ext i j
  fin_cases i <;> fin_cases j <;> rfl

theorem toMatrix_identity :
    toMatrix 4 (arr [(1 : K), 0, 0, 0, 0, 1, 0, 0, 0, 0, 1, 0, 0, 0, 0, 1]) = 1 := by
  ext i j
  fin_cases i <;> fin_cases j <;> rfl

/-! ## Links -/

namespace DhKinematicLink

theorem get_Tm_matrix (sin cos : K → K) (l : DhKinematicLink K) (W : Nat → K) (q : K) :
    toMatrix 4 (l.get_Tm sin cos W q).2 = dhMatrix sin cos l.d l.a l.alpha q := by
  simp only [get_Tm, toMatrix_Copy, toMatrix_arr16, dhMatrix]

theorem get_Tm_link (sin cos : K → K) (l : DhKinematicLink K) (W : Nat → K) (q : K) :
    (l.get_Tm sin cos W q).1 = { l with theta := q } := rfl

end DhKinematicLink

/-! ## Forward kinematics -/

namespace DhKinematicChain

/-- The loop of `fKine` after `cnt` links: the links visited hold their joint
value, and `Tm` is the running product. -/
theorem fKine_loop (sin cos : K → K) (q : Nat → K) (L : Nat → DhKinematicLink K)
    (T0 X Y : Nat → K) (cnt : Nat) :
    (forUp (fKineBody sin cos q) 0 cnt { links := L, Tm := T0, TmLink := X, TmTemp := Y }).links
        = (fun i => if i < cnt then { L i with theta := q i } else L i) ∧
    toMatrix 4
        (forUp (fKineBody sin cos q) 0 cnt { links := L, Tm := T0, TmLink := X, TmTemp := Y }).Tm
      = List.foldl (fun acc i => acc * dhMatrix sin cos (L i).d (L i).a (L i).alpha (q i))
          (toMatrix 4 T0) (List.range cnt) := by
  induction cnt with
  | zero =>
    constructor
    · funext i; simp [forUp]
    · simp [forUp]
  | succ c ih =>
    obtain ⟨ih1, ih2⟩ := ih
    rw [forUp_succ_last]
    generalize forUp (fKineBody sin cos q) 0 c { links := L, Tm := T0, TmLink := X, TmTemp := Y }
      = s at ih1 ih2
    constructor
    · funext i
      simp only [fKineBody, Nat.zero_add, ih1, Function.update_apply,
        DhKinematicLink.get_Tm_link, Nat.lt_irrefl, if_false]
      by_cases hic : i = c
      · subst hic; simp
      · have : (i < c + 1) = (i < c) := by
          apply propext; omega
        simp [hic, this]
    · simp only [fKineBody, Nat.zero_add, toMatrix_Copy, toMatrix_Multiply,
        DhKinematicLink.get_Tm_matrix, ih1, ih2, Nat.lt_irrefl, if_false,
        List.range_succ, List.foldl_append, List.foldl_cons, List.foldl_nil]

theorem fKine_matrix (sin cos : K → K) (c : DhKinematicChain K) (W q : Nat → K) :
    toMatrix 4 (c.fKine sin cos W q).2
      = List.foldl
          (fun acc i => acc * dhMatrix sin cos (c.links i).d (c.links i).a (c.links i).alpha (q i))
          1 (List.range c.noOfLinks) := by
  simp only [fKine, toMatrix_Copy]
  rw [(fKine_loop sin cos q c.links _ _ _ c.noOfLinks).2, toMatrix_identity]

theorem fKine_chain (sin cos : K → K) (c : DhKinematicChain K) (W q : Nat → K) :
    (c.fKine sin cos W q).1
      = { c with links := fun i => if i < c.noOfLinks then { c.links i with theta := q i }
                                   else c.links i } := by
  simp only [fKine]
  rw [(fKine_loop sin cos q c.links _ _ _ c.noOfLinks).1]

/-- The running product only reads `d`, `a` and `alpha` of each link. -/
theorem foldl_dh_congr (sin cos : K → K) (L1 L2 : Nat → DhKinematicLink K) (q : Nat → K)
    (h : ∀ i, (L1 i).d = (L2 i).d ∧ (L1 i).a = (L2 i).a ∧ (L1 i).alpha = (L2 i).alpha)
    (l : List Nat) (M : Matrix (Fin 4) (Fin 4) K) :
    List.foldl (fun acc i => acc * dhMatrix sin cos (L1 i).d (L1 i).a (L1 i).alpha (q i)) M l
      = List.foldl (fun acc i => acc * dhMatrix sin cos (L2 i).d (L2 i).a (L2 i).alpha (q i))
          M l := by
  have : (fun (acc : Matrix (Fin 4) (Fin 4) K) i =>
        acc * dhMatrix sin cos (L1 i).d (L1 i).a (L1 i).alpha (q i))
      = (fun acc i => acc * dhMatrix sin cos (L2 i).d (L2 i).a (L2 i).alpha (q i)) := by
    funext acc i
    rw [(h i).1, (h i).2.1, (h i).2.2]
  rw [this]

theorem agree16_iff (A B : Nat → K) :
    (∀ x, x < 16 → A x = B x) ↔ toMatrix 4 A = toMatrix 4 B := by
  rw [toMatrix_ext_iff]
  constructor
  · intro h i j hi hj
    exact h _ (by omega)
  · intro h x hx
    have := h (x / 4) (x % 4) (by omega) (by omega)
    rwa [Nat.div_add_mod] at this

/-- The single recomputation routine leaves the cached transform consistent. -/
theorem fKineWithBaseAndTool_consistent (sin cos : K → K) (c : DhKinematicChain K) :
    TmCurrentConsistent sin cos (c.fKineWithBaseAndTool sin cos) := by
  intro W1 W2
  rw [agree16_iff]
  simp only [fKineWithBaseAndTool, toMatrix_Copy, toMatrix_Multiply, fKine_matrix, fKine_chain]
  congr 1
  apply foldl_dh_congr
  intro i
  by_cases hi : i < c.noOfLinks
  · simp [hi]
  · simp [hi]

end DhKinematicChain

/-! ## Matrix inversion -/

/-- C1 (inversion round trip): for every `n` and every row-major `n × n` buffer
`A` with non-zero determinant, `Invert` returns 1 and leaves a buffer `B` such
that `Multiply(A, B, n, n, n)` and `Multiply(B, A, n, n, n)` both write the
identity, whatever row swaps the pivot search forces. -/
theorem Invert_round_trip (n : Nat) (A C : Nat → K) (hA : (toMatrix n A).det ≠ 0) :
    (Invert A n).1 = 1 ∧
    (∀ i j, i < n → j < n →
      Multiply A (Invert A n).2 n n n C (n * i + j) = if i = j then 1 else 0) ∧
    (∀ i j, i < n → j < n →
      Multiply (Invert A n).2 A n n n C (n * i + j) = if i = j then 1 else 0) := by
  have h1 : (Invert A n).1 = 1 := Invert_complete A n (kernel_trivial_of_det A n hA)
  have hBA : toMatrix n (Invert A n).2 * toMatrix n A = 1 := Invert_mul_self A n h1
  have hAB : toMatrix n A * toMatrix n (Invert A n).2 = 1 := Matrix.mul_eq_one_comm.mp hBA
  refine ⟨h1, ?_, ?_⟩
  · intro i j hi hj
    have := congrFun (congrFun (toMatrix_Multiply A (Invert A n).2 n C) ⟨i, hi⟩) ⟨j, hj⟩
    rw [hAB] at this
    simpa [toMatrix, Matrix.one_apply] using this
  · intro i j hi hj
    have := congrFun (congrFun (toMatrix_Multiply (Invert A n).2 A n C) ⟨i, hi⟩) ⟨j, hj⟩
    rw [hBA] at this
    simpa [toMatrix, Matrix.one_apply] using this

/-- The round trip on the rational matrix `[[0,1],[1,0]]`, whose first pivot
search must swap the two rows. -/
theorem Invert_round_trip_witness :
    (toMatrix 2 (arr [(0 : ℚ), 1, 1, 0])).det ≠ 0 ∧
    ((Invert (arr [(0 : ℚ), 1, 1, 0]) 2).1 = 1 ∧
      (∀ i j, i < 2 → j < 2 →
        Multiply (arr [(0 : ℚ), 1, 1, 0]) (Invert (arr [(0 : ℚ), 1, 1, 0]) 2).2 2 2 2 uninit
          (2 * i + j) = if i = j then 1 else 0) ∧
      (∀ i j, i < 2 → j < 2 →
        Multiply (Invert (arr [(0 : ℚ), 1, 1, 0]) 2).2 (arr [(0 : ℚ), 1, 1, 0]) 2 2 2 uninit
          (2 * i + j) = if i = j then 1 else 0)) :=
  ⟨by simp [toMatrix, Matrix.det_fin_two, arr],
   Invert_round_trip 2 (arr [(0 : ℚ), 1, 1, 0]) uninit
     (by simp [toMatrix, Matrix.det_fin_two, arr])⟩

/-- C5, amended: in exact arithmetic an `n × n` buffer with an all-zero row
`r < n` makes `Invert` return 0, never 1. -/
theorem Invert_zero_row (n : Nat) (A : Nat → K) (r : Nat) (hr : r < n)
    (hz : ∀ j, j < n → A (n * r + j) = 0) :
    (Invert A n).1 = 0 ∧ (Invert A n).1 ≠ 1 := by
  have hne : (Invert A n).1 ≠ 1 := by
    intro h1
    have hBA : toMatrix n (Invert A n).2 * toMatrix n A = 1 := Invert_mul_self A n h1
    have hAB : toMatrix n A * toMatrix n (Invert A n).2 = 1 := Matrix.mul_eq_one_comm.mp hBA
    have := congrFun (congrFun hAB ⟨r, hr⟩) ⟨r, hr⟩
    rw [Matrix.mul_apply, Matrix.one_apply_eq] at this
    have hzero : ∑ j : Fin n, toMatrix n A ⟨r, hr⟩ j * toMatrix n (Invert A n).2 j ⟨r, hr⟩ = 0 := by
      apply Finset.sum_eq_zero
      intro j _
      simp [toMatrix, hz j.val j.isLt]
    rw [hzero] at this
    exact zero_ne_one this
  rcases Invert_code A n with h | h
  · exact ⟨h, hne⟩
  · exact absurd h hne

/-- The rational matrix `[[0,0],[1,2]]` has a zero first row. -/
theorem Invert_zero_row_witness :
    (0 < 2 ∧ ∀ j, j < 2 → (arr [(0 : ℚ), 0, 1, 2]) (2 * 0 + j) = 0) ∧
    ((Invert (arr [(0 : ℚ), 0, 1, 2]) 2).1 = 0 ∧ (Invert (arr [(0 : ℚ), 0, 1, 2]) 2).1 ≠ 1) :=
  ⟨⟨by decide, by intro j hj; interval_cases j <;> simp [arr]⟩,
   Invert_zero_row 2 (arr [(0 : ℚ), 0, 1, 2]) 0 (by decide)
     (by intro j hj; interval_cases j <;> simp [arr])⟩

/-! ## Link transform -/

open DhKinematicChain

/-- C3 (mutators re-establish the cached transform): after `set_qCurrent`,
`set_qCurrentValue`, `setZoffset`, `setToolTransformPosition` and
`setToolTransformPositionToZero`, `TmCurrent` equals
`Multiply(fKine(qCurrent), TmTool)` for the joint vector and tool held after
the call; `set_qCurrent` copies the first `noOfLinks` joint values and
`set_qCurrentValue` replaces entry `index` only. -/
theorem mutators_recompute_TmCurrent (sin cos : K → K) (c : DhKinematicChain K) :
    (∀ q : Nat → K, TmCurrentConsistent sin cos (c.set_qCurrent sin cos q) ∧
      ∀ i, (c.set_qCurrent sin cos q).qCurrent i = if i < c.noOfLinks then q i else c.qCurrent i) ∧
    (∀ (index : Nat) (v : K), TmCurrentConsistent sin cos (c.set_qCurrentValue sin cos index v) ∧
      (c.set_qCurrentValue sin cos index v).qCurrent = Function.update c.qCurrent index v) ∧
    (∀ z : K, TmCurrentConsistent sin cos (c.setZoffset sin cos z)) ∧
    (∀ dx dy dz zo : K,
      TmCurrentConsistent sin cos (c.setToolTransformPosition sin cos dx dy dz zo)) ∧
    TmCurrentConsistent sin cos (c.setToolTransformPositionToZero sin cos) := by
  refine ⟨fun q => ⟨fKineWithBaseAndTool_consistent sin cos _, ?_⟩,
    fun index v => ⟨fKineWithBaseAndTool_consistent sin cos _, ?_⟩,
    fun z => fKineWithBaseAndTool_consistent sin cos _,
    fun dx dy dz zo => fKineWithBaseAndTool_consistent sin cos _,
    fKineWithBaseAndTool_consistent sin cos _⟩
  · intro i
    simp only [set_qCurrent, fKineWithBaseAndTool, fKine_chain]
    have key : ∀ cnt i, forUp (fun i (q0 : Nat → K) => Function.update q0 i (q i)) 0 cnt
        c.qCurrent i = if i < cnt then q i else c.qCurrent i := by
      intro cnt
      induction cnt with
      | zero => intro i; simp [forUp]
      | succ n ih =>
        intro i
        rw [forUp_succ_last]
        simp only [Nat.zero_add, Function.update_apply, ih]
        by_cases hin : i = n
        · subst hin; simp
        · have : (i < n + 1) = (i < n) := by
            apply propext; omega
          simp [hin, this]
    exact key _ i
  · simp only [set_qCurrentValue, fKineWithBaseAndTool, fKine_chain]

/-! ## The tool transform and its inverse -/

theorem isTranslation_update (T : Nat → K) (h : IsTranslation T) (x : Nat) (v : K)
    (hx : x = 3 ∨ x = 7 ∨ x = 11) : IsTranslation (Function.update T x v) := by
  obtain ⟨h0, h1, h2, h4, h5, h6, h8, h9, h10, h12, h13, h14, h15⟩ := h
  rcases hx with rfl | rfl | rfl <;>
    simp [IsTranslation, Function.update_apply, h0, h1, h2, h4, h5, h6, h8, h9, h10, h12, h13,
      h14, h15]

theorem isTranslation_update_last (T : Nat → K) (h : IsTranslation T) :
    IsTranslation (Function.update T 15 1) := by
  obtain ⟨h0, h1, h2, h4, h5, h6, h8, h9, h10, h12, h13, h14, _⟩ := h
  simp [IsTranslation, Function.update_apply, h0, h1, h2, h4, h5, h6, h8, h9, h10, h12, h13, h14]

/-- Every public call keeps the tool transform a pure translation. -/
theorem step_isTranslation (sin cos : K → K) (c : DhKinematicChain K) (op : Op K)
    (h : IsTranslation c.TmTool) : IsTranslation (step sin cos c op).TmTool := by
  cases op with
  | set_qCurrent q => exact h
  | set_qCurrentValue index v => exact h
  | set_TmCurrentPosition px py pz => exact h
  | set_TmCurrentOrientation tx ty tz order => exact h
  | multiply_TmCurrentByTm Tm => exact h
  | fKine out q => exact h
  | fKineWithBaseAndTool => exact h
  | updateTmToolInverse => exact h
  | setZoffset z => exact isTranslation_update _ h 11 _ (by decide)
  | setToolTransformPosition dx dy dz zo =>
    exact isTranslation_update_last _
      (isTranslation_update _ (isTranslation_update _ (isTranslation_update _ h 3 _ (by decide))
        7 _ (by decide)) 11 _ (by decide))
  | setToolTransformPositionToZero =>
    exact isTranslation_update_last _
      (isTranslation_update _ (isTranslation_update _ (isTranslation_update _ h 3 _ (by decide))
        7 _ (by decide)) 11 _ (by decide))

theorem construct_isTranslation (n : Nat) (linksInput : Nat → DhKinematicLink K)
    (qMem TmMem : Nat → K) : IsTranslation (construct n linksInput qMem TmMem).TmTool := by
  simp [IsTranslation, construct, arr]

theorem run_isTranslation (sin cos : K → K) (ops : List (Op K)) :
    ∀ c : DhKinematicChain K, IsTranslation c.TmTool → IsTranslation (run sin cos c ops).TmTool := by
  induction ops with
  | nil => intro c h; exact h
  | cons op rest ih =>
    intro c h
    exact ih (step sin cos c op) (step_isTranslation sin cos c op h)

/-- A pure translation has trivial kernel. -/
theorem isTranslation_kernel (T : Nat → K) (h : IsTranslation T) (x : Nat → K)
    (hx : ∀ i, i < 4 → ∑ j in Finset.range 4, T (i * 4 + j) * x j = 0) (i : Nat) (hi : i < 4) :
    x i = 0 := by
  obtain ⟨h0, h1, h2, h4, h5, h6, h8, h9, h10, h12, h13, h14, h15⟩ := h
  have e0 := hx 0 (by decide)
  have e1 := hx 1 (by decide)
  have e2 := hx 2 (by decide)
  have e3 := hx 3 (by decide)
  simp only [Finset.sum_range_succ, Finset.sum_range_zero, Nat.reduceMul, Nat.reduceAdd,
    h0, h1, h2, h4, h5, h6, h8, h9, h10, h12, h13, h14, h15, zero_mul, one_mul, zero_add,
    add_zero] at e0 e1 e2 e3
  rw [e3, mul_zero, add_zero] at e0 e1 e2
  interval_cases i
  · exact e0
  · exact e1
  · exact e2
  · exact e3

theorem toolInverseOk_of_matrix (c : DhKinematicChain K)
    (h : toMatrix 4 c.TmToolInv * toMatrix 4 c.TmTool = 1) : ToolInverseOk c := by
  have h2 : toMatrix 4 c.TmTool * toMatrix 4 c.TmToolInv = 1 := Matrix.mul_eq_one_comm.mp h
  intro W i j hi hj
  constructor
  · have := congrFun (congrFun (toMatrix_Multiply c.TmTool c.TmToolInv 4 W) ⟨i, hi⟩) ⟨j, hj⟩
    rw [h2] at this
    simpa [toMatrix, Matrix.one_apply] using this
  · have := congrFun (congrFun (toMatrix_Multiply c.TmToolInv c.TmTool 4 W) ⟨i, hi⟩) ⟨j, hj⟩
    rw [h] at this
    simpa [toMatrix, Matrix.one_apply] using this

/-- On a copy of `TmTool`, a return of 1 from `Invert` leaves the inverse of `TmTool`. -/
theorem updateTmToolInverse_of_success (c : DhKinematicChain K)
    (h : (Invert (Copy c.TmTool 4 4 c.TmToolInv) 4).1 = 1) :
    ToolInverseOk c.updateTmToolInverse := by
  apply toolInverseOk_of_matrix
  have := Invert_mul_self (Copy c.TmTool 4 4 c.TmToolInv) 4 h
  rw [toMatrix_Copy] at this
  exact this

theorem Invert_translation (c : DhKinematicChain K) (h : IsTranslation c.TmTool) :
    (Invert (Copy c.TmTool 4 4 c.TmToolInv) 4).1 = 1 := by
  apply Invert_complete
  intro x hx
  apply isTranslation_kernel c.TmTool h x
  intro i hi
  rw [← hx i hi]
  apply Finset.sum_congr rfl
  intro j hj
  have hj2 : j < 4 := Finset.mem_range.mp hj
  rw [Copy_apply, if_pos (by omega)]

/-- The common tail of the three tool mutators, `updateTmToolInverse()` then
`fKineWithBaseAndTool()`, on a pure translation. -/
theorem toolMutator_ok (sin cos : K → K) (c : DhKinematicChain K)
    (h : IsTranslation (c.updateTmToolInverse.fKineWithBaseAndTool sin cos).TmTool) :
    ToolInverseOk (c.updateTmToolInverse.fKineWithBaseAndTool sin cos) := by
  have h1 : IsTranslation c.TmTool := h
  have := updateTmToolInverse_of_success c (Invert_translation c h1)
  intro W i j hi hj
  exact this W i j hi hj

/-- C4 (tool inverse in lock-step): from a freshly constructed chain and after
any sequence of public calls, right after `setZoffset`,
`setToolTransformPosition` or `setToolTransformPositionToZero` returns,
`Multiply(TmTool, TmToolInv)` and `Multiply(TmToolInv, TmTool)` are the 4 × 4
identity. -/
theorem tool_inverse_lock_step (sin cos : K → K) (n : Nat) (linksInput : Nat → DhKinematicLink K)
    (qMem TmMem : Nat → K) (ops : List (Op K)) :
    (∀ z : K, ToolInverseOk
      ((run sin cos (construct n linksInput qMem TmMem) ops).setZoffset sin cos z)) ∧
    (∀ dx dy dz zo : K, ToolInverseOk
      ((run sin cos (construct n linksInput qMem TmMem) ops).setToolTransformPosition
        sin cos dx dy dz zo)) ∧
    ToolInverseOk
      ((run sin cos (construct n linksInput qMem TmMem) ops).setToolTransformPositionToZero
        sin cos) := by
  have hr := run_isTranslation sin cos ops _ (construct_isTranslation n linksInput qMem TmMem)
  generalize run sin cos (construct n linksInput qMem TmMem) ops = c at hr
  refine ⟨fun z => ?_, fun dx dy dz zo => ?_, ?_⟩
  · exact toolMutator_ok sin cos _ (step_isTranslation sin cos c (.setZoffset z) hr)
  · exact toolMutator_ok sin cos _
      (step_isTranslation sin cos c (.setToolTransformPosition dx dy dz zo) hr)
  · exact toolMutator_ok sin cos _
      (step_isTranslation sin cos c .setToolTransformPositionToZero hr)

/-- C8 (tool offset additivity): `setZoffset(z1)` followed by `setZoffset(z2)`
leaves the same `TmTool` and `zOffset` as `setZoffset(z2)` alone, and
`setZoffset` preserves `TmTool[2][3] - zOffset`. -/
theorem setZoffset_additive (sin cos : K → K) (c : DhKinematicChain K) (z1 z2 : K) :
    ((c.setZoffset sin cos z1).setZoffset sin cos z2).TmTool = (c.setZoffset sin cos z2).TmTool ∧
    ((c.setZoffset sin cos z1).setZoffset sin cos z2).zOffset = (c.setZoffset sin cos z2).zOffset ∧
    (c.setZoffset sin cos z1).TmTool (4 * i3 + i4) - (c.setZoffset sin cos z1).zOffset
      = c.TmTool (4 * i3 + i4) - c.zOffset := by
  have hT : ∀ (d : DhKinematicChain K) (z : K), (d.setZoffset sin cos z).TmTool
      = Function.update d.TmTool (4 * i3 + i4) (d.TmTool (4 * i3 + i4) - d.zOffset + z) :=
    fun _ _ => rfl
  have hz : ∀ (d : DhKinematicChain K) (z : K), (d.setZoffset sin cos z).zOffset = z :=
    fun _ _ => rfl
  refine ⟨?_, ?_, ?_⟩
  · have e : ∀ a : K, a - c.zOffset + z1 - z1 + z2 = a - c.zOffset + z2 := fun a => by ring
    rw [hT, hT, hT, hz, Function.update_same, Function.update_idem, e]
  · rw [hz, hz]
  · rw [hT, hz, Function.update_same]
    ring

/-! ## A planar two-link arm -/

theorem toMatrix_fKineWithBaseAndTool (sin cos : K → K) (c : DhKinematicChain K) :
    toMatrix 4 (c.fKineWithBaseAndTool sin cos).TmCurrent
      = List.foldl
          (fun acc i => acc * dhMatrix sin cos (c.links i).d (c.links i).a (c.links i).alpha
            (c.qCurrent i))
          1 (List.range c.noOfLinks) * toMatrix 4 c.TmTool := by
  simp only [fKineWithBaseAndTool, toMatrix_Copy, toMatrix_Multiply, fKine_matrix, fKine_chain]

theorem forUp_update_apply {α : Type} (f : Nat → α) (cnt : Nat) (g : Nat → α) (i : Nat) :
    forUp (fun i (h : Nat → α) => Function.update h i (f i)) 0 cnt g i
      = if i < cnt then f i else g i := by
  induction cnt with
  | zero => simp [forUp]
  | succ n ih =>
    rw [forUp_succ_last]
    simp only [Nat.zero_add, Function.update_apply, ih]
    by_cases hin : i = n
    · subst hin; simp
    · have : (i < n + 1) = (i < n) := by
        apply propext; omega
      simp [hin, this]

theorem construct_links (n : Nat) (linksInput : Nat → DhKinematicLink K) (qMem TmMem : Nat → K)
    (i : Nat) :
    (construct n linksInput qMem TmMem).links i
      = if i < n then linksInput i else DhKinematicLink.zero := by
  simp only [construct]
  rw [forUp_update_apply]

theorem construct_TmTool (n : Nat) (linksInput : Nat → DhKinematicLink K) (qMem TmMem : Nat → K) :
    toMatrix 4 (construct n linksInput qMem TmMem).TmTool = 1 := by
  have h : (construct n linksInput qMem TmMem).TmTool
      = arr [1, 0, 0, 0, 0, 1, 0, 0, 0, 0, 1, 0, 0, 0, 0, 1] := by
    simp [construct]
  rw [h, toMatrix_identity]

theorem construct_noOfLinks (n : Nat) (linksInput : Nat → DhKinematicLink K)
    (qMem TmMem : Nat → K) : (construct n linksInput qMem TmMem).noOfLinks = n := rfl

theorem set_qCurrent_matrix (sin cos : K → K) (c : DhKinematicChain K) (q : Nat → K) :
    toMatrix 4 (c.set_qCurrent sin cos q).TmCurrent
      = List.foldl
          (fun acc i => acc * dhMatrix sin cos (c.links i).d (c.links i).a (c.links i).alpha
            (if i < c.noOfLinks then q i else c.qCurrent i))
          1 (List.range c.noOfLinks) * toMatrix 4 c.TmTool := by
  rw [set_qCurrent, toMatrix_fKineWithBaseAndTool]
  simp only [forUp_update_apply]

/-- C9 (concrete planar scenario): for the chain of two links
`(theta, d, a, alpha) = (0, 0, 1, 0)` with the default tool, over the reals,
after `set_qCurrent([0, π/2])` the cached transform is
`[[0,-1,0,1],[1,0,0,1],[0,0,1,0],[0,0,0,1]]`: position column `(1, 1, 0)`,
rotation block the rotation by `π/2` about Z; `get_TmCurrentPosition` returns
`(1, 1, 0)`. -/
theorem planar_two_link (qMem TmMem out : Nat → ℝ) :
    toMatrix 4
        ((construct 2 (fun _ => DhKinematicLink.ofParams 0 0 1 0) qMem TmMem).set_qCurrent
          Real.sin Real.cos (arr [0, Real.pi / 2])).TmCurrent
      = !![0, -1, 0, 1;
           1, 0, 0, 1;
           0, 0, 1, 0;
           0, 0, 0, 1] ∧
    (∀ i, i < 3 →
      get_TmCurrentPosition
        ((construct 2 (fun _ => DhKinematicLink.ofParams 0 0 1 0) qMem TmMem).set_qCurrent
          Real.sin Real.cos (arr [0, Real.pi / 2])) out i
        = (arr [1, 1, 0] : Nat → ℝ) i) := by
  have hM : toMatrix 4
        ((construct 2 (fun _ => DhKinematicLink.ofParams 0 0 1 0) qMem TmMem).set_qCurrent
          Real.sin Real.cos (arr [0, Real.pi / 2])).TmCurrent
      = !![0, -1, 0, 1;
           1, 0, 0, 1;
           0, 0, 1, 0;
           0, 0, 0, 1] := by
    rw [set_qCurrent_matrix, construct_TmTool]
    simp only [construct_noOfLinks, construct_links, List.range_succ, List.range_zero, List.nil_append,
      List.cons_append, List.foldl_cons, List.foldl_nil, dhMatrix, DhKinematicLink.ofParams, arr]
    ext i j
    fin_cases i <;> fin_cases j <;>
      simp [Matrix.mul_apply, Fin.sum_univ_four, Real.sin_pi_div_two, Real.cos_pi_div_two] <;>
      rfl
  refine ⟨hM, ?_⟩
  intro i hi
  have e := (toMatrix_ext_iff 4 _ _).mp
    (hM.trans (toMatrix_arr16 _ _ _ _ _ _ _ _ _ _ _ _ _ _ _ _).symm)
  have e0 := e 0 3 (by decide) (by decide)
  have e1 := e 1 3 (by decide) (by decide)
  have e2 := e 2 3 (by decide) (by decide)
  interval_cases i
  · simpa [get_TmCurrentPosition, arr] using e0
  · simpa [get_TmCurrentPosition, arr] using e1
  · simpa [get_TmCurrentPosition, arr] using e2

/-! ## What the tool-inverse update reports -/

/-- C6, amended: `updateTmToolInverse` changes `TmToolInv` only, to the buffer
`Invert` leaves when run on a copy of `TmTool`, in exact arithmetic and in
binary32 alike, and the return code of `Invert` goes nowhere; in exact
arithmetic, when that code is 1, `TmToolInv` is the inverse of `TmTool`. -/
theorem updateTmToolInverse_spec (c : DhKinematicChain K)
    (c32 : DhKinematicChain Binary32.F32) :
    c.updateTmToolInverse
      = { c with TmToolInv := (Invert (Copy c.TmTool 4 4 c.TmToolInv) 4).2 } ∧
    ((Invert (Copy c.TmTool 4 4 c.TmToolInv) 4).1 = 1 → ToolInverseOk c.updateTmToolInverse) ∧
    Binary32.DhKinematicChain.updateTmToolInverse c32
      = { c32 with
          TmToolInv :=
            (Binary32.MatrixMath.Invert
              (Binary32.MatrixMath.Copy c32.TmTool 4 4 c32.TmToolInv) 4).2 } :=
  ⟨rfl, updateTmToolInverse_of_success c, rfl⟩

/-- On a freshly constructed chain the inversion succeeds and the inverse is stored. -/
theorem updateTmToolInverse_spec_witness :
    (Invert (Copy emptyChain.TmTool 4 4 emptyChain.TmToolInv) 4).1 = 1 ∧
    ToolInverseOk emptyChain.updateTmToolInverse :=
  ⟨Invert_translation emptyChain (construct_isTranslation _ _ _ _),
   (updateTmToolInverse_spec emptyChain Binary32.overflowedToolChain).2.1
     (Invert_translation emptyChain (construct_isTranslation _ _ _ _))⟩

/-! ## Which calls keep the cached transform consistent -/

theorem toMatrix_apply_mk (n : Nat) (A : Nat → K) (i j : Nat) (hi : i < n) (hj : j < n) :
    toMatrix n A ⟨i, hi⟩ ⟨j, hj⟩ = A (n * i + j) := rfl

theorem consistent_iff (sin cos : K → K) (c : DhKinematicChain K) :
    TmCurrentConsistent sin cos c ↔
      toMatrix 4 c.TmCurrent
        = List.foldl
            (fun acc i => acc * dhMatrix sin cos (c.links i).d (c.links i).a (c.links i).alpha
              (c.qCurrent i))
            1 (List.range c.noOfLinks) * toMatrix 4 c.TmTool := by
  constructor
  · intro h
    have := (agree16_iff _ _).mp (h uninit uninit)
    rw [this, toMatrix_Multiply, fKine_matrix]
  · intro h W1 W2
    rw [agree16_iff, h, toMatrix_Multiply, fKine_matrix]

/-- C7, as stated, fails: on a chain with no links and the default tool, made
consistent by `set_qCurrent`, each of `set_TmCurrentPosition(1, 0, 0)`,
`set_TmCurrentOrientation(π, 0, 0, 1)` and `multiply_TmCurrentByTm(0)` returns
with `TmCurrent` different from `fKine(qCurrent)` times `TmTool`. -/
theorem direct_setters_break_consistency :
    TmCurrentConsistent Real.sin Real.cos
      ((construct 0 (fun _ => DhKinematicLink.zero) uninit uninit).set_qCurrent
        Real.sin Real.cos uninit) ∧
    ¬ TmCurrentConsistent Real.sin Real.cos
      (((construct 0 (fun _ => DhKinematicLink.zero) uninit uninit).set_qCurrent
        Real.sin Real.cos uninit).set_TmCurrentPosition 1 0 0) ∧
    ¬ TmCurrentConsistent Real.sin Real.cos
      (((construct 0 (fun _ => DhKinematicLink.zero) uninit uninit).set_qCurrent
        Real.sin Real.cos uninit).set_TmCurrentOrientation Real.sin Real.cos Real.pi 0 0 1) ∧
    ¬ TmCurrentConsistent Real.sin Real.cos
      (((construct 0 (fun _ => DhKinematicLink.zero) uninit uninit).set_qCurrent
        Real.sin Real.cos uninit).multiply_TmCurrentByTm (fun _ => 0)) := by
  have hrhs : ∀ d : DhKinematicChain ℝ, TmCurrentConsistent Real.sin Real.cos d →
      d.noOfLinks = 0 → toMatrix 4 d.TmTool = 1 → toMatrix 4 d.TmCurrent = 1 := by
    intro d hd h0 h1
    rw [consistent_iff, h0, h1] at hd
    simpa using hd
  have hT := construct_TmTool (K := ℝ) 0 (fun _ => DhKinematicLink.zero) uninit uninit
  refine ⟨fKineWithBaseAndTool_consistent _ _ _, ?_, ?_, ?_⟩
  · intro hc
    have h := hrhs _ hc rfl hT
    have := congrFun (congrFun h ⟨0, by decide⟩) ⟨3, by decide⟩
    rw [toMatrix_apply_mk] at this
    simp [set_TmCurrentPosition, Function.update_apply, Matrix.one_apply] at this
  · intro hc
    have h := hrhs _ hc rfl hT
    have := congrFun (congrFun h ⟨1, by decide⟩) ⟨1, by decide⟩
    rw [toMatrix_apply_mk] at this
    simp [set_TmCurrentOrientation, DhMathUtils.trotxyz, Copy_apply, arr,
      Function.update_apply] at this
    norm_num at this
  · intro hc
    have h := hrhs _ hc rfl hT
    have := congrFun (congrFun h ⟨0, by decide⟩) ⟨0, by decide⟩
    rw [toMatrix_apply_mk] at this
    simp [multiply_TmCurrentByTm, Copy_apply, Multiply_apply] at this

/-- C7, amended: every call that ends with `fKineWithBaseAndTool()`, that is
`set_qCurrent`, `set_qCurrentValue`, `setZoffset`, `setToolTransformPosition`,
`setToolTransformPositionToZero` and `fKineWithBaseAndTool` itself, returns
with `TmCurrent` equal to `fKine(qCurrent)` times `TmTool`. -/
theorem recomputing_calls_consistent (sin cos : K → K) (c : DhKinematicChain K) (op : Op K)
    (h : op.recomputes = true) : TmCurrentConsistent sin cos (step sin cos c op) := by
  cases op with
  | set_qCurrent q => exact fKineWithBaseAndTool_consistent sin cos _
  | set_qCurrentValue index v => exact fKineWithBaseAndTool_consistent sin cos _
  | set_TmCurrentPosition px py pz => simp [Op.recomputes] at h
  | set_TmCurrentOrientation tx ty tz order => simp [Op.recomputes] at h
  | multiply_TmCurrentByTm Tm => simp [Op.recomputes] at h
  | fKine out q => simp [Op.recomputes] at h
  | fKineWithBaseAndTool => exact fKineWithBaseAndTool_consistent sin cos _
  | updateTmToolInverse => simp [Op.recomputes] at h
  | setZoffset z => exact fKineWithBaseAndTool_consistent sin cos _
  | setToolTransformPosition dx dy dz zo => exact fKineWithBaseAndTool_consistent sin cos _
  | setToolTransformPositionToZero => exact fKineWithBaseAndTool_consistent sin cos _

/-- The amended C7 at `setZoffset(1)` on a freshly constructed chain. -/
theorem recomputing_calls_consistent_witness :
    (Op.setZoffset (1 : ℝ)).recomputes = true ∧
    TmCurrentConsistent Real.sin Real.cos
      (step Real.sin Real.cos (construct 0 (fun _ => DhKinematicLink.zero) uninit uninit)
        (Op.setZoffset 1)) :=
  ⟨rfl, recomputing_calls_consistent Real.sin Real.cos _ (Op.setZoffset 1) rfl⟩

/-! ## Multiply on one memory -/

/-- Two loops whose bodies agree on the states of an invariant agree. -/
theorem forUp_congr_inv {σ : Type} (P : σ → Prop) (f g : Nat → σ → σ) (lo cnt : Nat) (s : σ)
    (hP : P s)
    (hfg : ∀ i t, lo ≤ i → i < lo + cnt → P t → f i t = g i t ∧ P (g i t)) :
    forUp f lo cnt s = forUp g lo cnt s ∧ P (forUp g lo cnt s) := by
  induction cnt with
  | zero => exact ⟨rfl, hP⟩
  | succ c ih =>
    obtain ⟨ih1, ih2⟩ := ih (fun i t h1 h2 h3 => hfg i t h1 (by omega) h3)
    rw [forUp_succ_last, forUp_succ_last, ih1]
    exact hfg (lo + c) _ (by omega) (by omega) ih2

/-- Closed form of a row-major double loop that stores `g i j` at address
`base + (n * i + j)`. -/
theorem forUp_cells_at (g : Nat → Nat → K) (base n m : Nat) (M : Nat → K) (a : Nat) :
    forUp (fun i M => forUp (fun j M => Function.update M (base + (n * i + j)) (g i j)) 0 n M)
        0 m M a
      = if base ≤ a ∧ a < base + n * m then g ((a - base) / n) ((a - base) % n) else M a := by
  have inner : ∀ (i : Nat) (B : Nat → K) (c : Nat) (a : Nat),
      forUp (fun j M => Function.update M (base + (n * i + j)) (g i j)) 0 c B a
        = if base + n * i ≤ a ∧ a < base + n * i + c then g i (a - base - n * i) else B a := by
    intro i B c
    induction c with
    | zero =>
      intro a
      have : ¬ (base + n * i ≤ a ∧ a < base + n * i) := by omega
      simp [forUp, this]
    | succ c ih =>
      intro a
      rw [forUp_succ_last]
      simp only [Nat.zero_add, Function.update_apply, ih]
      by_cases h1 : a = base + (n * i + c)
      · subst h1
        have h2 : base + n * i ≤ base + (n * i + c) ∧
            base + (n * i + c) < base + n * i + (c + 1) := by omega
        have h3 : base + (n * i + c) - base - n * i = c := by omega
        simp [h2, h3]
      · by_cases h2 : base + n * i ≤ a ∧ a < base + n * i + c
        · have h3 : base + n * i ≤ a ∧ a < base + n * i + (c + 1) := by omega
          simp [h1, h2, h3]
        · have h3 : ¬ (base + n * i ≤ a ∧ a < base + n * i + (c + 1)) := by omega
          simp [h1, h2, h3]
  induction m generalizing a with
  | zero =>
    have : ¬ (base ≤ a ∧ a < base) := by omega
    simp [forUp, this]
  | succ c ih =>
    rw [forUp_succ_last]
    simp only [Nat.zero_add]
    rw [inner]
    have e : n * (c + 1) = n * c + n := Nat.mul_succ n c
    by_cases h1 : base + n * c ≤ a ∧ a < base + n * c + n
    · have hn : 0 < n := by omega
      have hd : (a - base) / n = c := by
        apply Nat.div_eq_of_lt_le
        · rw [Nat.mul_comm]; omega
        · rw [Nat.mul_comm, e]; omega
      have hm : (a - base) % n = a - base - n * c := by
        have := Nat.div_add_mod (a - base) n
        rw [hd] at this
        omega
      have h2 : base ≤ a ∧ a < base + n * (c + 1) := by omega
      simp [h1, h2, hd, hm]
    · rw [if_neg h1, ih]
      by_cases h2 : base ≤ a ∧ a < base + n * c
      · have h3 : base ≤ a ∧ a < base + n * (c + 1) := by omega
        rw [if_pos h2, if_pos h3]
      · have h3 : ¬ (base ≤ a ∧ a < base + n * (c + 1)) := by omega
        rw [if_neg h2, if_neg h3]

/-- The accumulation loop of one cell, when the cell is none of the addresses read. -/
theorem forUp_accumulate (z : Nat) (ia ib : Nat → Nat) (c : Nat) (D : Nat → K)
    (h : ∀ k, k < c → ia k ≠ z ∧ ib k ≠ z) :
    forUp (fun k M => Function.update M z (M z + M (ia k) * M (ib k))) 0 c D
      = if c = 0 then D
        else Function.update D z (D z + ∑ k in Finset.range c, D (ia k) * D (ib k)) := by
  induction c with
  | zero => simp [forUp]
  | succ c ih =>
    rw [forUp_succ_last, ih (fun k hk => h k (by omega))]
    obtain ⟨h1, h2⟩ := h c (Nat.lt_succ_self c)
    simp only [Nat.zero_add]
    by_cases hc : c = 0
    · subst hc; simp
    · rw [if_neg hc, if_neg (Nat.succ_ne_zero c)]
      simp only [Function.update_idem, Function.update_same, Function.update_noteq h1,
        Function.update_noteq h2, Finset.sum_range_succ, add_assoc]

/-- Closed form of `MultiplyMem` when the output region overlaps neither input region. -/
theorem MultiplyMem_apply (mem : Nat → K) (A B C m p n : Nat)
    (hA : ∀ x y, x < m * p → y < m * n → A + x ≠ C + y)
    (hB : ∀ x y, x < p * n → y < m * n → B + x ≠ C + y) (a : Nat) :
    MultiplyMem mem A B C m p n a =
      if C ≤ a ∧ a < C + n * m then
        ∑ k in Finset.range p,
          mem (A + (p * ((a - C) / n) + k)) * mem (B + (n * k + (a - C) % n))
      else mem a := by
  have hcell : ∀ i j, i < m → j < n →
      ∀ M : Nat → K, (∀ a, ¬ (C ≤ a ∧ a < C + n * m) → M a = mem a) →
      forUp (fun k M =>
          Function.update M (C + (n * i + j))
            (M (C + (n * i + j)) + M (A + (p * i + k)) * M (B + (n * k + j))))
        0 p (Function.update M (C + (n * i + j)) 0)
        = Function.update M (C + (n * i + j))
            (∑ k in Finset.range p, mem (A + (p * i + k)) * mem (B + (n * k + j))) ∧
      (∀ a, ¬ (C ≤ a ∧ a < C + n * m) → Function.update M (C + (n * i + j))
            (∑ k in Finset.range p, mem (A + (p * i + k)) * mem (B + (n * k + j))) a
          = mem a) := by
    intro i j hi hj M hM
    have hz : n * i + j < m * n := by
      rw [Nat.mul_comm m n]; exact cell_lt hi hj
    have hzn : n * i + j < n * m := cell_lt hi hj
    have hAk : ∀ k, k < p → A + (p * i + k) ≠ C + (n * i + j) := fun k hk =>
      hA _ _ (by rw [Nat.mul_comm m p]; exact cell_lt hi hk) hz
    have hBk : ∀ k, k < p → B + (n * k + j) ≠ C + (n * i + j) := fun k hk =>
      hB _ _ (by rw [Nat.mul_comm p n]; exact cell_lt hk hj) hz
    have hAout : ∀ k, k < p → ¬ (C ≤ A + (p * i + k) ∧ A + (p * i + k) < C + n * m) := by
      intro k hk hin
      exact hA (p * i + k) (A + (p * i + k) - C)
        (by rw [Nat.mul_comm m p]; exact cell_lt hi hk)
        (by rw [Nat.mul_comm m n]; omega) (by omega)
    have hBout : ∀ k, k < p → ¬ (C ≤ B + (n * k + j) ∧ B + (n * k + j) < C + n * m) := by
      intro k hk hin
      exact hB (n * k + j) (B + (n * k + j) - C)
        (by rw [Nat.mul_comm p n]; exact cell_lt hk hj)
        (by rw [Nat.mul_comm m n]; omega) (by omega)
    constructor
    · rw [forUp_accumulate (C + (n * i + j)) (fun k => A + (p * i + k)) (fun k => B + (n * k + j))
        p _ (fun k hk => ⟨hAk k hk, hBk k hk⟩)]
      by_cases hp : p = 0
      · subst hp; simp
      · have e : ∑ k in Finset.range p,
              Function.update M (C + (n * i + j)) 0 (A + (p * i + k)) *
                Function.update M (C + (n * i + j)) 0 (B + (n * k + j))
            = ∑ k in Finset.range p, mem (A + (p * i + k)) * mem (B + (n * k + j)) := by
          apply Finset.sum_congr rfl
          intro k hk
          have hk2 : k < p := Finset.mem_range.mp hk
          rw [Function.update_noteq (hAk k hk2), Function.update_noteq (hBk k hk2),
            hM _ (hAout k hk2), hM _ (hBout k hk2)]
        rw [if_neg hp, Function.update_idem, Function.update_same, zero_add, e]
    · intro a ha
      have : a ≠ C + (n * i + j) := by
        intro h
        apply ha
        omega
      rw [Function.update_noteq this]
      exact hM a ha
  have hrow : ∀ i, i < m →
      ∀ M : Nat → K, (∀ a, ¬ (C ≤ a ∧ a < C + n * m) → M a = mem a) →
      forUp (fun j M =>
        forUp (fun k M =>
            Function.update M (C + (n * i + j))
              (M (C + (n * i + j)) + M (A + (p * i + k)) * M (B + (n * k + j))))
          0 p (Function.update M (C + (n * i + j)) 0)) 0 n M
        = forUp (fun j M => Function.update M (C + (n * i + j))
            (∑ k in Finset.range p, mem (A + (p * i + k)) * mem (B + (n * k + j)))) 0 n M ∧
      (∀ a, ¬ (C ≤ a ∧ a < C + n * m) →
        forUp (fun j M => Function.update M (C + (n * i + j))
            (∑ k in Finset.range p, mem (A + (p * i + k)) * mem (B + (n * k + j)))) 0 n M a
          = mem a) := by
    intro i hi M hM
    exact forUp_congr_inv (fun M => ∀ a, ¬ (C ≤ a ∧ a < C + n * m) → M a = mem a) _ _ 0 n M hM
      (fun j t _ hj ht => hcell i j hi (by omega) t ht)
  have hall := forUp_congr_inv (fun M => ∀ a, ¬ (C ≤ a ∧ a < C + n * m) → M a = mem a)
    (fun i M =>
      forUp (fun j M =>
        forUp (fun k M =>
            Function.update M (C + (n * i + j))
              (M (C + (n * i + j)) + M (A + (p * i + k)) * M (B + (n * k + j))))
          0 p (Function.update M (C + (n * i + j)) 0)) 0 n M)
    (fun i M =>
      forUp (fun j M => Function.update M (C + (n * i + j))
            (∑ k in Finset.range p, mem (A + (p * i + k)) * mem (B + (n * k + j)))) 0 n M)
    0 m mem (fun _ _ => rfl) (fun i t _ hi ht => hrow i (by omega) t ht)
  simp only [MultiplyMem]
  rw [hall.1]
  exact forUp_cells_at
    (fun i j => ∑ k in Finset.range p, mem (A + (p * i + k)) * mem (B + (n * k + j))) C n m mem a

/-- C11, amended: in exact arithmetic, when the `m * n` entries of `C` overlap neither the
`m * p` entries of `A` nor the `p * n` entries of `B`, `Multiply` leaves in
`C[n*i+j]` the sum over `k < p` of `A[p*i+k] * B[n*k+j]` for `i < m`, `j < n`
(zero when `p = 0`), writes no entry of `C` at index `m * n` or beyond, and
leaves `A` and `B` as they were; on separate buffers this is the content
`Multiply` returns. -/
theorem Multiply_spec (mem : Nat → K) (A B C m p n : Nat)
    (hA : ∀ x y, x < m * p → y < m * n → A + x ≠ C + y)
    (hB : ∀ x y, x < p * n → y < m * n → B + x ≠ C + y) :
    (∀ i j, i < m → j < n →
      MultiplyMem mem A B C m p n (C + (n * i + j))
        = ∑ k in Finset.range p, mem (A + (p * i + k)) * mem (B + (n * k + j))) ∧
    (∀ y, m * n ≤ y → MultiplyMem mem A B C m p n (C + y) = mem (C + y)) ∧
    (∀ x, x < m * p → MultiplyMem mem A B C m p n (A + x) = mem (A + x)) ∧
    (∀ x, x < p * n → MultiplyMem mem A B C m p n (B + x) = mem (B + x)) ∧
    (∀ (D : Nat → K) (i j : Nat), i < m → j < n →
      Multiply (fun x => mem (A + x)) (fun x => mem (B + x)) m p n D (n * i + j)
        = MultiplyMem mem A B C m p n (C + (n * i + j))) := by
  have hcell : ∀ i j, i < m → j < n →
      MultiplyMem mem A B C m p n (C + (n * i + j))
        = ∑ k in Finset.range p, mem (A + (p * i + k)) * mem (B + (n * k + j)) := by
    intro i j hi hj
    have hlt := cell_lt hi hj
    rw [MultiplyMem_apply mem A B C m p n hA hB, if_pos ⟨by omega, by omega⟩,
      Nat.add_sub_cancel_left, cell_div hj, cell_mod hj]
  refine ⟨hcell, ?_, ?_, ?_, ?_⟩
  · intro y hy
    have : ¬ (C ≤ C + y ∧ C + y < C + n * m) := by
      rw [Nat.mul_comm n m]; omega
    rw [MultiplyMem_apply mem A B C m p n hA hB, if_neg this]
  · intro x hx
    have : ¬ (C ≤ A + x ∧ A + x < C + n * m) := by
      intro hin
      exact hA x (A + x - C) hx (by rw [Nat.mul_comm m n]; omega) (by omega)
    rw [MultiplyMem_apply mem A B C m p n hA hB, if_neg this]
  · intro x hx
    have : ¬ (C ≤ B + x ∧ B + x < C + n * m) := by
      intro hin
      exact hB x (B + x - C) hx (by rw [Nat.mul_comm m n]; omega) (by omega)
    rw [MultiplyMem_apply mem A B C m p n hA hB, if_neg this]
  · intro D i j hi hj
    rw [hcell i j hi hj, Multiply_entry _ _ _ _ _ _ _ _ hi hj]

/-- The product of two rational 2 × 2 matrices held at addresses 0 and 4,
written at address 8. -/
theorem Multiply_spec_witness :
    ((∀ x y, x < 2 * 2 → y < 2 * 2 → 0 + x ≠ 8 + y) ∧
      (∀ x y, x < 2 * 2 → y < 2 * 2 → 4 + x ≠ 8 + y)) ∧
    ((∀ i j, i < 2 → j < 2 →
        MultiplyMem (arr [(1 : ℚ), 2, 3, 4, 5, 6, 7, 8]) 0 4 8 2 2 2 (8 + (2 * i + j))
          = ∑ k in Finset.range 2,
              (arr [(1 : ℚ), 2, 3, 4, 5, 6, 7, 8]) (0 + (2 * i + k))
                * (arr [(1 : ℚ), 2, 3, 4, 5, 6, 7, 8]) (4 + (2 * k + j))) ∧
      (∀ y, 2 * 2 ≤ y →
        MultiplyMem (arr [(1 : ℚ), 2, 3, 4, 5, 6, 7, 8]) 0 4 8 2 2 2 (8 + y)
          = (arr [(1 : ℚ), 2, 3, 4, 5, 6, 7, 8]) (8 + y)) ∧
      (∀ x, x < 2 * 2 →
        MultiplyMem (arr [(1 : ℚ), 2, 3, 4, 5, 6, 7, 8]) 0 4 8 2 2 2 (0 + x)
          = (arr [(1 : ℚ), 2, 3, 4, 5, 6, 7, 8]) (0 + x)) ∧
      (∀ x, x < 2 * 2 →
        MultiplyMem (arr [(1 : ℚ), 2, 3, 4, 5, 6, 7, 8]) 0 4 8 2 2 2 (4 + x)
          = (arr [(1 : ℚ), 2, 3, 4, 5, 6, 7, 8]) (4 + x)) ∧
      (∀ (D : Nat → ℚ) (i j : Nat), i < 2 → j < 2 →
        Multiply (fun x => (arr [(1 : ℚ), 2, 3, 4, 5, 6, 7, 8]) (0 + x))
            (fun x => (arr [(1 : ℚ), 2, 3, 4, 5, 6, 7, 8]) (4 + x)) 2 2 2 D (2 * i + j)
          = MultiplyMem (arr [(1 : ℚ), 2, 3, 4, 5, 6, 7, 8]) 0 4 8 2 2 2 (8 + (2 * i + j)))) :=
  ⟨⟨by intro x y hx hy; omega, by intro x y hx hy; omega⟩,
   Multiply_spec (arr [(1 : ℚ), 2, 3, 4, 5, 6, 7, 8]) 0 4 8 2 2 2
     (by intro x y hx hy; omega) (by intro x y hx hy; omega)⟩

/-! ## Composite rotations -/

open DhMathUtils

theorem toMatrix_arr9 (a0 a1 a2 b0 b1 b2 c0 c1 c2 : K) :
    toMatrix 3 (arr [a0, a1, a2, b0, b1, b2, c0, c1, c2])
      = !![a0, a1, a2; b0, b1, b2; c0, c1, c2] := by
  ext i j
  fin_cases i <;> fin_cases j <;> rfl

/-- The nine entries of a 3 × 3 buffer, read off its matrix. -/
theorem entries_of_toMatrix3 (A : Nat → K) (a0 a1 a2 b0 b1 b2 c0 c1 c2 : K)
    (h : toMatrix 3 A = !![a0, a1, a2; b0, b1, b2; c0, c1, c2]) :
    A 0 = a0 ∧ A 1 = a1 ∧ A 2 = a2 ∧ A 3 = b0 ∧ A 4 = b1 ∧ A 5 = b2 ∧
    A 6 = c0 ∧ A 7 = c1 ∧ A 8 = c2 := by
  have e := (toMatrix_ext_iff 3 _ _).mp (h.trans (toMatrix_arr9 _ _ _ _ _ _ _ _ _).symm)
  refine ⟨e 0 0 (by decide) (by decide), e 0 1 (by decide) (by decide),
    e 0 2 (by decide) (by decide), e 1 0 (by decide) (by decide),
    e 1 1 (by decide) (by decide), e 1 2 (by decide) (by decide),
    e 2 0 (by decide) (by decide), e 2 1 (by decide) (by decide),
    e 2 2 (by decide) (by decide)⟩

theorem rotx_roty_rotz_product (sin cos : K → K) (Wx Wy Wz W1 W2 : Nat → K) (tx ty tz : K) :
    toMatrix 3
        (Multiply (Multiply (rotx sin cos Wx tx) (roty sin cos Wy ty) 3 3 3 W1)
          (rotz sin cos Wz tz) 3 3 3 W2)
      = !![cos ty * cos tz, -cos ty * sin tz, sin ty;
           (cos tx * sin tz) + (cos tz * sin tx * sin ty),
             (cos tx * cos tz) - (sin tx * sin ty * sin tz), -cos ty * sin tx;
           (sin tx * sin tz) - (cos tx * cos tz * sin ty),
             (cos tz * sin tx) + (cos tx * sin ty * sin tz), cos tx * cos ty] := by
  simp only [toMatrix_Multiply, rotx, roty, rotz, toMatrix_Copy, toMatrix_arr9]
  ext i j
  fin_cases i <;> fin_cases j <;> simp [Matrix.mul_apply, Fin.sum_univ_three] <;> ring

/-- C12 (closed form of `rotxyz`): the matrix `rotxyz(tx, ty, tz)` writes is
`Multiply(Multiply(rotx(tx), roty(ty)), rotz(tz))`, and `trotxyz(tx, ty, tz)`
is that product in the rotation block with a zero position column and bottom
row `(0, 0, 0, 1)`; this holds for any `sin` and `cos`, the real ones included. -/
theorem rotxyz_is_X_then_Y_then_Z (sin cos : K → K) (W Wx Wy Wz W1 W2 W4 : Nat → K)
    (tx ty tz : K) :
    toMatrix 3 (rotxyz sin cos W tx ty tz)
      = toMatrix 3
          (Multiply (Multiply (rotx sin cos Wx tx) (roty sin cos Wy ty) 3 3 3 W1)
            (rotz sin cos Wz tz) 3 3 3 W2) ∧
    toMatrix 4 (trotxyz sin cos W4 tx ty tz)
      = homogeneous
          (Multiply (Multiply (rotx sin cos Wx tx) (roty sin cos Wy ty) 3 3 3 W1)
            (rotz sin cos Wz tz) 3 3 3 W2) := by
  have hP := rotx_roty_rotz_product sin cos Wx Wy Wz W1 W2 tx ty tz
  obtain ⟨e0, e1, e2, e3, e4, e5, e6, e7, e8⟩ := entries_of_toMatrix3 _ _ _ _ _ _ _ _ _ _ hP
  constructor
  · rw [hP]
    simp only [rotxyz, toMatrix_Copy, toMatrix_arr9]
  · simp only [homogeneous]
    rw [e0, e1, e2, e3, e4, e5, e6, e7, e8]
    simp only [trotxyz, toMatrix_Copy, toMatrix_arr16]

theorem rotz_roty_rotx_product (sin cos : K → K) (Wx Wy Wz W1 W2 : Nat → K) (tz ty tx : K) :
    toMatrix 3
        (Multiply (Multiply (rotz sin cos Wz tz) (roty sin cos Wy ty) 3 3 3 W1)
          (rotx sin cos Wx tx) 3 3 3 W2)
      = !![cos tz * cos ty, (cos tz * sin ty * sin tx) - (cos tx * sin tz),
             (sin tz * sin tx) + (cos tz * cos tx * sin ty);
           cos ty * sin tz, (cos tz * cos tx) + (sin tz * sin ty * sin tx),
             (cos tx * sin tz * sin ty) - (cos tz * sin tx);
           -sin ty, cos ty * sin tx, cos ty * cos tx] := by
  simp only [toMatrix_Multiply, rotx, roty, rotz, toMatrix_Copy, toMatrix_arr9]
  rw [Matrix.mul_fin_three, Matrix.mul_fin_three]
  congr 1
  simp only [mul_zero, mul_one, zero_mul, add_zero, zero_add, one_mul, mul_neg, neg_mul, neg_zero]
  ext i j
  fin_cases i <;> fin_cases j <;> simp <;> ring

/-- C13 (closed form of `rotzyx`): the matrix `rotzyx(tz, ty, tx)` writes is
`Multiply(Multiply(rotz(tz), roty(ty)), rotx(tx))`, and `trotzyx(tz, ty, tx)`
is that product in the rotation block with a zero position column and bottom
row `(0, 0, 0, 1)`; this holds for any `sin` and `cos`, the real ones included. -/
theorem rotzyx_is_Z_then_Y_then_X (sin cos : K → K) (W Wx Wy Wz W1 W2 W4 : Nat → K)
    (tz ty tx : K) :
    toMatrix 3 (rotzyx sin cos W tz ty tx)
      = toMatrix 3
          (Multiply (Multiply (rotz sin cos Wz tz) (roty sin cos Wy ty) 3 3 3 W1)
            (rotx sin cos Wx tx) 3 3 3 W2) ∧
    toMatrix 4 (trotzyx sin cos W4 tz ty tx)
      = homogeneous
          (Multiply (Multiply (rotz sin cos Wz tz) (roty sin cos Wy ty) 3 3 3 W1)
            (rotx sin cos Wx tx) 3 3 3 W2) := by
  have hP := rotz_roty_rotx_product sin cos Wx Wy Wz W1 W2 tz ty tx
  obtain ⟨e0, e1, e2, e3, e4, e5, e6, e7, e8⟩ := entries_of_toMatrix3 _ _ _ _ _ _ _ _ _ _ hP
  constructor
  · rw [hP]
    simp only [rotzyx, toMatrix_Copy, toMatrix_arr9]
  · simp only [homogeneous]
    rw [e0, e1, e2, e3, e4, e5, e6, e7, e8]
    simp only [trotzyx, toMatrix_Copy, toMatrix_arr16]

/-- C14 (single-axis degeneration): over the reals, `trotxyz(t, 0, 0)` writes
the same buffer as `trotx(t)`. -/
theorem trotxyz_single_axis (W : Nat → ℝ) (t : ℝ) :
    trotxyz Real.sin Real.cos W t 0 0 = trotx Real.sin Real.cos W t := by
  simp [trotxyz, trotx]

/-- C15 (rotation order matters): over the reals, for `a = π/2`, `b = 0`,
`c = π/2`, entry `[0][1]` of `trotxyz(a, b, c)` is `-1` and that of
`trotzyx(c, b, a)` is `0`, so the two matrices differ. -/
theorem trotxyz_ne_trotzyx (W : Nat → ℝ) :
    trotxyz Real.sin Real.cos W (Real.pi / 2) 0 (Real.pi / 2) 1 = -1 ∧
    trotzyx Real.sin Real.cos W (Real.pi / 2) 0 (Real.pi / 2) 1 = 0 ∧
    (∃ a b c : ℝ,
      toMatrix 4 (trotxyz Real.sin Real.cos W a b c)
        ≠ toMatrix 4 (trotzyx Real.sin Real.cos W c b a)) := by
  have h1 : trotxyz Real.sin Real.cos W (Real.pi / 2) 0 (Real.pi / 2) 1 = -1 := by
    simp [trotxyz, Copy_apply, arr]
  have h2 : trotzyx Real.sin Real.cos W (Real.pi / 2) 0 (Real.pi / 2) 1 = 0 := by
    simp [trotzyx, Copy_apply, arr]
  refine ⟨h1, h2, Real.pi / 2, 0, Real.pi / 2, ?_⟩
  intro h
  have := (toMatrix_ext_iff 4 _ _).mp h 0 1 (by decide) (by decide)
  simp only [Nat.mul_zero, Nat.zero_add] at this
  rw [h1, h2] at this
  norm_num at this

/-! ## The remapped arctangent

Over the reals `atan2(num, denom)` is the argument of `denom + i * num`, in
`(-π, π]`. The constant `pi` is taken as π, except in the third quadrant,
where the distance of the constant of the header from π decides on which side
of π the result falls. -/

theorem atan3_of_neg (num denom : ℝ) (h : num < 0) :
    atan3 (fun n d : ℝ => Complex.arg ⟨d, n⟩) Real.pi num denom
      = 2 * Real.pi + Complex.arg ⟨denom, num⟩ := by
  have : Complex.arg ⟨denom, num⟩ < 0 := Complex.arg_neg_iff.mpr h
  simp [atan3, this]

theorem atan3_of_nonneg (num denom : ℝ) (h : 0 ≤ num) :
    atan3 (fun n d : ℝ => Complex.arg ⟨d, n⟩) Real.pi num denom
      = Complex.arg ⟨denom, num⟩ := by
  have : ¬ Complex.arg ⟨denom, num⟩ < 0 := not_lt.mpr (Complex.arg_nonneg_iff.mpr h)
  simp [atan3, this]

/-- C16, as stated, fails: at `(num, denom) = (-1, 1)`, where `denom > 0`,
`atan2` is negative and `atan3` is `atan2` plus 2π. -/
theorem atan3_ne_atan2_fourth_quadrant :
    (0 : ℝ) < 1 ∧
    atan3 (fun n d : ℝ => Complex.arg ⟨d, n⟩) Real.pi (-1) 1
      ≠ (fun n d : ℝ => Complex.arg ⟨d, n⟩) (-1) 1 := by
  refine ⟨one_pos, ?_⟩
  rw [atan3_of_neg (-1) 1 (by norm_num)]
  have := Real.pi_pos
  intro h
  simp only at h
  linarith

/-- C16, amended: for `denom > 0`, `atan3(num, denom)` equals
`atan2(num, denom)` when `num ≥ 0`, and `atan2(num, denom)` plus 2π when
`num < 0`. -/
theorem atan3_right_half_plane (num denom : ℝ) (_hd : 0 < denom) :
    (0 ≤ num →
      atan3 (fun n d : ℝ => Complex.arg ⟨d, n⟩) Real.pi num denom
        = (fun n d : ℝ => Complex.arg ⟨d, n⟩) num denom) ∧
    (num < 0 →
      atan3 (fun n d : ℝ => Complex.arg ⟨d, n⟩) Real.pi num denom
        = (fun n d : ℝ => Complex.arg ⟨d, n⟩) num denom + 2 * Real.pi) := by
  constructor
  · intro h
    exact atan3_of_nonneg num denom h
  · intro h
    rw [atan3_of_neg num denom h]
    ring

/-- The amended C16 at `(1, 1)` and at `(-1, 1)`. -/
theorem atan3_right_half_plane_witness :
    ((0 : ℝ) < 1 ∧ (0 : ℝ) ≤ 1 ∧
      atan3 (fun n d : ℝ => Complex.arg ⟨d, n⟩) Real.pi 1 1
        = (fun n d : ℝ => Complex.arg ⟨d, n⟩) 1 1) ∧
    ((0 : ℝ) < 1 ∧ (-1 : ℝ) < 0 ∧
      atan3 (fun n d : ℝ => Complex.arg ⟨d, n⟩) Real.pi (-1) 1
        = (fun n d : ℝ => Complex.arg ⟨d, n⟩) (-1) 1 + 2 * Real.pi) :=
  ⟨⟨one_pos, zero_le_one, (atan3_right_half_plane 1 1 one_pos).1 zero_le_one⟩,
   ⟨one_pos, by norm_num, (atan3_right_half_plane (-1) 1 one_pos).2 (by norm_num)⟩⟩

/-- C18 (range of `atan3`): for every pair, `0 ≤ atan3(num, denom) < 2π`, and
`atan3` is `atan2` plus 2π when `atan2` is negative and `atan2` itself
otherwise. -/
theorem atan3_range (num denom : ℝ) :
    0 ≤ atan3 (fun n d : ℝ => Complex.arg ⟨d, n⟩) Real.pi num denom ∧
    atan3 (fun n d : ℝ => Complex.arg ⟨d, n⟩) Real.pi num denom < 2 * Real.pi ∧
    atan3 (fun n d : ℝ => Complex.arg ⟨d, n⟩) Real.pi num denom
      = (if (fun n d : ℝ => Complex.arg ⟨d, n⟩) num denom < 0
          then (fun n d : ℝ => Complex.arg ⟨d, n⟩) num denom + 2 * Real.pi
          else (fun n d : ℝ => Complex.arg ⟨d, n⟩) num denom) := by
  have h1 := Complex.neg_pi_lt_arg ⟨denom, num⟩
  have h2 := Complex.arg_le_pi ⟨denom, num⟩
  have hpi := Real.pi_pos
  by_cases h : Complex.arg ⟨denom, num⟩ < 0
  · have e : atan3 (fun n d : ℝ => Complex.arg ⟨d, n⟩) Real.pi num denom
        = 2 * Real.pi + Complex.arg ⟨denom, num⟩ := by
      simp [atan3, h]
    rw [e]
    refine ⟨by linarith, by linarith, ?_⟩
    simp only [h, if_true]
    ring
  · have e : atan3 (fun n d : ℝ => Complex.arg ⟨d, n⟩) Real.pi num denom
        = Complex.arg ⟨denom, num⟩ := by
      simp [atan3, h]
    rw [e]
    refine ⟨by linarith, by linarith, ?_⟩
    simp only [h, if_false]

/-! ## Writing the cached transform directly -/

/-- C19 (position setter): `set_TmCurrentPosition(px, py, pz)` stores `px`,
`py`, `pz` in the position column, leaves every entry of columns 0 to 2 and
`qCurrent`, `TmTool`, `TmToolInv`, `zOffset` as they were, and a following
`get_TmCurrentPosition` returns `(px, py, pz)`. The only other store is
`TmCurrent[3][3] = 1`. -/
theorem set_TmCurrentPosition_frame (c : DhKinematicChain K) (px py pz : K) (out : Nat → K) :
    (c.set_TmCurrentPosition px py pz).TmCurrent (4 * i1 + i4) = px ∧
    (c.set_TmCurrentPosition px py pz).TmCurrent (4 * i2 + i4) = py ∧
    (c.set_TmCurrentPosition px py pz).TmCurrent (4 * i3 + i4) = pz ∧
    (c.set_TmCurrentPosition px py pz).TmCurrent (4 * i4 + i4) = 1 ∧
    (∀ i j, j < 3 →
      (c.set_TmCurrentPosition px py pz).TmCurrent (4 * i + j) = c.TmCurrent (4 * i + j)) ∧
    (c.set_TmCurrentPosition px py pz).qCurrent = c.qCurrent ∧
    (c.set_TmCurrentPosition px py pz).TmTool = c.TmTool ∧
    (c.set_TmCurrentPosition px py pz).TmToolInv = c.TmToolInv ∧
    (c.set_TmCurrentPosition px py pz).zOffset = c.zOffset ∧
    (c.set_TmCurrentPosition px py pz).links = c.links ∧
    (c.set_TmCurrentPosition px py pz).noOfLinks = c.noOfLinks ∧
    get_TmCurrentPosition (c.set_TmCurrentPosition px py pz) out 0 = px ∧
    get_TmCurrentPosition (c.set_TmCurrentPosition px py pz) out 1 = py ∧
    get_TmCurrentPosition (c.set_TmCurrentPosition px py pz) out 2 = pz := by
  refine ⟨?_, ?_, ?_, ?_, ?_, rfl, rfl, rfl, rfl, rfl, rfl, ?_, ?_, ?_⟩
  · simp [set_TmCurrentPosition, Function.update_apply]
  · simp [set_TmCurrentPosition, Function.update_apply]
  · simp [set_TmCurrentPosition, Function.update_apply]
  · simp [set_TmCurrentPosition, Function.update_apply]
  · intro i j hj
    simp only [set_TmCurrentPosition, i1, i2, i3, i4]
    rw [Function.update_noteq (by omega), Function.update_noteq (by omega),
      Function.update_noteq (by omega), Function.update_noteq (by omega)]
  · simp [get_TmCurrentPosition, set_TmCurrentPosition, Function.update_apply]
  · simp [get_TmCurrentPosition, set_TmCurrentPosition, Function.update_apply]
  · simp [get_TmCurrentPosition, set_TmCurrentPosition, Function.update_apply]

theorem toMatrix_of_entries16 (T : Nat → K)
    (a0 a1 a2 a3 b0 b1 b2 b3 c0 c1 c2 c3 d0 d1 d2 d3 : K)
    (h : ∀ x, x < 16 →
      T x = arr [a0, a1, a2, a3, b0, b1, b2, b3, c0, c1, c2, c3, d0, d1, d2, d3] x) :
    toMatrix 4 T = !![a0, a1, a2, a3; b0, b1, b2, b3; c0, c1, c2, c3; d0, d1, d2, d3] := by
  rw [← toMatrix_arr16]
  exact (agree16_iff _ _).mp h

/-- Restoring a saved fourth column over a rotation-only transform. -/
theorem toMatrix_restore_column (T0 : Nat → K) (a0 a1 a2 b0 b1 b2 c0 c1 c2 p0 p1 p2 p3 : K)
    (h : toMatrix 4 T0 = !![a0, a1, a2, 0; b0, b1, b2, 0; c0, c1, c2, 0; 0, 0, 0, 1]) :
    toMatrix 4
        (Function.update (Function.update (Function.update (Function.update T0 3 p0) 7 p1) 11 p2)
          15 p3)
      = !![a0, a1, a2, p0; b0, b1, b2, p1; c0, c1, c2, p2; 0, 0, 0, p3] := by
  have e := (agree16_iff _ _).mpr (h.trans (toMatrix_arr16 _ _ _ _ _ _ _ _ _ _ _ _ _ _ _ _).symm)
  apply toMatrix_of_entries16
  intro x hx
  have ex := e x hx
  interval_cases x <;> simp [Function.update_apply, ex, arr]

/-- C20 (orientation setter): with `order = 1` the rotation block of
`TmCurrent` becomes `rotxyz(thetaX, thetaY, thetaZ)`, with `order = 2` it
becomes `rotzyx(thetaZ, thetaY, thetaX)`; in both cases the fourth column is
what it was before the call and the first three entries of the bottom row are 0. -/
theorem set_TmCurrentOrientation_spec (sin cos : K → K) (c : DhKinematicChain K)
    (thetaX thetaY thetaZ : K) (W : Nat → K) :
    toMatrix 4 (c.set_TmCurrentOrientation sin cos thetaX thetaY thetaZ 1).TmCurrent
      = !![rotxyz sin cos W thetaX thetaY thetaZ 0, rotxyz sin cos W thetaX thetaY thetaZ 1,
             rotxyz sin cos W thetaX thetaY thetaZ 2, c.TmCurrent (4 * i1 + i4);
           rotxyz sin cos W thetaX thetaY thetaZ 3, rotxyz sin cos W thetaX thetaY thetaZ 4,
             rotxyz sin cos W thetaX thetaY thetaZ 5, c.TmCurrent (4 * i2 + i4);
           rotxyz sin cos W thetaX thetaY thetaZ 6, rotxyz sin cos W thetaX thetaY thetaZ 7,
             rotxyz sin cos W thetaX thetaY thetaZ 8, c.TmCurrent (4 * i3 + i4);
           0, 0, 0, c.TmCurrent (4 * i4 + i4)] ∧
    toMatrix 4 (c.set_TmCurrentOrientation sin cos thetaX thetaY thetaZ 2).TmCurrent
      = !![rotzyx sin cos W thetaZ thetaY thetaX 0, rotzyx sin cos W thetaZ thetaY thetaX 1,
             rotzyx sin cos W thetaZ thetaY thetaX 2, c.TmCurrent (4 * i1 + i4);
           rotzyx sin cos W thetaZ thetaY thetaX 3, rotzyx sin cos W thetaZ thetaY thetaX 4,
             rotzyx sin cos W thetaZ thetaY thetaX 5, c.TmCurrent (4 * i2 + i4);
           rotzyx sin cos W thetaZ thetaY thetaX 6, rotzyx sin cos W thetaZ thetaY thetaX 7,
             rotzyx sin cos W thetaZ thetaY thetaX 8, c.TmCurrent (4 * i3 + i4);
           0, 0, 0, c.TmCurrent (4 * i4 + i4)] := by
  constructor
  · have hR : toMatrix 3 (rotxyz sin cos W thetaX thetaY thetaZ)
        = !![cos thetaY * cos thetaZ, -cos thetaY * sin thetaZ, sin thetaY;
             (cos thetaX * sin thetaZ) + (cos thetaZ * sin thetaX * sin thetaY),
               (cos thetaX * cos thetaZ) - (sin thetaX * sin thetaY * sin thetaZ),
               -cos thetaY * sin thetaX;
             (sin thetaX * sin thetaZ) - (cos thetaX * cos thetaZ * sin thetaY),
               (cos thetaZ * sin thetaX) + (cos thetaX * sin thetaY * sin thetaZ),
               cos thetaX * cos thetaY] := by
      simp only [rotxyz, toMatrix_Copy, toMatrix_arr9]
    obtain ⟨e0, e1, e2, e3, e4, e5, e6, e7, e8⟩ := entries_of_toMatrix3 _ _ _ _ _ _ _ _ _ _ hR
    rw [e0, e1, e2, e3, e4, e5, e6, e7, e8]
    exact toMatrix_restore_column (trotxyz sin cos c.TmCurrent thetaX thetaY thetaZ) _ _ _ _ _ _
      _ _ _ _ _ _ _ (by simp only [trotxyz, toMatrix_Copy, toMatrix_arr16])
  · have hR : toMatrix 3 (rotzyx sin cos W thetaZ thetaY thetaX)
        = !![cos thetaZ * cos thetaY,
               (cos thetaZ * sin thetaY * sin thetaX) - (cos thetaX * sin thetaZ),
               (sin thetaZ * sin thetaX) + (cos thetaZ * cos thetaX * sin thetaY);
             cos thetaY * sin thetaZ,
               (cos thetaZ * cos thetaX) + (sin thetaZ * sin thetaY * sin thetaX),
               (cos thetaX * sin thetaZ * sin thetaY) - (cos thetaZ * sin thetaX);
             -sin thetaY, cos thetaY * sin thetaX, cos thetaY * cos thetaX] := by
      simp only [rotzyx, toMatrix_Copy, toMatrix_arr9]
    obtain ⟨e0, e1, e2, e3, e4, e5, e6, e7, e8⟩ := entries_of_toMatrix3 _ _ _ _ _ _ _ _ _ _ hR
    rw [e0, e1, e2, e3, e4, e5, e6, e7, e8]
    exact toMatrix_restore_column (trotzyx sin cos c.TmCurrent thetaZ thetaY thetaX) _ _ _ _ _ _
      _ _ _ _ _ _ _ (by simp only [trotzyx, toMatrix_Copy, toMatrix_arr16])

/-! ## Composing the cached transform -/

/-- Closed form of `CopyMem` when the region written overlaps none of the
cells read. -/
theorem CopyMem_apply (mem : Nat → K) (A B n m : Nat)
    (h : ∀ x y, x < n * m → y < n * m → A + x ≠ B + y) (a : Nat) :
    CopyMem mem A n m B a
      = if B ≤ a ∧ a < B + n * m then mem (A + (a - B)) else mem a := by
  have hrow : ∀ i, i < m →
      ∀ M : Nat → K, (∀ a, ¬ (B ≤ a ∧ a < B + n * m) → M a = mem a) →
      forUp (fun j M => Function.update M (B + (n * i + j)) (M (A + (n * i + j)))) 0 n M
        = forUp (fun j M => Function.update M (B + (n * i + j)) (mem (A + (n * i + j)))) 0 n M ∧
      (∀ a, ¬ (B ≤ a ∧ a < B + n * m) →
        forUp (fun j M => Function.update M (B + (n * i + j)) (mem (A + (n * i + j)))) 0 n M a
          = mem a) := by
    intro i hi M hM
    refine forUp_congr_inv (fun M => ∀ a, ¬ (B ≤ a ∧ a < B + n * m) → M a = mem a) _ _ 0 n M hM
      (fun j t _ hj ht => ?_)
    have hj2 : j < n := by omega
    have hlt : n * i + j < n * m := cell_lt hi hj2
    have hout : ¬ (B ≤ A + (n * i + j) ∧ A + (n * i + j) < B + n * m) := by
      intro hin
      exact h (n * i + j) (A + (n * i + j) - B) hlt (by omega) (by omega)
    constructor
    · simp only [ht _ hout]
    · intro a ha
      have : a ≠ B + (n * i + j) := by
        intro e
        apply ha
        omega
      rw [Function.update_noteq this]
      exact ht a ha
  have hall := forUp_congr_inv (fun M => ∀ a, ¬ (B ≤ a ∧ a < B + n * m) → M a = mem a)
    (fun i M =>
      forUp (fun j M => Function.update M (B + (n * i + j)) (M (A + (n * i + j)))) 0 n M)
    (fun i M =>
      forUp (fun j M => Function.update M (B + (n * i + j)) (mem (A + (n * i + j)))) 0 n M)
    0 m mem (fun _ _ => rfl) (fun i t _ hi ht => hrow i (by omega) t ht)
  simp only [CopyMem]
  rw [hall.1, forUp_cells_at (fun i j => mem (A + (n * i + j))) B n m mem a]
  by_cases hin : B ≤ a ∧ a < B + n * m
  · rw [if_pos hin, if_pos hin, Nat.div_add_mod]
  · rw [if_neg hin, if_neg hin]

/-- Closed form of `multiply_TmCurrentByTmMem` when the local `TmTemp`
overlaps neither matrix and the matrix passed does not overlap the member. -/
theorem multiply_TmCurrentByTmMem_apply (mem : Nat → K) (TmCurrent TmInput TmTemp : Nat)
    (h1 : ∀ x y, x < 16 → y < 16 → TmCurrent + x ≠ TmTemp + y)
    (h2 : ∀ x y, x < 16 → y < 16 → TmInput + x ≠ TmTemp + y) (a : Nat) :
    multiply_TmCurrentByTmMem mem TmCurrent TmInput TmTemp a
      = if TmCurrent ≤ a ∧ a < TmCurrent + 16 then
          ∑ k in Finset.range 4,
            mem (TmCurrent + (4 * ((a - TmCurrent) / 4) + k))
              * mem (TmInput + (4 * k + (a - TmCurrent) % 4))
        else if TmTemp ≤ a ∧ a < TmTemp + 16 then
          ∑ k in Finset.range 4,
            mem (TmCurrent + (4 * ((a - TmTemp) / 4) + k))
              * mem (TmInput + (4 * k + (a - TmTemp) % 4))
        else mem a := by
  have hM := MultiplyMem_apply mem TmCurrent TmInput TmTemp 4 4 4 h1 h2
  have hC := CopyMem_apply (MultiplyMem mem TmCurrent TmInput TmTemp 4 4 4) TmTemp TmCurrent 4 4
    (fun x y hx hy e => h1 y x hy hx e.symm) a
  simp only [multiply_TmCurrentByTmMem]
  rw [hC]
  by_cases hin : TmCurrent ≤ a ∧ a < TmCurrent + 16
  · have hin2 : TmCurrent ≤ a ∧ a < TmCurrent + 4 * 4 := hin
    have hT : TmTemp ≤ TmTemp + (a - TmCurrent) ∧ TmTemp + (a - TmCurrent) < TmTemp + 4 * 4 := by
      omega
    rw [if_pos hin2, if_pos hin, hM, if_pos hT, Nat.add_sub_cancel_left]
  · have hin2 : ¬ (TmCurrent ≤ a ∧ a < TmCurrent + 4 * 4) := hin
    rw [if_neg hin2, if_neg hin, hM]

/-- C21, amended: in exact arithmetic the 16 entries of `TmCurrent` after
`multiply_TmCurrentByTm(Tm)` are those of `Multiply(old TmCurrent, Tm, 4, 4, 4)`,
old on the left; nothing else of the object changes, and with the identity
for `Tm` the whole of `TmCurrent` is as before. On one memory, with the
matrix passed apart from the member `TmCurrent` and the local `TmTemp` apart
from both, the 16 cells of `Tm` are as before the call, the cells of
`TmCurrent` hold the sums over `k < 4` of `TmCurrent[i][k] * Tm[k][j]`, and no
cell outside `TmCurrent` and `TmTemp` is written. -/
theorem multiply_TmCurrentByTm_spec (c : DhKinematicChain K) (Tm W mem : Nat → K)
    (TmCurrent TmInput TmTemp : Nat)
    (h1 : ∀ x y, x < 16 → y < 16 → TmCurrent + x ≠ TmTemp + y)
    (h2 : ∀ x y, x < 16 → y < 16 → TmInput + x ≠ TmTemp + y)
    (h3 : ∀ x y, x < 16 → y < 16 → TmInput + x ≠ TmCurrent + y) :
    (∀ x, x < 16 →
      (c.multiply_TmCurrentByTm Tm).TmCurrent x = Multiply c.TmCurrent Tm 4 4 4 W x) ∧
    toMatrix 4 (c.multiply_TmCurrentByTm Tm).TmCurrent
      = toMatrix 4 c.TmCurrent * toMatrix 4 Tm ∧
    c.multiply_TmCurrentByTm Tm
      = { c with TmCurrent := (c.multiply_TmCurrentByTm Tm).TmCurrent } ∧
    (c.multiply_TmCurrentByTm (arr [1, 0, 0, 0, 0, 1, 0, 0, 0, 0, 1, 0, 0, 0, 0, 1])).TmCurrent
      = c.TmCurrent ∧
    (∀ x, x < 16 →
      multiply_TmCurrentByTmMem mem TmCurrent TmInput TmTemp (TmInput + x)
        = mem (TmInput + x)) ∧
    (∀ i j, i < 4 → j < 4 →
      multiply_TmCurrentByTmMem mem TmCurrent TmInput TmTemp (TmCurrent + (4 * i + j))
        = ∑ k in Finset.range 4,
            mem (TmCurrent + (4 * i + k)) * mem (TmInput + (4 * k + j))) ∧
    (∀ i j, i < 4 → j < 4 →
      multiply_TmCurrentByTmMem mem TmCurrent TmInput TmTemp (TmCurrent + (4 * i + j))
        = Multiply (fun x => mem (TmCurrent + x)) (fun x => mem (TmInput + x)) 4 4 4 W
            (4 * i + j)) ∧
    (∀ a, (∀ x, x < 16 → a ≠ TmCurrent + x) → (∀ x, x < 16 → a ≠ TmTemp + x) →
      multiply_TmCurrentByTmMem mem TmCurrent TmInput TmTemp a = mem a) := by
  have hM : ∀ T : Nat → K, toMatrix 4 (c.multiply_TmCurrentByTm T).TmCurrent
      = toMatrix 4 c.TmCurrent * toMatrix 4 T := by
    intro T
    simp only [multiply_TmCurrentByTm, toMatrix_Copy, toMatrix_Multiply]
  have hcell : ∀ i j, i < 4 → j < 4 →
      multiply_TmCurrentByTmMem mem TmCurrent TmInput TmTemp (TmCurrent + (4 * i + j))
        = ∑ k in Finset.range 4,
            mem (TmCurrent + (4 * i + k)) * mem (TmInput + (4 * k + j)) := by
    intro i j hi hj
    have hlt : 4 * i + j < 4 * 4 := cell_lt hi hj
    rw [multiply_TmCurrentByTmMem_apply mem TmCurrent TmInput TmTemp h1 h2,
      if_pos ⟨by omega, by omega⟩, Nat.add_sub_cancel_left, cell_div hj, cell_mod hj]
  refine ⟨?_, hM Tm, rfl, ?_, ?_, hcell, ?_, ?_⟩
  · rw [agree16_iff, hM, toMatrix_Multiply]
  · funext x
    by_cases hx : x < 16
    · have e : toMatrix 4
          (c.multiply_TmCurrentByTm
            (arr [1, 0, 0, 0, 0, 1, 0, 0, 0, 0, 1, 0, 0, 0, 0, 1])).TmCurrent
          = toMatrix 4 c.TmCurrent := by
        rw [hM, toMatrix_identity, mul_one]
      exact (agree16_iff _ _).mpr e x hx
    · simp only [multiply_TmCurrentByTm]
      rw [Copy_apply, if_neg hx]
  · intro x hx
    have n1 : ¬ (TmCurrent ≤ TmInput + x ∧ TmInput + x < TmCurrent + 16) := by
      intro hin
      exact h3 x (TmInput + x - TmCurrent) hx (by omega) (by omega)
    have n2 : ¬ (TmTemp ≤ TmInput + x ∧ TmInput + x < TmTemp + 16) := by
      intro hin
      exact h2 x (TmInput + x - TmTemp) hx (by omega) (by omega)
    rw [multiply_TmCurrentByTmMem_apply mem TmCurrent TmInput TmTemp h1 h2, if_neg n1, if_neg n2]
  · intro i j hi hj
    rw [hcell i j hi hj, Multiply_entry _ _ _ _ _ _ _ _ hi hj]
  · intro a ha1 ha2
    have n1 : ¬ (TmCurrent ≤ a ∧ a < TmCurrent + 16) := by
      intro hin
      exact ha1 (a - TmCurrent) (by omega) (by omega)
    have n2 : ¬ (TmTemp ≤ a ∧ a < TmTemp + 16) := by
      intro hin
      exact ha2 (a - TmTemp) (by omega) (by omega)
    rw [multiply_TmCurrentByTmMem_apply mem TmCurrent TmInput TmTemp h1 h2, if_neg n1, if_neg n2]

/-- The amended C21 on the rational chain without links, and on a memory that
holds `TmCurrent` at address 0, the matrix passed at address 16 and `TmTemp`
at address 32. -/
theorem multiply_TmCurrentByTm_spec_witness :
    ((∀ x y, x < 16 → y < 16 → 0 + x ≠ 32 + y) ∧
      (∀ x y, x < 16 → y < 16 → 16 + x ≠ 32 + y) ∧
      (∀ x y, x < 16 → y < 16 → 16 + x ≠ 0 + y)) ∧
    ((∀ x, x < 16 →
        (emptyChain.multiply_TmCurrentByTm (fun x => poseMemory (16 + x))).TmCurrent x
          = Multiply emptyChain.TmCurrent (fun x => poseMemory (16 + x)) 4 4 4 uninit x) ∧
      toMatrix 4 (emptyChain.multiply_TmCurrentByTm (fun x => poseMemory (16 + x))).TmCurrent
        = toMatrix 4 emptyChain.TmCurrent * toMatrix 4 (fun x => poseMemory (16 + x)) ∧
      emptyChain.multiply_TmCurrentByTm (fun x => poseMemory (16 + x))
        = { emptyChain with
            TmCurrent :=
              (emptyChain.multiply_TmCurrentByTm (fun x => poseMemory (16 + x))).TmCurrent } ∧
      (emptyChain.multiply_TmCurrentByTm
          (arr [1, 0, 0, 0, 0, 1, 0, 0, 0, 0, 1, 0, 0, 0, 0, 1])).TmCurrent
        = emptyChain.TmCurrent ∧
      (∀ x, x < 16 →
        multiply_TmCurrentByTmMem poseMemory 0 16 32 (16 + x) = poseMemory (16 + x)) ∧
      (∀ i j, i < 4 → j < 4 →
        multiply_TmCurrentByTmMem poseMemory 0 16 32 (0 + (4 * i + j))
          = ∑ k in Finset.range 4,
              poseMemory (0 + (4 * i + k)) * poseMemory (16 + (4 * k + j))) ∧
      (∀ i j, i < 4 → j < 4 →
        multiply_TmCurrentByTmMem poseMemory 0 16 32 (0 + (4 * i + j))
          = Multiply (fun x => poseMemory (0 + x)) (fun x => poseMemory (16 + x)) 4 4 4 uninit
              (4 * i + j)) ∧
      (∀ a, (∀ x, x < 16 → a ≠ 0 + x) → (∀ x, x < 16 → a ≠ 32 + x) →
        multiply_TmCurrentByTmMem poseMemory 0 16 32 a = poseMemory a)) :=
  ⟨⟨by intro x y hx hy; omega, by intro x y hx hy; omega, by intro x y hx hy; omega⟩,
   multiply_TmCurrentByTm_spec emptyChain (fun x => poseMemory (16 + x)) uninit poseMemory
     0 16 32 (by intro x y hx hy; omega) (by intro x y hx hy; omega)
     (by intro x y hx hy; omega)⟩

/-! ## Forward kinematics leaves the chain alone -/

/-- C22 (`fKine` and the chain state): a call of `fKine` leaves `qCurrent`,
`TmCurrent`, `TmTool`, `TmToolInv`, `zOffset`, `noOfLinks` and `d`, `a`,
`alpha` of every link as they were (only the stored `theta` of the links
visited changes), and the matrix it writes for `q` is the same after any
earlier call with other joint values. -/
theorem fKine_frame (sin cos : K → K) (c : DhKinematicChain K) (W W1 W2 q q1 : Nat → K) :
    (c.fKine sin cos W q).1.qCurrent = c.qCurrent ∧
    (c.fKine sin cos W q).1.TmCurrent = c.TmCurrent ∧
    (c.fKine sin cos W q).1.TmTool = c.TmTool ∧
    (c.fKine sin cos W q).1.TmToolInv = c.TmToolInv ∧
    (c.fKine sin cos W q).1.zOffset = c.zOffset ∧
    (c.fKine sin cos W q).1.noOfLinks = c.noOfLinks ∧
    (∀ i, ((c.fKine sin cos W q).1.links i).d = (c.links i).d ∧
      ((c.fKine sin cos W q).1.links i).a = (c.links i).a ∧
      ((c.fKine sin cos W q).1.links i).alpha = (c.links i).alpha) ∧
    toMatrix 4 ((c.fKine sin cos W1 q1).1.fKine sin cos W2 q).2
      = toMatrix 4 (c.fKine sin cos W q).2 := by
  have hl : ∀ (V p : Nat → K) (i : Nat),
      ((c.fKine sin cos V p).1.links i).d = (c.links i).d ∧
      ((c.fKine sin cos V p).1.links i).a = (c.links i).a ∧
      ((c.fKine sin cos V p).1.links i).alpha = (c.links i).alpha := by
    intro V p i
    rw [fKine_chain]
    by_cases hi : i < c.noOfLinks
    · simp [hi]
    · simp [hi]
  refine ⟨rfl, rfl, rfl, rfl, rfl, rfl, hl W q, ?_⟩
  rw [fKine_matrix, fKine_matrix]
  exact foldl_dh_congr sin cos _ _ q (hl W1 q1) _ _

/-! ## Failure of the inversion -/

/-- C23 (no roll-back on failure): on the singular rational matrix
`[[1,2],[2,4]]` `Invert` returns 0 and leaves `[[1/2, 2], [-1/2, 0]]` in the
buffer, which differs from the input. -/
theorem Invert_not_atomic :
    (toMatrix 2 (arr [(1 : ℚ), 2, 2, 4])).det = 0 ∧
    (Invert (arr [(1 : ℚ), 2, 2, 4]) 2).1 = 0 ∧
    (Invert (arr [(1 : ℚ), 2, 2, 4]) 2).2 0 = 1 / 2 ∧
    (Invert (arr [(1 : ℚ), 2, 2, 4]) 2).2 1 = 2 ∧
    (Invert (arr [(1 : ℚ), 2, 2, 4]) 2).2 2 = -1 / 2 ∧
    (Invert (arr [(1 : ℚ), 2, 2, 4]) 2).2 3 = 0 ∧
    (Invert (arr [(1 : ℚ), 2, 2, 4]) 2).2 0 ≠ (arr [(1 : ℚ), 2, 2, 4]) 0 := by
  refine ⟨?_, ?_, ?_, ?_, ?_, ?_, ?_⟩
  · simp [toMatrix, Matrix.det_fin_two, arr]
    norm_num
  · norm_num [Invert, kLoop, findPivot, forUp, arr, Function.update, swapRows, reduceRow,
      eliminate]
  · norm_num [Invert, kLoop, findPivot, forUp, arr, Function.update, swapRows, reduceRow,
      eliminate]
  · norm_num [Invert, kLoop, findPivot, forUp, arr, Function.update, swapRows, reduceRow,
      eliminate]
  · norm_num [Invert, kLoop, findPivot, forUp, arr, Function.update, swapRows, reduceRow,
      eliminate]
  · norm_num [Invert, kLoop, findPivot, forUp, arr, Function.update, swapRows, reduceRow,
      eliminate]
  · norm_num [Invert, kLoop, findPivot, forUp, arr, Function.update, swapRows, reduceRow,
      eliminate]

/-- C24 (failure exactly on singular input): `Invert` returns 0 if and only if
the determinant of the input is zero, and 1 if and only if it is not; the
zero-pivot check never fires on an invertible matrix. -/
theorem Invert_fails_iff_singular (n : Nat) (A : Nat → K) :
    ((Invert A n).1 = 0 ↔ (toMatrix n A).det = 0) ∧
    ((Invert A n).1 = 1 ↔ (toMatrix n A).det ≠ 0) := by
  have h1 : (Invert A n).1 = 1 ↔ (toMatrix n A).det ≠ 0 := by
    constructor
    · intro h hdet
      have hBA := Invert_mul_self A n h
      have := congrArg Matrix.det hBA
      rw [Matrix.det_mul, hdet, mul_zero, Matrix.det_one] at this
      exact zero_ne_one this
    · intro h
      exact Invert_complete A n (kernel_trivial_of_det A n h)
  refine ⟨?_, h1⟩
  constructor
  · intro h0
    by_contra hdet
    have := h1.mpr hdet
    rw [h0] at this
    exact zero_ne_one this
  · intro hdet
    rcases Invert_code A n with h | h
    · exact h
    · exact absurd hdet (h1.mp h)

/-! ## Pivot selection -/

/-- One iteration of the outer loop of `Invert`, unfolded: the pivot row of
column `k` is searched in the buffer as it stands, starting from the pivot row
of the step before. -/
theorem kLoop_succ (n cnt k : Nat) (s : InvertState K) :
    kLoop n (cnt + 1) k s =
      if s.A ((findPivot s.A n k s.pivrow).2 * n + k) = 0 then
        (false, { s with pivrow := (findPivot s.A n k s.pivrow).2 })
      else
        kLoop n cnt (k + 1)
          { A := eliminate
              (reduceRow
                (if (findPivot s.A n k s.pivrow).2 ≠ k then
                  swapRows s.A n k (findPivot s.A n k s.pivrow).2
                else s.A) n k) n k
            pivrows := Function.update s.pivrows k (findPivot s.A n k s.pivrow).2
            pivrow := (findPivot s.A n k s.pivrow).2 } := rfl

/-- C25, amended: in exact arithmetic, at column `k < n` of a buffer `A`, whatever the
pivot row of the step before, the row the pivot search of `Invert` selects
lies in `k .. n-1`, holds an entry of column `k` of largest absolute value
among those rows, and every later row holds a strictly smaller one: of
several maximal rows the last is taken. -/
theorem findPivot_maximal (A : Nat → K) (n k pivrow : Nat) (hk : k < n) :
    k ≤ (findPivot A n k pivrow).2 ∧ (findPivot A n k pivrow).2 < n ∧
    (∀ i, k ≤ i → i < n → |A (i * n + k)| ≤ |A ((findPivot A n k pivrow).2 * n + k)|) ∧
    (∀ i, (findPivot A n k pivrow).2 < i → i < n →
      |A (i * n + k)| < |A ((findPivot A n k pivrow).2 * n + k)|) := by
  have h := findPivot_inv A n k pivrow (n - k)
  simp only at h
  obtain ⟨_, h1, h2, h3⟩ := h
  obtain ⟨h2a, h2b, h2c⟩ := h2 (by omega)
  have e : (findPivot A n k pivrow) = forUp (fun i (s : K × Nat) =>
      if |A (i * n + k)| ≥ s.1 then (|A (i * n + k)|, i) else s) k (n - k) (0, pivrow) := rfl
  rw [e]
  refine ⟨h2a, by omega, ?_, ?_⟩
  · intro i hi1 hi2
    have := h1 i hi1 (by omega)
    rw [h2c] at this
    exact this
  · intro i hi1 hi2
    have := h3 i (by omega) hi1 (by omega)
    rw [h2c] at this
    exact this

/-- The pivot search on the first column of the rational matrix `[[1,2],[-1,4]]`,
where both rows hold an entry of absolute value 1. -/
theorem findPivot_maximal_witness :
    0 < 2 ∧
    (0 ≤ (findPivot (arr [(1 : ℚ), 2, -1, 4]) 2 0 0).2 ∧
      (findPivot (arr [(1 : ℚ), 2, -1, 4]) 2 0 0).2 < 2 ∧
      (∀ i, 0 ≤ i → i < 2 →
        |(arr [(1 : ℚ), 2, -1, 4]) (i * 2 + 0)|
          ≤ |(arr [(1 : ℚ), 2, -1, 4]) ((findPivot (arr [(1 : ℚ), 2, -1, 4]) 2 0 0).2 * 2 + 0)|) ∧
      (∀ i, (findPivot (arr [(1 : ℚ), 2, -1, 4]) 2 0 0).2 < i → i < 2 →
        |(arr [(1 : ℚ), 2, -1, 4]) (i * 2 + 0)|
          < |(arr [(1 : ℚ), 2, -1, 4])
              ((findPivot (arr [(1 : ℚ), 2, -1, 4]) 2 0 0).2 * 2 + 0)|)) :=
  ⟨by decide, findPivot_maximal (arr [(1 : ℚ), 2, -1, 4]) 2 0 0 (by decide)⟩

/-! ## An unrecognised rotation order -/

/-- C29 (unrecognised order): with `order` other than 1 and 2,
`set_TmCurrentOrientation` returns the object exactly as it was, all of
`TmCurrent` included; the method is `void` and nothing is signalled. -/
theorem set_TmCurrentOrientation_other_order (sin cos : K → K) (c : DhKinematicChain K)
    (thetaX thetaY thetaZ : K) (order : Int) (h1 : order ≠ 1) (h2 : order ≠ 2) :
    c.set_TmCurrentOrientation sin cos thetaX thetaY thetaZ order = c := by
  simp only [set_TmCurrentOrientation, if_neg h1, if_neg h2]
  have e : Function.update
      (Function.update
        (Function.update (Function.update c.TmCurrent (4 * i1 + i4) (c.TmCurrent (4 * i1 + i4)))
          (4 * i2 + i4) (c.TmCurrent (4 * i2 + i4)))
        (4 * i3 + i4) (c.TmCurrent (4 * i3 + i4)))
      (4 * i4 + i4) (c.TmCurrent (4 * i4 + i4)) = c.TmCurrent := by
    rw [Function.update_eq_self, Function.update_eq_self, Function.update_eq_self,
      Function.update_eq_self]
  rw [e]

/-- The no-op at `order = 3` on a freshly constructed chain over the reals. -/
theorem set_TmCurrentOrientation_other_order_witness :
    ((3 : Int) ≠ 1 ∧ (3 : Int) ≠ 2) ∧
    (construct 0 (fun _ => DhKinematicLink.zero) uninit uninit).set_TmCurrentOrientation
        Real.sin Real.cos Real.pi 0 0 3
      = construct 0 (fun _ => DhKinematicLink.zero) uninit uninit :=
  ⟨⟨by decide, by decide⟩,
   set_TmCurrentOrientation_other_order Real.sin Real.cos _ Real.pi 0 0 3 (by decide)
     (by decide)⟩

/-! ## The tool transform is a translation -/

/-- One row of a left inverse of a translation. -/
theorem translation_inverse_row (T B : Nat → K) (h : IsTranslation T) (i : Nat)
    (hs : ∀ l, l < 4 →
      ∑ j in Finset.range 4, B (i * 4 + j) * T (j * 4 + l) = if i = l then 1 else 0) :
    B (i * 4 + 0) = (if i = 0 then 1 else 0) ∧
    B (i * 4 + 1) = (if i = 1 then 1 else 0) ∧
    B (i * 4 + 2) = (if i = 2 then 1 else 0) ∧
    B (i * 4 + 3) = (if i = 3 then 1 else 0)
      - ((if i = 0 then 1 else 0) * T 3 + (if i = 1 then 1 else 0) * T 7
          + (if i = 2 then 1 else 0) * T 11) := by
  obtain ⟨h0, h1, h2, h4, h5, h6, h8, h9, h10, h12, h13, h14, h15⟩ := h
  have e0 := hs 0 (by decide)
  have e1 := hs 1 (by decide)
  have e2 := hs 2 (by decide)
  have e3 := hs 3 (by decide)
  simp only [Finset.sum_range_succ, Finset.sum_range_zero, Nat.reduceMul, Nat.reduceAdd,
    Nat.zero_mul, Nat.one_mul, Nat.zero_add, Nat.add_zero,
    h0, h1, h2, h4, h5, h6, h8, h9, h10, h12, h13, h14, h15, mul_zero, mul_one, zero_add,
    add_zero] at e0 e1 e2 e3
  refine ⟨by simpa using e0, by simpa using e1, by simpa using e2, ?_⟩
  have f0 : B (i * 4 + 0) = (if i = 0 then 1 else 0) := by simpa using e0
  rw [Nat.add_zero] at f0
  rw [f0, e1, e2] at e3
  linear_combination e3

/-- On a copy of a translation `Invert` leaves the translation by the negated position. -/
theorem Invert_translation_matrix (c : DhKinematicChain K) (h : IsTranslation c.TmTool) :
    toMatrix 4 c.updateTmToolInverse.TmToolInv
      = !![1, 0, 0, -c.TmTool 3;
           0, 1, 0, -c.TmTool 7;
           0, 0, 1, -c.TmTool 11;
           0, 0, 0, 1] := by
  have h1 := Invert_translation c h
  have hs : ∀ i, i < 4 → ∀ l, l < 4 →
      ∑ j in Finset.range 4,
        (Invert (Copy c.TmTool 4 4 c.TmToolInv) 4).2 (i * 4 + j) * c.TmTool (j * 4 + l)
        = if i = l then 1 else 0 := by
    intro i hi l hl
    rw [← Invert_sound (Copy c.TmTool 4 4 c.TmToolInv) 4 h1 i l hi hl]
    apply Finset.sum_congr rfl
    intro j hj
    have hj2 : j < 4 := Finset.mem_range.mp hj
    rw [Copy_apply, if_pos (by omega)]
  have r0 := translation_inverse_row c.TmTool _ h 0 (hs 0 (by decide))
  have r1 := translation_inverse_row c.TmTool _ h 1 (hs 1 (by decide))
  have r2 := translation_inverse_row c.TmTool _ h 2 (hs 2 (by decide))
  have r3 := translation_inverse_row c.TmTool _ h 3 (hs 3 (by decide))
  simp only [Nat.reduceMul, Nat.reduceAdd, Nat.zero_mul, Nat.zero_add, Nat.add_zero,
    Nat.one_mul] at r0 r1 r2 r3
  apply toMatrix_of_entries16
  intro x hx
  simp only [updateTmToolInverse]
  interval_cases x
  · simpa [arr] using r0.1
  · simpa [arr] using r0.2.1
  · simpa [arr] using r0.2.2.1
  · simpa [arr] using r0.2.2.2
  · simpa [arr] using r1.1
  · simpa [arr] using r1.2.1
  · simpa [arr] using r1.2.2.1
  · simpa [arr] using r1.2.2.2
  · simpa [arr] using r2.1
  · simpa [arr] using r2.2.1
  · simpa [arr] using r2.2.2.1
  · simpa [arr] using r2.2.2.2
  · simpa [arr] using r3.1
  · simpa [arr] using r3.2.1
  · simpa [arr] using r3.2.2.1
  · simpa [arr] using r3.2.2.2

/-- C26, amended: in exact arithmetic, in every state reached from the
constructor by public calls, `TmTool` has the identity as rotation block and
`(0, 0, 0, 1)` as bottom row, the `Invert` call of `updateTmToolInverse`
returns 1, and it leaves in `TmToolInv` the translation by the negated
position of `TmTool`. -/
theorem tool_inversion_never_fails (sin cos : K → K) (n : Nat)
    (linksInput : Nat → DhKinematicLink K) (qMem TmMem : Nat → K) (ops : List (Op K)) :
    IsTranslation (run sin cos (construct n linksInput qMem TmMem) ops).TmTool ∧
    (Invert
      (Copy (run sin cos (construct n linksInput qMem TmMem) ops).TmTool 4 4
        (run sin cos (construct n linksInput qMem TmMem) ops).TmToolInv) 4).1 = 1 ∧
    toMatrix 4 (run sin cos (construct n linksInput qMem TmMem) ops).updateTmToolInverse.TmToolInv
      = !![1, 0, 0, -(run sin cos (construct n linksInput qMem TmMem) ops).TmTool 3;
           0, 1, 0, -(run sin cos (construct n linksInput qMem TmMem) ops).TmTool 7;
           0, 0, 1, -(run sin cos (construct n linksInput qMem TmMem) ops).TmTool 11;
           0, 0, 0, 1] := by
  have hr := run_isTranslation sin cos ops _ (construct_isTranslation n linksInput qMem TmMem)
  exact ⟨hr, Invert_translation _ hr, Invert_translation_matrix _ hr⟩

/-! ## Rigid transforms -/

theorem isRigidTransform_iff (T : Nat → K) :
    IsRigidTransform T ↔ RigidMatrix (toMatrix 4 T) := Iff.rfl

theorem rigidMatrix_one : RigidMatrix (1 : Matrix (Fin 4) (Fin 4) K) := by
  refine ⟨by simp, by simp, by simp, by simp, ?_, ?_⟩
  · have : (1 : Matrix (Fin 4) (Fin 4) K).submatrix Fin.castSucc Fin.castSucc = 1 := by
      ext i j
      simp [Matrix.one_apply, Fin.ext_iff]
    rw [this, Matrix.transpose_one, mul_one]
  · have : (1 : Matrix (Fin 4) (Fin 4) K).submatrix Fin.castSucc Fin.castSucc = 1 := by
      ext i j
      simp [Matrix.one_apply, Fin.ext_iff]
    rw [this, Matrix.det_one]

/-- Rigid transforms are closed under multiplication. -/
theorem rigidMatrix_mul (M N : Matrix (Fin 4) (Fin 4) K) (hM : RigidMatrix M)
    (hN : RigidMatrix N) : RigidMatrix (M * N) := by
  obtain ⟨m0, m1, m2, m3, mo, md⟩ := hM
  obtain ⟨n0, n1, n2, n3, no, nd⟩ := hN
  have hblock : (M * N).submatrix Fin.castSucc Fin.castSucc
      = M.submatrix Fin.castSucc Fin.castSucc * N.submatrix Fin.castSucc Fin.castSucc := by
    ext i j
    rw [Matrix.submatrix_apply, Matrix.mul_apply, Matrix.mul_apply, Fin.sum_univ_castSucc]
    have hz : N (Fin.last 3) (Fin.castSucc j) = 0 := by
      fin_cases j
      · exact n0
      · exact n1
      · exact n2
    rw [hz, mul_zero, add_zero]
    rfl
  have hrow : ∀ j, (M * N) 3 j = N 3 j := by
    intro j
    rw [Matrix.mul_apply, Fin.sum_univ_four, m0, m1, m2, m3]
    simp
  refine ⟨by rw [hrow, n0], by rw [hrow, n1], by rw [hrow, n2], by rw [hrow, n3], ?_, ?_⟩
  · rw [hblock, Matrix.transpose_mul, Matrix.mul_assoc,
      ← Matrix.mul_assoc (N.submatrix Fin.castSucc Fin.castSucc), no, Matrix.one_mul, mo]
  · rw [hblock, Matrix.det_mul, md, nd, mul_one]

theorem rigidMatrix_foldl (D : Nat → Matrix (Fin 4) (Fin 4) K) (hD : ∀ i, RigidMatrix (D i))
    (l : List Nat) :
    ∀ acc : Matrix (Fin 4) (Fin 4) K, RigidMatrix acc →
      RigidMatrix (List.foldl (fun acc i => acc * D i) acc l) := by
  induction l with
  | nil => intro acc h; exact h
  | cons i rest ih =>
    intro acc h
    exact ih (acc * D i) (rigidMatrix_mul acc (D i) h (hD i))

/-- The link matrix is rigid as soon as `sin² + cos² = 1`. -/
theorem dhMatrix_rigid (sin cos : K → K) (hsc : ∀ x, sin x ^ 2 + cos x ^ 2 = 1)
    (d a alpha q : K) : RigidMatrix (dhMatrix sin cos d a alpha q) := by
  have hq := hsc q
  have ha := hsc alpha
  have hblock : (dhMatrix sin cos d a alpha q).submatrix Fin.castSucc Fin.castSucc
      = !![cos q, -sin q * cos alpha, sin q * sin alpha;
           sin q, cos q * cos alpha, -cos q * sin alpha;
           0, sin alpha, cos alpha] := by
    ext i j
    fin_cases i <;> fin_cases j <;> rfl
  have htr : (!![cos q, -sin q * cos alpha, sin q * sin alpha;
                 sin q, cos q * cos alpha, -cos q * sin alpha;
                 0, sin alpha, cos alpha] : Matrix (Fin 3) (Fin 3) K).transpose
      = !![cos q, sin q, 0;
           -sin q * cos alpha, cos q * cos alpha, sin alpha;
           sin q * sin alpha, -cos q * sin alpha, cos alpha] := by
    ext i j
    fin_cases i <;> fin_cases j <;> rfl
  refine ⟨rfl, rfl, rfl, rfl, ?_, ?_⟩
  · rw [hblock, htr, Matrix.mul_fin_three, Matrix.one_fin_three]
    congr 1
    simp only [mul_zero, zero_mul, add_zero, zero_add]
    ext i j
    fin_cases i <;> fin_cases j <;> simp <;>
      first
        | linear_combination hq + sin q ^ 2 * ha
        | linear_combination hq + cos q ^ 2 * ha
        | linear_combination ha
        | linear_combination (-(cos q * sin q)) * ha
        | ring1
        | rfl
        | (show _ = (0 : K); ring1)
  · rw [hblock, Matrix.det_fin_three]
    simp
    linear_combination (sin alpha ^ 2 + cos alpha ^ 2) * hq + ha

/-- C27 (rigid transforms): over the reals, the matrix `fKine` writes, for
every chain and every joint vector, has bottom row `(0, 0, 0, 1)` and a
rotation block `R` with `R * Rᵀ = 1` and `det R = 1`; so has every matrix
`get_Tm` writes. -/
theorem fKine_is_rigid (c : DhKinematicChain ℝ) (W q : Nat → ℝ) (l : DhKinematicLink ℝ)
    (V : Nat → ℝ) (x : ℝ) :
    IsRigidTransform (c.fKine Real.sin Real.cos W q).2 ∧
    IsRigidTransform (l.get_Tm Real.sin Real.cos V x).2 := by
  constructor
  · rw [isRigidTransform_iff, fKine_matrix]
    exact rigidMatrix_foldl
      (fun i => dhMatrix Real.sin Real.cos (c.links i).d (c.links i).a (c.links i).alpha (q i))
      (fun i => dhMatrix_rigid Real.sin Real.cos Real.sin_sq_add_cos_sq _ _ _ _) _ 1
      rigidMatrix_one
  · rw [isRigidTransform_iff, DhKinematicLink.get_Tm_matrix]
    exact dhMatrix_rigid Real.sin Real.cos Real.sin_sq_add_cos_sq _ _ _ _

/-! ## The link matrix as a product of elementary transforms -/

theorem mul_fin_four (a0 a1 a2 a3 b0 b1 b2 b3 c0 c1 c2 c3 d0 d1 d2 d3
    e0 e1 e2 e3 f0 f1 f2 f3 g0 g1 g2 g3 h0 h1 h2 h3 : K) :
    !![a0, a1, a2, a3; b0, b1, b2, b3; c0, c1, c2, c3; d0, d1, d2, d3]
      * !![e0, e1, e2, e3; f0, f1, f2, f3; g0, g1, g2, g3; h0, h1, h2, h3]
      = !![a0 * e0 + a1 * f0 + a2 * g0 + a3 * h0, a0 * e1 + a1 * f1 + a2 * g1 + a3 * h1,
             a0 * e2 + a1 * f2 + a2 * g2 + a3 * h2, a0 * e3 + a1 * f3 + a2 * g3 + a3 * h3;
           b0 * e0 + b1 * f0 + b2 * g0 + b3 * h0, b0 * e1 + b1 * f1 + b2 * g1 + b3 * h1,
             b0 * e2 + b1 * f2 + b2 * g2 + b3 * h2, b0 * e3 + b1 * f3 + b2 * g3 + b3 * h3;
           c0 * e0 + c1 * f0 + c2 * g0 + c3 * h0, c0 * e1 + c1 * f1 + c2 * g1 + c3 * h1,
             c0 * e2 + c1 * f2 + c2 * g2 + c3 * h2, c0 * e3 + c1 * f3 + c2 * g3 + c3 * h3;
           d0 * e0 + d1 * f0 + d2 * g0 + d3 * h0, d0 * e1 + d1 * f1 + d2 * g1 + d3 * h1,
             d0 * e2 + d1 * f2 + d2 * g2 + d3 * h2, d0 * e3 + d1 * f3 + d2 * g3 + d3 * h3] := by
  ext i j
  fin_cases i <;> fin_cases j <;> simp [Matrix.mul_apply, Fin.sum_univ_four]

/-- The product `trotz(q) * transl(0, 0, d) * transl(a, 0, 0) * trotx(alpha)`,
for any `sin` and `cos`. -/
theorem dh_factorisation (sin cos : K → K) (d a alpha q : K)
    (Wz W1 W2 Wx V1 V2 V3 : Nat → K) :
    toMatrix 4
        (Multiply
          (Multiply
            (Multiply (trotz sin cos Wz q) (transl W1 0 0 d) 4 4 4 V1)
            (transl W2 a 0 0) 4 4 4 V2)
          (trotx sin cos Wx alpha) 4 4 4 V3)
      = dhMatrix sin cos d a alpha q := by
  simp only [toMatrix_Multiply, trotz, transl, trotx, toMatrix_Copy, toMatrix_arr16, dhMatrix]
  rw [mul_fin_four, mul_fin_four, mul_fin_four]
  congr 1
  simp only [mul_zero, mul_one, zero_mul, add_zero, zero_add, one_mul, mul_neg, neg_mul, neg_zero]
  ext i j
  fin_cases i <;> fin_cases j <;> simp <;> ring

/-- C28 (D-H factorisation): over the reals the matrix `get_Tm(q)` writes is
the product `trotz(q) * transl(0, 0, d) * transl(a, 0, 0) * trotx(alpha)`
computed with `Multiply`, and a default-constructed link writes the buffer
`trotz(q)` writes. -/
theorem get_Tm_is_DH_factorisation (l : DhKinematicLink ℝ) (q : ℝ)
    (W Wz W1 W2 Wx V1 V2 V3 : Nat → ℝ) :
    toMatrix 4 (l.get_Tm Real.sin Real.cos W q).2
      = toMatrix 4
          (Multiply
            (Multiply
              (Multiply (trotz Real.sin Real.cos Wz q) (transl W1 0 0 l.d) 4 4 4 V1)
              (transl W2 l.a 0 0) 4 4 4 V2)
            (trotx Real.sin Real.cos Wx l.alpha) 4 4 4 V3) ∧
    (DhKinematicLink.zero.get_Tm Real.sin Real.cos W q).2 = trotz Real.sin Real.cos W q := by
  constructor
  · rw [dh_factorisation, DhKinematicLink.get_Tm_matrix]
  · simp [DhKinematicLink.get_Tm, DhKinematicLink.zero, trotz]

/-! ## Binary32 arithmetic -/

/-- Ties go to the even neighbour: `2^24 + 1` is `2^24`, and `2^24 + 3` is
`2^24 + 4`. -/
theorem F32_add_ties_to_even :
    Binary32.F32.ofNat 16777216 + 1 = Binary32.F32.ofNat 16777216 ∧
    Binary32.F32.ofNat 16777216 + Binary32.F32.ofNat 3 = Binary32.F32.ofNat 16777220 := by
  decide

/-- The quotient `1 / 3` is `11184811 * 2^(-25)`, the binary32 number with
the bits `0x3EAAAAAB`. -/
theorem F32_one_third :
    (1 : Binary32.F32) / Binary32.F32.ofNat 3
      = Binary32.F32.fin false (11184811 * 2 ^ 124) := by
  decide

/-- Overflow gives an infinity; `inf * 0` and `inf - inf` are NaN; a finite
number over an infinity is zero. -/
theorem F32_overflow_and_invalid :
    Binary32.twoPow127 + Binary32.twoPow127 = Binary32.F32.inf false ∧
    Binary32.twoPow127 * Binary32.F32.ofNat 2 = Binary32.F32.inf false ∧
    Binary32.F32.inf false * 0 = Binary32.F32.nan ∧
    Binary32.F32.inf false - Binary32.F32.inf false = Binary32.F32.nan ∧
    (1 : Binary32.F32) / Binary32.F32.inf false = 0 := by
  decide

/-- The test `abs(x) >= tmp` of the pivot search is false on a NaN, and `==`
against zero is false on a NaN and on an infinity. -/
theorem F32_nan_comparisons :
    Binary32.F32.ge (Binary32.F32.abs Binary32.F32.nan) 0 = false ∧
    Binary32.F32.eq Binary32.F32.nan 0 = false ∧
    Binary32.F32.eq (Binary32.F32.inf false) 0 = false := by
  decide

/-- Without links `fKine` evaluates no sine or cosine. -/
theorem fKineWithBaseAndTool_no_links (sin cos sin2 cos2 : Binary32.F32 → Binary32.F32)
    (c : DhKinematicChain Binary32.F32) (h : c.noOfLinks = 0) :
    Binary32.DhKinematicChain.fKineWithBaseAndTool sin cos c
      = Binary32.DhKinematicChain.fKineWithBaseAndTool sin2 cos2 c := by
  simp only [Binary32.DhKinematicChain.fKineWithBaseAndTool, Binary32.DhKinematicChain.fKine,
    h, forUp]

/-- Without links `setToolTransformPosition` evaluates no sine or cosine. -/
theorem setToolTransformPosition_no_links (sin cos sin2 cos2 : Binary32.F32 → Binary32.F32)
    (c : DhKinematicChain Binary32.F32) (h : c.noOfLinks = 0) (dx dy dz zo : Binary32.F32) :
    Binary32.DhKinematicChain.setToolTransformPosition sin cos c dx dy dz zo
      = Binary32.DhKinematicChain.setToolTransformPosition sin2 cos2 c dx dy dz zo := by
  simp only [Binary32.DhKinematicChain.setToolTransformPosition]
  exact fKineWithBaseAndTool_no_links sin cos sin2 cos2 _ h

/-! ## Where binary32 leaves the exact model -/

/-- C5, as stated, fails in binary32: on `[[0.5, 2^127], [0, 0]]`, whose
second row is zero, `Invert` returns 1. Step 0 scales row 0 by `1 / 0.5`,
which takes `2^127` to `+inf`, and the elimination of row 1 stores
`0 - inf * 0`, a NaN; at step 1 the test `abs(NaN) >= 0` is false, `pivrow`
keeps the 0 of step 0, the entry `A[0 * 2 + 1] = inf` is not zero, and the
loop runs to its end. -/
theorem Invert_zero_row_binary32 :
    (Binary32.arr [Binary32.half, Binary32.twoPow127, 0, 0]) (2 * 1 + 0) = 0 ∧
    (Binary32.arr [Binary32.half, Binary32.twoPow127, 0, 0]) (2 * 1 + 1) = 0 ∧
    (Binary32.MatrixMath.Invert
      (Binary32.arr [Binary32.half, Binary32.twoPow127, 0, 0]) 2).1 = 1 := by
  decide

/-- C11, as stated, fails in binary32: with `A = [2^24, 1]` (1 × 2) and
`B = [1, 1]` (2 × 1) `Multiply` stores `16777216` in `C[0]`, where the sum of
the two products is `16777217`. -/
theorem Multiply_rounds_binary32 :
    Binary32.MatrixMath.Multiply
        (Binary32.arr [Binary32.F32.fin false (2 ^ 24 * 2 ^ 149), 1]) (Binary32.arr [1, 1])
        1 2 1 Binary32.uninit (1 * 0 + 0)
      = Binary32.F32.fin false (2 ^ 24 * 2 ^ 149) ∧
    (Binary32.F32.fin false (2 ^ 24 * 2 ^ 149)).toRat = 16777216 ∧
    ∑ k in Finset.range 2,
        ((Binary32.arr [Binary32.F32.fin false (2 ^ 24 * 2 ^ 149), 1]) (2 * 0 + k)).toRat
          * ((Binary32.arr [1, 1]) (1 * k + 0)).toRat
      = 16777217 := by
  refine ⟨by decide, ?_, ?_⟩
  · norm_num [Binary32.F32.toRat]
  · have h1 : (1 : Binary32.F32) = Binary32.F32.fin false (2 ^ 149) := rfl
    simp only [Finset.sum_range_succ, Finset.sum_range_zero, Binary32.arr, h1]
    norm_num [Binary32.F32.toRat]

/-- C25, as stated, fails in binary32: on `[[0.5, 2^127], [0, 1]]` step 0 of
`Invert` leaves `[[2, inf], [0, NaN]]` (row 0 scaled by `1 / 0.5`, then
`A[1][1] = 1 - inf * 0`) with `pivrow = 0`, and the pivot search of step
`k = 1`, whose test `abs(NaN) >= 0` is false, ends with `pivrow = 0`, a row
above `k`. -/
theorem findPivot_stale_binary32 :
    Binary32.MatrixMath.kLoop 2 2 0
        { A := Binary32.arr [Binary32.half, Binary32.twoPow127, 0, 1]
          pivrows := fun _ => 0
          pivrow := 0 }
      = Binary32.MatrixMath.kLoop 2 1 1 Binary32.invertStep0 ∧
    Binary32.invertStep0.A 0 = Binary32.F32.ofNat 2 ∧
    Binary32.invertStep0.A 1 = Binary32.F32.inf false ∧
    Binary32.invertStep0.A 2 = 0 ∧
    Binary32.invertStep0.A 3 = Binary32.F32.nan ∧
    Binary32.invertStep0.pivrow = 0 ∧
    (Binary32.MatrixMath.findPivot Binary32.invertStep0.A 2 1 Binary32.invertStep0.pivrow).2
      = 0 :=
  ⟨rfl, by decide⟩

/-- C26, as stated, fails in binary32: after the constructor and
`setToolTransformPosition(0, 0, 2^127, 2^127)` on a chain without links,
`TmTool` is `[[1,0,0,0],[0,1,0,0],[0,0,1,inf],[0,0,0,1]]` (`2^127 + 2^127`
overflows), still the identity block and the bottom row of the claim; `Invert`
returns 1 on its copy, and `TmToolInv` is
`[[NaN,NaN,NaN,NaN],[NaN,NaN,NaN,NaN],[NaN,NaN,NaN,NaN],[0,0,0,0]]`, not the
translation by the negated position. -/
theorem tool_inversion_binary32 :
    (∀ sin cos : Binary32.F32 → Binary32.F32,
      Binary32.DhKinematicChain.setToolTransformPosition sin cos Binary32.emptyChain
          0 0 Binary32.twoPow127 Binary32.twoPow127
        = Binary32.overflowedToolChain) ∧
    (∀ x, x < 16 →
      Binary32.overflowedToolChain.TmTool x
        = Binary32.arr [1, 0, 0, 0,
                        0, 1, 0, 0,
                        0, 0, 1, Binary32.F32.inf false,
                        0, 0, 0, 1] x) ∧
    (Binary32.MatrixMath.Invert
      (Binary32.MatrixMath.Copy Binary32.overflowedToolChain.TmTool 4 4
        Binary32.overflowedToolChain.TmToolInv) 4).1 = 1 ∧
    (∀ x, x < 16 →
      Binary32.overflowedToolChain.TmToolInv x
        = Binary32.arr [Binary32.F32.nan, Binary32.F32.nan, Binary32.F32.nan, Binary32.F32.nan,
                        Binary32.F32.nan, Binary32.F32.nan, Binary32.F32.nan, Binary32.F32.nan,
                        Binary32.F32.nan, Binary32.F32.nan, Binary32.F32.nan, Binary32.F32.nan,
                        0, 0, 0, 0] x) := by
  refine ⟨fun sin cos => setToolTransformPosition_no_links sin cos _ _ _ rfl _ _ _ _, ?_, ?_, ?_⟩
  · decide!
  · decide!
  · decide!

/-- C6, as stated, fails in binary32: on the chain reached by the constructor
and `setToolTransformPosition(0, 0, 2^127, 2^127)`, a call of
`updateTmToolInverse` completes, nothing is reported (`Invert` returns 1 and
the method returns nothing), and `TmToolInv` is not the inverse of `TmTool`:
entries `[0][0]` and `[3][3]` of `Multiply(TmTool, TmToolInv, 4, 4, 4)` are
NaN, where the identity has 1. -/
theorem updateTmToolInverse_silent_binary32 :
    (Binary32.MatrixMath.Invert
      (Binary32.MatrixMath.Copy Binary32.overflowedToolChain.TmTool 4 4
        Binary32.overflowedToolChain.TmToolInv) 4).1 = 1 ∧
    Binary32.MatrixMath.Multiply
        (Binary32.DhKinematicChain.updateTmToolInverse Binary32.overflowedToolChain).TmTool
        (Binary32.DhKinematicChain.updateTmToolInverse Binary32.overflowedToolChain).TmToolInv
        4 4 4 Binary32.uninit (4 * 0 + 0)
      = Binary32.F32.nan ∧
    Binary32.MatrixMath.Multiply
        (Binary32.DhKinematicChain.updateTmToolInverse Binary32.overflowedToolChain).TmTool
        (Binary32.DhKinematicChain.updateTmToolInverse Binary32.overflowedToolChain).TmToolInv
        4 4 4 Binary32.uninit (4 * 3 + 3)
      = Binary32.F32.nan := by
  decide!

/-- C21, as stated, fails in binary32: after the constructor,
`fKineWithBaseAndTool()`, `set_TmCurrentPosition(2^127, 0, 0)` and
`multiply_TmCurrentByTm` with the translation by `(2^127, 0, 0)` on a chain
without links, `TmCurrent` is `[[1,0,0,inf],[0,1,0,0],[0,0,1,0],[0,0,0,1]]`
(`2^127 + 2^127` overflows); `multiply_TmCurrentByTm` with the identity then
turns row 0 into `[NaN, NaN, NaN, inf]`, since `inf * 0` is NaN. -/
theorem multiply_by_identity_binary32 :
    (∀ sin cos : Binary32.F32 → Binary32.F32,
      Binary32.DhKinematicChain.multiply_TmCurrentByTm
          (Binary32.DhKinematicChain.set_TmCurrentPosition
            (Binary32.DhKinematicChain.fKineWithBaseAndTool sin cos Binary32.emptyChain)
            Binary32.twoPow127 0 0)
          (Binary32.arr [1, 0, 0, Binary32.twoPow127,
                         0, 1, 0, 0,
                         0, 0, 1, 0,
                         0, 0, 0, 1])
        = Binary32.overflowedPoseChain) ∧
    (∀ x, x < 16 →
      Binary32.overflowedPoseChain.TmCurrent x
        = Binary32.arr [1, 0, 0, Binary32.F32.inf false,
                        0, 1, 0, 0,
                        0, 0, 1, 0,
                        0, 0, 0, 1] x) ∧
    (∀ x, x < 16 →
      (Binary32.DhKinematicChain.multiply_TmCurrentByTm Binary32.overflowedPoseChain
          (Binary32.arr [1, 0, 0, 0,
                         0, 1, 0, 0,
                         0, 0, 1, 0,
                         0, 0, 0, 1])).TmCurrent x
        = Binary32.arr [Binary32.F32.nan, Binary32.F32.nan, Binary32.F32.nan,
                          Binary32.F32.inf false,
                        0, 1, 0, 0,
                        0, 0, 1, 0,
                        0, 0, 0, 1] x) := by
  refine ⟨fun sin cos => ?_, ?_, ?_⟩
  · rw [fKineWithBaseAndTool_no_links sin cos (fun x => x) (fun x => x) _ rfl]
    rfl
  · decide!
  · decide!

end DhSerial
